import Mathlib

/-!
# Hidden-sector engine of `drivers/md/dm-crypt.c`

A shallow embedding of the carrier allocator (free list), the dirty list, the
hidden-sector map, the IV-slot splice/gather loops, the public-write pass and the
recovery scan, and of the B+ tree of `drivers/md/bpt.c` with its node images on the
disk, followed by the properties checked against them.

Conventions of the embedding:

* A C pointer to a list cell is an address (`Nat`); `Option Nat` is a pointer that
  may be `NULL` (`none`).
* `kmalloc` hands out the next unused address (`brk`) and is assumed to succeed, as
  the code assumes. `kfree` only marks the cell as freed: its bytes stay where they
  are, so a read or write through a dangling pointer is visible in the model as an
  access to a cell whose `freed` flag is set.
* `unsigned` is a `Nat` reduced modulo `2 ^ 32` where the code can wrap, `unsigned
  short` modulo `2 ^ 16`, `int` an `Int`.
* A loop over a linked list takes fuel; running out of fuel is `none` and stands for
  a walk that never reaches `NULL`.
-/

namespace PdLinux

/-! ## Free list (`struct freelist`, `addto_freelist`, `getfrom_freelist`) -/

/-- One `struct freelist` cell: the sector number and the `next` pointer. -/
structure freelist where
  sector : Nat
  next : Option Nat
deriving DecidableEq

/-- The module-level variables `head_freelist`, `tail_freelist`, `total_freelist`
together with the memory that holds the cells. `mem a` is the content of the cell at
address `a`, `freed a` tells whether `kfree` has been called on it, `brk` is the next
address `kmalloc` returns. -/
structure FreeState where
  mem : Nat → freelist
  freed : Nat → Bool
  brk : Nat
  head_freelist : Option Nat
  tail_freelist : Option Nat
  total_freelist : Nat

/-- The state at module load: `head_freelist = tail_freelist = NULL`,
`total_freelist = 0`. -/
def FreeState.init : FreeState :=
  { mem := fun _ => ⟨0, none⟩, freed := fun _ => false, brk := 0,
    head_freelist := none, tail_freelist := none, total_freelist := 0 }

/-- Write of a whole cell (`node->sector = ...; node->next = ...`). -/
def setCell (mem : Nat → freelist) (a : Nat) (c : freelist) : Nat → freelist :=
  fun b => if b = a then c else mem b

/-- The assignment `a->next = p`. -/
def setNext (mem : Nat → freelist) (a : Nat) (p : Option Nat) : Nat → freelist :=
  fun b => if b = a then { sector := (mem a).sector, next := p } else mem b

/-- The call `kfree(a)`. -/
def kfree (freed : Nat → Bool) (a : Nat) : Nat → Bool :=
  fun b => if b = a then true else freed b

/-- The effect of `kmalloc` returning the address `a` on the `freed` flags: the cell
is in use again. -/
def kmalloc (freed : Nat → Bool) (a : Nat) : Nat → Bool :=
  fun b => if b = a then false else freed b

/-- How the `while (temp != NULL)` loop of `addto_freelist` is left. -/
inductive AddScan where
  | dup : AddScan
  | slot (prev : Nat) (temp : Option Nat) : AddScan
deriving DecidableEq

/-- The loop of `addto_freelist` (lines 314-324), started with `temp` and `prev`:
`break` on `sector < temp->sector`, early return on `sector == temp->sector`,
otherwise `prev = temp; temp = temp->next`. -/
def addto_freelist_loop (mem : Nat → freelist) (sector : Nat) :
    Nat → Option Nat → Nat → Option AddScan
  | 0, _, _ => none
  | _ + 1, none, prev => some (AddScan.slot prev none)
  | fuel + 1, some t, prev =>
    if sector < (mem t).sector then some (AddScan.slot prev (some t))
    else if sector = (mem t).sector then some AddScan.dup
    else addto_freelist_loop mem sector fuel (mem t).next t

/-- The function `addto_freelist(unsigned sector)` (lines 293-333). -/
def addto_freelist (sector : Nat) (st : FreeState) : Option FreeState :=
  -- node = kmalloc(...); node->sector = sector; node->next = NULL;
  let node := st.brk
  let mem1 := setCell st.mem node ⟨sector, none⟩
  let freed1 := kmalloc st.freed node
  let brk1 := st.brk + 1
  match st.head_freelist with
  | none =>
    -- head_freelist = tail_freelist = node; goto unlock;
    some { st with mem := mem1, freed := freed1, brk := brk1, head_freelist := some node,
                   tail_freelist := some node,
                   total_freelist := (st.total_freelist + 1) % 2 ^ 32 }
  | some h =>
    if sector < (mem1 h).sector then
      -- node->next = head_freelist; head_freelist = node; goto unlock;
      some { st with mem := setNext mem1 node (some h), freed := freed1, brk := brk1,
                     head_freelist := some node,
                     total_freelist := (st.total_freelist + 1) % 2 ^ 32 }
    else
      match addto_freelist_loop mem1 sector (brk1 + 1) (some h) h with
      | none => none
      | some AddScan.dup =>
        -- kfree(node); return;
        some { st with mem := mem1, brk := brk1, freed := kfree freed1 node }
      | some (AddScan.slot prev temp) =>
        -- node->next = temp; prev->next = node; total_freelist++;
        some { st with mem := setNext (setNext mem1 node temp) prev (some node),
                       freed := freed1, brk := brk1,
                       total_freelist := (st.total_freelist + 1) % 2 ^ 32 }

/-- The entry `results[0]` of a `struct freelist_results` array. -/
structure freelist_results where
  start : Nat
  len : Int
deriving DecidableEq

/-- The local variables of `getfrom_freelist` when its first loop is left. -/
structure RunScan where
  temp : Nat
  next : Option Nat
  temp_prev : Option Nat
  prev : Nat
  count : Int
deriving DecidableEq

/-- The first loop of `getfrom_freelist` (lines 362-375). `temp` is never `NULL`
inside the loop (it starts as the non-null head and is only ever assigned a non-null
`next`), so the loop condition is `next != NULL`. On a gap the code executes
`temp = prev = next; temp_prev = prev;`, which leaves `temp_prev` equal to the new
`temp`. `temp->sector + count` is an `unsigned` sum. -/
def getfrom_freelist_scan (mem : Nat → freelist) (sector_count : Int) :
    Nat → Nat → Option Nat → Option Nat → Nat → Int → Option RunScan
  | 0, _, _, _, _, _ => none
  | _ + 1, temp, none, temp_prev, prev, count =>
    some { temp := temp, next := none, temp_prev := temp_prev, prev := prev, count := count }
  | fuel + 1, temp, some n, temp_prev, _, count =>
    if ((mem n).sector : Int) ≠ (((mem temp).sector : Int) + count) % 2 ^ 32 then
      getfrom_freelist_scan mem sector_count fuel n (mem n).next (some n) n 1
    else if count + 1 = sector_count then
      some { temp := temp, next := (mem n).next, temp_prev := temp_prev, prev := n,
             count := count + 1 }
    else
      getfrom_freelist_scan mem sector_count fuel temp (mem n).next temp_prev n (count + 1)

/-- The loop that frees the allotted cells (lines 390-395):
`while (prev != next) { kfree(prev); prev = temp; if (temp) temp = temp->next; }`.
`kfree(NULL)` does nothing. -/
def getfrom_freelist_release (mem : Nat → freelist) (next : Option Nat) :
    Nat → Option Nat → Option Nat → (Nat → Bool) → Option (Nat → Bool)
  | 0, _, _, _ => none
  | fuel + 1, prev, temp, freed =>
    if prev = next then some freed
    else
      getfrom_freelist_release mem next fuel temp
        (match temp with
         | some t => (mem t).next
         | none => none)
        (match prev with
         | some p => kfree freed p
         | none => freed)

/-- What `getfrom_freelist` hands back: its return value, `results[0]` and the new
module state. -/
structure GetOut where
  ret : Int
  results : freelist_results
  st : FreeState

/-- The function `getfrom_freelist(int sector_count, struct freelist_results *results)`
(lines 347-405). `results` is the caller's `results[0]`, left alone on failure. -/
def getfrom_freelist (sector_count : Int) (results : freelist_results) (st : FreeState) :
    Option GetOut :=
  match st.head_freelist with
  | none => some { ret := -1, results := results, st := st }
  | some h =>
    if st.total_freelist = 0 then some { ret := -1, results := results, st := st }
    else
      match getfrom_freelist_scan st.mem sector_count (st.brk + 1) h (st.mem h).next none h 1 with
      | none => none
      | some r =>
        if r.count ≠ sector_count then some { ret := -1, results := results, st := st }
        else
          -- prev = temp; temp = temp->next; while (prev != next) ...
          match getfrom_freelist_release st.mem r.next (st.brk + 1) (some r.temp)
                  (st.mem r.temp).next st.freed with
          | none => none
          | some freed1 =>
            let res : freelist_results := { start := (st.mem r.temp).sector, len := r.count }
            let total1 := ((st.total_freelist : Int) - sector_count) % 2 ^ 32
            match r.temp_prev with
            | some tp =>
              -- temp_prev->next = next;
              some { ret := 0, results := res,
                     st := { st with mem := setNext st.mem tp r.next, freed := freed1,
                                     total_freelist := total1.toNat } }
            | none =>
              -- head_freelist = next;
              some { ret := 0, results := res,
                     st := { st with head_freelist := r.next, freed := freed1,
                                     total_freelist := total1.toNat } }

/-- The addresses met when following `next` from `p`, at most `fuel` of them. -/
def walk (mem : Nat → freelist) : Nat → Option Nat → List Nat
  | 0, _ => []
  | _ + 1, none => []
  | fuel + 1, some a => a :: walk mem fuel (mem a).next

/-- The cells reachable from `head_freelist`. -/
def FreeState.nodes (st : FreeState) : List Nat :=
  walk st.mem st.brk st.head_freelist

/-- The sector numbers reachable from `head_freelist`, in list order. -/
def FreeState.sectors (st : FreeState) : List Nat :=
  st.nodes.map (fun a => (st.mem a).sector)

/-- Repeated `addto_freelist`, as a caller that adds several sectors in turn. -/
def addto_freelist_all : List Nat → FreeState → Option FreeState
  | [], st => some st
  | s :: rest, st => (addto_freelist s st).bind (addto_freelist_all rest)

/-- A run of cells: following `next` from `p` goes through exactly the addresses
`as` and then arrives at the pointer `q`. -/
def Seg (mem : Nat → freelist) : Option Nat → List Nat → Option Nat → Prop
  | p, [], q => p = q
  | p, a :: as, q => p = some a ∧ Seg mem (mem a).next as q

instance Seg.decide (mem : Nat → freelist) :
    (p : Option Nat) → (as : List Nat) → (q : Option Nat) → Decidable (Seg mem p as q)
  | p, [], q => inferInstanceAs (Decidable (p = q))
  | p, a :: as, q =>
    have := Seg.decide mem (mem a).next as q
    inferInstanceAs (Decidable (p = some a ∧ Seg mem (mem a).next as q))

/-- The free list is a proper `NULL`-terminated list: the walk from `head_freelist`
ends at `NULL`, and every cell on it was handed out by `kmalloc` and has not been
freed. -/
def FreeState.WF (st : FreeState) : Prop :=
  Seg st.mem st.head_freelist st.nodes none ∧
    ∀ a ∈ st.nodes, a < st.brk ∧ st.freed a = false

instance (st : FreeState) : Decidable st.WF := by
  unfold FreeState.WF; infer_instance

/-- Strictly ascending list of sector numbers. -/
def Ascending (l : List Nat) : Prop := l.Pairwise (fun a b => a < b)

instance (l : List Nat) : Decidable (Ascending l) := by
  unfold Ascending; infer_instance

/-- The free list `a, b, c` laid out in three cells at addresses 0, 1, 2. -/
def FreeState.three (a b c : Nat) : FreeState :=
  { mem := fun x => if x = 0 then ⟨a, some 1⟩ else if x = 1 then ⟨b, some 2⟩ else ⟨c, none⟩,
    freed := fun _ => false, brk := 3,
    head_freelist := some 0, tail_freelist := some 0, total_freelist := 3 }

/-- The free list `a, b` laid out in two cells at addresses 0 and 1. -/
def FreeState.two (a b : Nat) : FreeState :=
  { mem := fun x => if x = 0 then ⟨a, some 1⟩ else ⟨b, none⟩,
    freed := fun _ => false, brk := 2,
    head_freelist := some 0, tail_freelist := some 0, total_freelist := 2 }

/-! ## Integers and byte buffers -/

/-- Conversion of an `int` to `unsigned` (32 bits). -/
def toU32 (x : Int) : Nat := (x % 2 ^ 32).toNat

/-- Conversion of an `unsigned` to `int` (32 bits, two's complement). -/
def toInt32 (x : Nat) : Int :=
  if x % 2 ^ 32 < 2 ^ 31 then ((x % 2 ^ 32 : Nat) : Int) else ((x % 2 ^ 32 : Nat) : Int) - 2 ^ 32

/-- A byte buffer addressed by offset. -/
abbrev Buf := Nat → Nat

/-- The call `memcpy(dst + d, src + s, n)`. -/
def memcpy (dst : Buf) (d : Nat) (src : Buf) (s : Nat) (n : Nat) : Buf :=
  fun i => if d ≤ i ∧ i < d + n then src (s + (i - d)) else dst i

/-- The call `memset(dst + d, c, n)`. -/
def memset (dst : Buf) (d : Nat) (c : Nat) (n : Nat) : Buf :=
  fun i => if d ≤ i ∧ i < d + n then c else dst i

/-- The byte store `dst[d] = v`. -/
def poke (dst : Buf) (d : Nat) (v : Nat) : Buf :=
  fun i => if i = d then v % 256 else dst i

/-- The bytes of an integer variable in memory (little endian), as `&x` is read by
`memcpy`. -/
def le_bytes (x : Nat) : Buf := fun k => (x / 256 ^ k) % 256

/-- The value of an `n`-byte integer variable after `memcpy(&x, b + off, n)`. -/
def le_load (b : Buf) (off : Nat) : Nat → Nat
  | 0 => 0
  | n + 1 => b off % 256 + 256 * le_load b (off + 1) n

def IV_SIZE : Nat := 16
def SECTOR_NUM_LEN : Nat := 4
def SEQUENCE_NUMBER_LEN : Nat := 2
def PD_MAGIC_DATA : Nat := 0xAA
def PD_MAGIC_DATA_LEN : Nat := 1
def PD_MAGIC_DATA_POS : Nat := IV_SIZE - PD_MAGIC_DATA_LEN
def RANDOM_BYTES_PER_TAG : Nat := 2
def RANDOM_BYTES_POS : Nat := IV_SIZE - PD_MAGIC_DATA_LEN - RANDOM_BYTES_PER_TAG
def IV_OFFSET_LEN : Nat := 1
def IV_OFFSET_POS : Nat := IV_SIZE - PD_MAGIC_DATA_LEN - RANDOM_BYTES_PER_TAG - IV_OFFSET_LEN
def HIDDEN_BYTES_IN_FIRST_IV : Nat :=
  IV_SIZE - PD_MAGIC_DATA_LEN - RANDOM_BYTES_PER_TAG - IV_OFFSET_LEN - SEQUENCE_NUMBER_LEN
    - SECTOR_NUM_LEN
def HIDDEN_BYTES_IN_REST_IVS : Nat :=
  IV_SIZE - PD_MAGIC_DATA_LEN - RANDOM_BYTES_PER_TAG - IV_OFFSET_LEN - SEQUENCE_NUMBER_LEN
def NUM_PUBLIC_SECTORS_PER_HIDDEN_SECTOR : Nat := 52
def REUSE_PHYSICAL_BIT : Nat := 48

/-! ## Hidden-sector map (`map_idr`, `map_insert`, `map_find`) -/

/-- The kernel `idr` behind `map_idr`, by its documented contract: `m id` is `none`
when `id` is not allocated and `some p` when it is allocated with pointer `p` stored
under it. A stored `NULL` pointer keeps its id allocated. -/
abbrev Idr := Nat → Option Nat

/-- `idr_find`: the stored pointer, `NULL` (0) for an id that is not allocated. -/
def idr_find (m : Idr) (id : Nat) : Nat := (m id).getD 0

/-- `idr_remove`. -/
def idr_remove (m : Idr) (id : Nat) : Idr := fun k => if k = id then none else m k

/-- `idr_alloc(idr, ptr, start, end, gfp)`: `-EINVAL` (-22) for a negative `start`,
otherwise the lowest id in `[start, end)` that is not allocated (`end <= 0` stands for
`INT_MAX + 1`), or `-ENOSPC` (-28) when there is none. Memory for the new entry is
assumed available. -/
def idr_alloc (m : Idr) (ptr : Nat) (start end_ : Int) : Int × Idr :=
  if start < 0 then (-22, m)
  else
    let max : Int := if end_ > 0 then end_ - 1 else 2147483647
    match (List.range' start.toNat (max + 1 - start).toNat).find? (fun id => (m id).isNone) with
    | some id => ((id : Int), fun k => if k = id then some ptr else m k)
    | none => (-28, m)

/-- The function `map_insert` (lines 2234-2264). `lseq_num = none` is a `NULL`
pointer. Returns the return value and the new map. -/
def map_insert (m : Idr) (sector value : Nat) (lseq_num : Option Nat)
    (reuse_physical_sector : Bool) : Int × Idr :=
  let complete := idr_find m sector
  -- if (complete) { seq_num = complete >> 32; idr_remove(&map_idr, sector); }
  let seq_num0 := if complete ≠ 0 then (complete >>> 32) % 2 ^ 16 else 0
  let m1 := if complete ≠ 0 then idr_remove m sector else m
  let seq_num :=
    match lseq_num with
    | some s => s % 2 ^ 16
    | none => (seq_num0 + 1) % 2 ^ 16
  -- complete = seq_num; complete = complete << 32 | value;
  let complete1 := (seq_num <<< 32) ||| (value % 2 ^ 32)
  let complete2 :=
    if reuse_physical_sector then complete1 ||| (1 <<< REUSE_PHYSICAL_BIT) else complete1
  let r := idr_alloc m1 complete2 (toInt32 sector) (toInt32 (sector + 1))
  if r.1 < 0 then (if r.1 = -28 then -16 else r.1, r.2) else (0, r.2)

/-- What `map_find` leaves behind: its return value and the two out-parameters. -/
structure FindOut where
  ret : Int
  seq_num : Nat
  reuse_physical_sector : Bool
deriving DecidableEq

/-- The function `map_find` (lines 2266-2286). `seq_num` and `reuse_physical_sector`
are the values the caller's variables hold before the call; they are kept when the
key is not found. A caller that passes `NULL` ignores the corresponding field. -/
def map_find (m : Idr) (sector : Nat) (seq_num : Nat) (reuse_physical_sector : Bool) :
    FindOut :=
  let complete := idr_find m sector
  if complete = 0 then
    { ret := -1, seq_num := seq_num, reuse_physical_sector := reuse_physical_sector }
  else
    { ret := toInt32 (complete &&& 0xFFFFFFFF),
      seq_num := (complete >>> 32) % 2 ^ 16,
      reuse_physical_sector := decide (complete &&& (1 <<< REUSE_PHYSICAL_BIT) ≠ 0) }

/-! ## Splice loop of the hidden write and gather loop of the hidden read -/

/-- The loop variables of the splice loop of `kcryptd_crypt_write_convert`
(lines 2763-2833). `in_pos` and `out_pos` are the byte positions of `iter_in` in the
data of `io->base_bio` and of `iter_out` in the pages of `clone`; `bi_size` is
`iter_in.bi_size`; `dbuffer` is the content of the pages of `clone`. -/
structure SpliceState where
  in_pos : Nat
  bi_size : Nat
  out_pos : Nat
  sector_num : Nat
  is_first_iv : Bool
  iv_offset : Nat
  total_copied : Nat
  dbuffer : Buf

/-- The sequence number the splice loop computes for `sector_num` (lines 2777-2780):
1 when `map_find` returns -1, the stored number plus one when the reuse bit is not
set, the stored number otherwise. -/
def write_sequence_number (m : Idr) (sector_num : Nat) : Nat :=
  let f := map_find m sector_num 0 false
  if f.ret = -1 then 1
  else if !f.reuse_physical_sector then (f.seq_num + 1) % 2 ^ 16
  else f.seq_num

/-- The value of `copy_bytes` after lines 2787-2789 (and 3029-3031 in the gather
loop): `min(HIDDEN_BYTES_PER_TAG, bi_size)`, cut down so that `total_copied` does not
pass `sector_size`. -/
def copy_bytes_for (sector_size : Nat) (is_first_iv : Bool) (bi_size total_copied : Nat) :
    Nat :=
  let HIDDEN_BYTES_PER_TAG :=
    if is_first_iv then HIDDEN_BYTES_IN_FIRST_IV else HIDDEN_BYTES_IN_REST_IVS
  let copy_bytes := min HIDDEN_BYTES_PER_TAG bi_size
  if total_copied + copy_bytes > sector_size then sector_size - total_copied else copy_bytes

/-- The metadata written behind the payload of the IV slot at `out_pos`
(lines 2805-2820): in a head slot the logical sector number, the sequence number,
`iv_offset`, two zero bytes and the magic byte; in a tail slot the same without the
sector number. -/
def stamp_iv (d : Buf) (out_pos : Nat) (is_first_iv : Bool)
    (sector_num sequence_number iv_offset : Nat) : Buf :=
  let HIDDEN_BYTES_PER_TAG :=
    if is_first_iv then HIDDEN_BYTES_IN_FIRST_IV else HIDDEN_BYTES_IN_REST_IVS
  let o := out_pos + HIDDEN_BYTES_PER_TAG
  if is_first_iv then
    poke (memset (poke (memcpy (memcpy d o (le_bytes sector_num) 0 SECTOR_NUM_LEN)
              (o + SECTOR_NUM_LEN) (le_bytes sequence_number) 0 SEQUENCE_NUMBER_LEN)
            (o + SECTOR_NUM_LEN + SEQUENCE_NUMBER_LEN) iv_offset)
          (o + SECTOR_NUM_LEN + SEQUENCE_NUMBER_LEN + IV_OFFSET_LEN) 0 RANDOM_BYTES_PER_TAG)
      (o + SECTOR_NUM_LEN + SEQUENCE_NUMBER_LEN + IV_OFFSET_LEN + RANDOM_BYTES_PER_TAG)
      PD_MAGIC_DATA
  else
    poke (memset (poke (memcpy d o (le_bytes sequence_number) 0 SEQUENCE_NUMBER_LEN)
            (o + SEQUENCE_NUMBER_LEN) iv_offset)
          (o + SEQUENCE_NUMBER_LEN + IV_OFFSET_LEN) 0 RANDOM_BYTES_PER_TAG)
      (o + SEQUENCE_NUMBER_LEN + IV_OFFSET_LEN + RANDOM_BYTES_PER_TAG) PD_MAGIC_DATA

/-- One pass through the body of the splice loop. The data of `io->base_bio` is the
buffer `sbuffer`, held in one segment, so that `bv_in.bv_len` is the number of bytes
left, `bi_size`. -/
def splice_step (m : Idr) (sector_size : Nat) (sbuffer : Buf) (s : SpliceState) :
    SpliceState :=
  let sequence_number := write_sequence_number m s.sector_num
  let copy_bytes1 := copy_bytes_for sector_size s.is_first_iv s.bi_size s.total_copied
  let bv_len := s.bi_size
  -- page boundary branch (lines 2791-2803)
  let small_copy := bv_len
  let d1 :=
    if bv_len < copy_bytes1 then
      memcpy (memcpy s.dbuffer s.out_pos sbuffer s.in_pos small_copy)
        (s.out_pos + small_copy) sbuffer (s.in_pos + small_copy) (copy_bytes1 - small_copy)
    else memcpy s.dbuffer s.out_pos sbuffer s.in_pos copy_bytes1
  let in_pos1 := if bv_len < copy_bytes1 then s.in_pos + small_copy else s.in_pos
  let bi_size1 := if bv_len < copy_bytes1 then s.bi_size - small_copy else s.bi_size
  let copy_bytes := if bv_len < copy_bytes1 then copy_bytes1 - small_copy else copy_bytes1
  let d2 := stamp_iv d1 s.out_pos s.is_first_iv s.sector_num sequence_number s.iv_offset
  let total_copied := s.total_copied + copy_bytes
  let iv_offset := (s.iv_offset + 1) % 256
  if total_copied = sector_size then
    { in_pos := in_pos1 + copy_bytes, bi_size := bi_size1 - copy_bytes,
      out_pos := s.out_pos + IV_SIZE, sector_num := (s.sector_num + 1) % 2 ^ 32,
      is_first_iv := true, iv_offset := 0, total_copied := 0, dbuffer := d2 }
  else
    { in_pos := in_pos1 + copy_bytes, bi_size := bi_size1 - copy_bytes,
      out_pos := s.out_pos + IV_SIZE, sector_num := s.sector_num,
      is_first_iv := false, iv_offset := iv_offset, total_copied := total_copied,
      dbuffer := d2 }

/-- The loop `while (iter_in.bi_size)` around `splice_step`. -/
def splice_loop (m : Idr) (sector_size : Nat) (sbuffer : Buf) :
    Nat → SpliceState → Option SpliceState
  | 0, _ => none
  | fuel + 1, s =>
    if s.bi_size = 0 then some s
    else splice_loop m sector_size sbuffer fuel (splice_step m sector_size sbuffer s)

/-- The splice of `kcryptd_crypt_write_convert` for a bio of `bi_size` bytes at
sector `bi_sector` whose data is `sbuffer`; `clone` is what the freshly allocated
pages of `clone` hold before the loop. `on_disk_tag_size` is `IV_SIZE`. -/
def kcryptd_crypt_write_convert_splice (m : Idr) (sector_size : Nat) (bi_sector : Nat)
    (sbuffer : Buf) (bi_size : Nat) (clone : Buf) : Option SpliceState :=
  splice_loop m sector_size sbuffer (bi_size + 1)
    { in_pos := 0, bi_size := bi_size, out_pos := 0, sector_num := bi_sector % 2 ^ 32,
      is_first_iv := true, iv_offset := 0, total_copied := 0, dbuffer := clone }

/-- The loop variables of the gather loop of `kcryptd_crypt_read_convert`
(lines 3014-3059): `in_pos` runs over the decrypted IV slots (`io->ctx.bio_out`),
`out_pos` and `bi_size` over the caller's bio (`io->base_bio`), whose data is
`dbuffer`. -/
structure GatherState where
  in_pos : Nat
  out_pos : Nat
  bi_size : Nat
  is_first_iv : Bool
  total_copied : Nat
  dbuffer : Buf

/-- One pass through the body of the gather loop; the caller's bio is one segment,
so `bv_out.bv_len` is `bi_size`. -/
def gather_step (sector_size : Nat) (sbuffer : Buf) (s : GatherState) : GatherState :=
  let copy_bytes1 := copy_bytes_for sector_size s.is_first_iv s.bi_size s.total_copied
  let bv_len := s.bi_size
  let small_copy := bv_len
  let d1 :=
    if bv_len < copy_bytes1 then
      memcpy (memcpy s.dbuffer s.out_pos sbuffer s.in_pos small_copy)
        (s.out_pos + small_copy) sbuffer (s.in_pos + small_copy) (copy_bytes1 - small_copy)
    else memcpy s.dbuffer s.out_pos sbuffer s.in_pos copy_bytes1
  let out_pos1 := if bv_len < copy_bytes1 then s.out_pos + small_copy else s.out_pos
  let bi_size1 := if bv_len < copy_bytes1 then s.bi_size - small_copy else s.bi_size
  let copy_bytes := if bv_len < copy_bytes1 then copy_bytes1 - small_copy else copy_bytes1
  let total_copied := s.total_copied + copy_bytes
  if total_copied = sector_size then
    { in_pos := s.in_pos + IV_SIZE, out_pos := out_pos1 + copy_bytes,
      bi_size := bi_size1 - copy_bytes, is_first_iv := true, total_copied := 0,
      dbuffer := d1 }
  else
    { in_pos := s.in_pos + IV_SIZE, out_pos := out_pos1 + copy_bytes,
      bi_size := bi_size1 - copy_bytes, is_first_iv := false,
      total_copied := total_copied, dbuffer := d1 }

/-- The loop `while (iter_out.bi_size)` around `gather_step`. -/
def gather_loop (sector_size : Nat) (sbuffer : Buf) : Nat → GatherState → Option GatherState
  | 0, _ => none
  | fuel + 1, s =>
    if s.bi_size = 0 then some s
    else gather_loop sector_size sbuffer fuel (gather_step sector_size sbuffer s)

/-- The gather of `kcryptd_crypt_read_convert` for a read of `bi_size` bytes:
`slots` are the decrypted IV slots, `base` is what the caller's pages hold before. -/
def kcryptd_crypt_read_convert_gather (sector_size : Nat) (slots : Buf) (bi_size : Nat)
    (base : Buf) : Option GatherState :=
  gather_loop sector_size slots (bi_size + 1)
    { in_pos := 0, out_pos := 0, bi_size := bi_size, is_first_iv := true,
      total_copied := 0, dbuffer := base }

/-! ## Hidden write: carrier selection and map update -/

/-- The carrier selection of `kcryptd_io_read` under `PD_READ_DURING_HIDDEN_WRITE`
(lines 2310-2342 and 2354) for a bio of one sector at `bi_sector` (`i = 0`): the
block marked `TEST` adds the 52 sectors `bi_sector * 52 + k` to the free list, then
the carriers are those of the map entry when it has the reuse bit, and a fresh run
from `getfrom_freelist` otherwise. Returns the return value of `kcryptd_io_read`
(1 when no run is found), `io->freelist[0][0].start` and the free list. -/
def kcryptd_io_read_carriers (m : Idr) (bi_sector : Nat) (fl : FreeState) :
    Option (Int × Nat × FreeState) :=
  let lsector := bi_sector % 2 ^ 32
  match addto_freelist_all
      ((List.range NUM_PUBLIC_SECTORS_PER_HIDDEN_SECTOR).map
        (fun k => ((0 + bi_sector) * NUM_PUBLIC_SECTORS_PER_HIDDEN_SECTOR + k) % 2 ^ 32)) fl with
  | none => none
  | some fl1 =>
    let f := map_find m lsector 0 false
    let start0 := toU32 f.ret
    if f.ret = -1 ∨ f.reuse_physical_sector = false then
      match getfrom_freelist NUM_PUBLIC_SECTORS_PER_HIDDEN_SECTOR ⟨start0, 0⟩ fl1 with
      | none => none
      | some out =>
        if out.ret ≠ 0 then some (1, out.results.start, out.st)
        else some (0, out.results.start, out.st)
    else some (0, start0, fl1)

/-- The function `kcryptd_io_rdwr_map` (lines 2434-2457) for a bio of one sector:
`map_insert(sector, start, NULL, true)` unless the entry of `sector` has the reuse
bit. Returns what `map_insert` returned (0 when it is not called; the code only
logs a failure) and the map. -/
def kcryptd_io_rdwr_map (m : Idr) (bi_sector : Nat) (start : Nat) : Int × Idr :=
  let sector := bi_sector % 2 ^ 32
  let f := map_find m sector 0 false
  if f.ret = -1 ∨ f.reuse_physical_sector = false then map_insert m sector start none true
  else (0, m)

/-- The outcome of one hidden write. -/
structure HiddenWrite where
  /-- `io->error` was set because no carrier run was found. -/
  error : Bool
  /-- The IV slots built by the splice loop. -/
  slots : Buf
  /-- `io->freelist[0][0].start`, the first carrier. -/
  start : Nat
  /-- The return value of `map_insert` in `kcryptd_io_rdwr_map`, 0 if not called. -/
  map_ret : Int
  map_idr : Idr
  fl : FreeState

/-- A hidden write of the 512-byte sector `sbuffer` to logical sector `bi_sector`, in
the order the request runs through the driver: the splice of
`kcryptd_crypt_write_convert`, the carrier selection of `kcryptd_io_read`, and, after
the carriers have been read, re-encrypted and written (not modelled, assumed to
succeed), `kcryptd_io_rdwr_map`. -/
def hidden_write (m : Idr) (fl : FreeState) (bi_sector : Nat) (sbuffer clone : Buf) :
    Option HiddenWrite :=
  match kcryptd_crypt_write_convert_splice m 512 bi_sector sbuffer 512 clone with
  | none => none
  | some w =>
    match kcryptd_io_read_carriers m bi_sector fl with
    | none => none
    | some (ret, start, fl1) =>
      if ret ≠ 0 then
        some { error := true, slots := w.dbuffer, start := start, map_ret := 0,
               map_idr := m, fl := fl1 }
      else
        let r := kcryptd_io_rdwr_map m bi_sector start
        some { error := false, slots := w.dbuffer, start := start, map_ret := r.1,
               map_idr := r.2, fl := fl1 }

/-! ## Dirty list (`findin_dirty_list`, `removefrom_dirty_list`, `addto_dirty_list`) -/

/-- A `struct dirty_public_list` cell has the same two fields as a free-list cell. -/
abbrev dirty_public_list := freelist

/-- The module-level variables `head_dirtylist`, `tail_dirtylist` and the memory of
the cells. -/
structure DirtyState where
  mem : Nat → dirty_public_list
  freed : Nat → Bool
  brk : Nat
  head_dirtylist : Option Nat
  tail_dirtylist : Option Nat

/-- Both pointers `NULL`. -/
def DirtyState.init : DirtyState :=
  { mem := fun _ => ⟨0, none⟩, freed := fun _ => false, brk := 0,
    head_dirtylist := none, tail_dirtylist := none }

/-- The loop of `findin_dirty_list`. -/
def findin_dirty_list_loop (mem : Nat → dirty_public_list) (sector : Nat) :
    Nat → Option Nat → Option Bool
  | 0, _ => none
  | _ + 1, none => some false
  | fuel + 1, some t =>
    if (mem t).sector = sector then some true
    else findin_dirty_list_loop mem sector fuel (mem t).next

/-- The function `findin_dirty_list` (lines 235-246). -/
def findin_dirty_list (sector : Nat) (st : DirtyState) : Option Bool :=
  findin_dirty_list_loop st.mem sector (st.brk + 1) st.head_dirtylist

/-- The loop of `removefrom_dirty_list` (lines 253-264), with `temp` and `prev`. -/
def removefrom_dirty_list_loop (sector : Nat) :
    Nat → DirtyState → Option Nat → Option Nat → Option DirtyState
  | 0, _, _, _ => none
  | _ + 1, st, none, _ => some st
  | fuel + 1, st, some t, prev =>
    if (st.mem t).sector = sector then
      -- if (temp == head_dirtylist) head_dirtylist = head_dirtylist->next;
      let head1 := if some t = st.head_dirtylist then (st.mem t).next else st.head_dirtylist
      -- prev->next = temp->next; kfree(temp);
      match prev with
      | none => none
      | some p =>
        some { st with head_dirtylist := head1, mem := setNext st.mem p (st.mem t).next,
                       freed := kfree st.freed t }
    else removefrom_dirty_list_loop sector fuel st (st.mem t).next (some t)

/-- The function `removefrom_dirty_list` (lines 248-265). -/
def removefrom_dirty_list (sector : Nat) (st : DirtyState) : Option DirtyState :=
  removefrom_dirty_list_loop sector (st.brk + 1) st st.head_dirtylist st.head_dirtylist

/-- The function `addto_dirty_list` (lines 267-282). A `NULL` `tail_dirtylist` next
to a non-null head would be a null dereference (`none`). -/
def addto_dirty_list (sector : Nat) (st : DirtyState) : Option DirtyState :=
  match findin_dirty_list sector st with
  | none => none
  | some true => some st
  | some false =>
    let node := st.brk
    let mem1 := setCell st.mem node ⟨sector, none⟩
    let freed1 := kmalloc st.freed node
    match st.head_dirtylist with
    | none =>
      some { st with mem := mem1, freed := freed1, brk := st.brk + 1,
                     head_dirtylist := some node, tail_dirtylist := some node }
    | some _ =>
      match st.tail_dirtylist with
      | none => none
      | some t =>
        -- tail_dirtylist->next = node; tail_dirtylist = node;
        some { st with mem := setNext mem1 t (some node), freed := freed1,
                       brk := st.brk + 1, tail_dirtylist := some node }

/-! ## Public-write pass of `kcryptd_crypt_read_convert` -/

/-- The loop variables of the public-write pass (lines 3066-3170) and the module
state it works on. `buffer` is the content of the pages of `io->ctx.bio_out` (the
decrypted IV slots of the sectors being written), `pos` the byte position of
`iter_in` in it, `bi_size` is `iter_in.bi_size`. -/
structure PassState where
  buffer : Buf
  pos : Nat
  bi_size : Nat
  sector : Nat
  global_iv : Buf
  global_sector : Nat
  dirty : DirtyState
  fl : FreeState

/-- What the classification of one slot (lines 3082-3140) leaves behind: the flag
`found` and the cache of the last head IV. -/
structure Classified where
  found : Bool
  global_iv : Buf
  global_sector : Nat

/-- The classification of the slot at `pos` (lines 3082-3140). `disk s` is the
decrypted IV slot that `read_sector_metadata` returns for sector `s`.
`sector - iv_offset` is computed in `unsigned`, so the test `sector - iv_offset < 0`
is never true. -/
def classify_slot (m : Idr) (disk : Nat → Buf) (s : PassState) : Classified :=
  if s.buffer (s.pos + PD_MAGIC_DATA_POS) % 256 = PD_MAGIC_DATA then
    let iv_offset := s.buffer (s.pos + IV_OFFSET_POS) % 256
    if iv_offset = 0 then
      let sector_num := le_load s.buffer (s.pos + HIDDEN_BYTES_IN_FIRST_IV) SECTOR_NUM_LEN
      let sequence_num :=
        le_load s.buffer (s.pos + HIDDEN_BYTES_IN_FIRST_IV + SECTOR_NUM_LEN) SEQUENCE_NUMBER_LEN
      let global_iv := memcpy s.global_iv 0 s.buffer s.pos IV_SIZE
      let f := map_find m sector_num 0 false
      { found := decide (f.ret ≠ -1 ∧ sequence_num = f.seq_num),
        global_iv := global_iv, global_sector := s.sector }
    else if iv_offset ≥ NUM_PUBLIC_SECTORS_PER_HIDDEN_SECTOR ∨
        toU32 ((s.sector : Int) - iv_offset) < 0 then
      { found := false, global_iv := s.global_iv, global_sector := s.global_sector }
    else
      let head := toU32 ((s.sector : Int) - iv_offset)
      let global_iv := if s.global_sector ≠ head then disk head else s.global_iv
      let global_sector := if s.global_sector ≠ head then head else s.global_sector
      if global_iv IV_OFFSET_POS % 256 ≠ 0 then
        { found := false, global_iv := global_iv, global_sector := global_sector }
      else
        let sector_num := le_load global_iv HIDDEN_BYTES_IN_FIRST_IV SECTOR_NUM_LEN
        let sequence_num :=
          le_load global_iv (HIDDEN_BYTES_IN_FIRST_IV + SECTOR_NUM_LEN) SEQUENCE_NUMBER_LEN
        let f := map_find m sector_num 0 false
        { found := decide (f.ret ≠ -1 ∧ sequence_num = f.seq_num),
          global_iv := global_iv, global_sector := global_sector }
  else { found := false, global_iv := s.global_iv, global_sector := s.global_sector }

/-- One pass through the body of the loop of the public-write pass. `rnd` is what
`get_random_bytes` delivers for this slot. -/
def pass_step (m : Idr) (disk : Nat → Buf) (rnd : Buf) (s : PassState) :
    Option PassState :=
  let c := classify_slot m disk s
  if c.found then
    match findin_dirty_list s.sector s.dirty with
    | none => none
    | some true =>
      -- goto advance
      some { s with pos := s.pos + IV_SIZE, bi_size := s.bi_size - IV_SIZE,
                    sector := (s.sector + 1) % 2 ^ 32,
                    global_iv := c.global_iv, global_sector := c.global_sector }
    | some false =>
      let counter := le_load s.buffer (s.pos + RANDOM_BYTES_POS) RANDOM_BYTES_PER_TAG
      let counter1 := (counter + 1) % 2 ^ 16
      let buffer1 :=
        memcpy s.buffer (s.pos + RANDOM_BYTES_POS) (le_bytes counter1) 0 RANDOM_BYTES_PER_TAG
      match addto_dirty_list s.sector s.dirty with
      | none => none
      | some dirty1 =>
        some { s with buffer := buffer1, dirty := dirty1,
                      pos := s.pos + IV_SIZE, bi_size := s.bi_size - IV_SIZE,
                      sector := (s.sector + 1) % 2 ^ 32,
                      global_iv := c.global_iv, global_sector := c.global_sector }
  else
    match removefrom_dirty_list s.sector s.dirty with
    | none => none
    | some dirty1 =>
      let buffer1 := memcpy s.buffer s.pos rnd 0 IV_SIZE
      match addto_freelist s.sector s.fl with
      | none => none
      | some fl1 =>
        some { s with buffer := buffer1, dirty := dirty1, fl := fl1,
                      pos := s.pos + IV_SIZE, bi_size := s.bi_size - IV_SIZE,
                      sector := (s.sector + 1) % 2 ^ 32,
                      global_iv := c.global_iv, global_sector := c.global_sector }

/-! ## Recovery scan (`map_common`) -/

/-- A chain the scan accepts: the logical sector and sequence number read from its
head IV and the sector of the head. -/
structure ScanHit where
  sector_num : Nat
  sequence_num : Nat
  map_pub_sector : Nat
deriving DecidableEq

/-- The test on the two sanity IVs (lines 4600-4603 and 4616-4619): `off1` and
`off2` are the `iv_offset` values asked of `iv1` and `iv2`. The last comparison reads
`iv1[RANDOM_BYTES_POS + 1] != iv2[RANDOM_BYTES_POS]` in the code. -/
def sanity_fails (iv1 iv2 : Buf) (off1 off2 : Nat) : Bool :=
  decide (iv1 PD_MAGIC_DATA_POS % 256 ≠ PD_MAGIC_DATA ∨
    iv2 PD_MAGIC_DATA_POS % 256 ≠ PD_MAGIC_DATA ∨
    iv1 IV_OFFSET_POS % 256 ≠ off1 ∨ iv2 IV_OFFSET_POS % 256 ≠ off2 ∨
    iv1 RANDOM_BYTES_POS % 256 ≠ iv2 RANDOM_BYTES_POS % 256 ∨
    iv1 (RANDOM_BYTES_POS + 1) % 256 ≠ iv2 RANDOM_BYTES_POS % 256)

/-- The first part of the body of the loop of `map_common` (lines 4589-4627): the
chain accepted at `current_sector`, if any, and `increment_index`. `disk s` is the
decrypted IV slot `get_IVs` returns for sector `s`; `current_sector` is a 64-bit
`sector_t`, so `current_sector - iv_offset` wraps modulo `2 ^ 64` and is never
negative; `map_pub_sector` is `unsigned`. -/
def map_common_probe (disk : Nat → Buf) (current_sector : Nat) : Option ScanHit × Nat :=
  let tag := disk current_sector
  if tag PD_MAGIC_DATA_POS % 256 = PD_MAGIC_DATA then
    let iv_offset := tag IV_OFFSET_POS % 256
    if iv_offset = 0 then
      let iv1 := disk ((current_sector + 1) % 2 ^ 64)
      let iv2 := disk ((current_sector + 1) % 2 ^ 64 + 1)
      if sanity_fails iv1 iv2 1 2 then (none, NUM_PUBLIC_SECTORS_PER_HIDDEN_SECTOR)
      else
        (some { sector_num := le_load tag HIDDEN_BYTES_IN_FIRST_IV SECTOR_NUM_LEN,
                sequence_num :=
                  le_load tag (HIDDEN_BYTES_IN_FIRST_IV + SECTOR_NUM_LEN) SEQUENCE_NUMBER_LEN,
                map_pub_sector := current_sector % 2 ^ 32 },
         NUM_PUBLIC_SECTORS_PER_HIDDEN_SECTOR)
    else if iv_offset ≥ NUM_PUBLIC_SECTORS_PER_HIDDEN_SECTOR ∨
        (((current_sector : Int) - iv_offset) % 2 ^ 64).toNat < 0 then
      (none, NUM_PUBLIC_SECTORS_PER_HIDDEN_SECTOR)
    else
      let head := (((current_sector : Int) - iv_offset) % 2 ^ 64).toNat
      let iv1 := disk head
      let iv2 := disk (head + 1)
      if sanity_fails iv1 iv2 0 1 then (none, NUM_PUBLIC_SECTORS_PER_HIDDEN_SECTOR)
      else
        (some { sector_num := le_load iv1 HIDDEN_BYTES_IN_FIRST_IV SECTOR_NUM_LEN,
                sequence_num :=
                  le_load iv1 (HIDDEN_BYTES_IN_FIRST_IV + SECTOR_NUM_LEN) SEQUENCE_NUMBER_LEN,
                map_pub_sector := head % 2 ^ 32 },
         NUM_PUBLIC_SECTORS_PER_HIDDEN_SECTOR - iv_offset)
  else (none, NUM_PUBLIC_SECTORS_PER_HIDDEN_SECTOR)

/-- The second part of the body (lines 4629-4641): insert the chain, or replace the
entry when the chain carries a greater sequence number. -/
def map_common_upsert (m : Idr) (h : ScanHit) : Idr :=
  let f := map_find m h.sector_num 0 false
  if f.ret ≠ -1 then
    if h.sequence_num > f.seq_num then
      (map_insert m h.sector_num h.map_pub_sector (some h.sequence_num) false).2
    else m
  else (map_insert m h.sector_num h.map_pub_sector (some h.sequence_num) false).2

/-- The loop `while (current_sector < max_sectors)` of `map_common`. -/
def map_common_loop (disk : Nat → Buf) (max_sectors : Nat) : Nat → Nat → Idr → Option Idr
  | 0, _, _ => none
  | fuel + 1, current_sector, m =>
    if current_sector < max_sectors then
      let p := map_common_probe disk current_sector
      let m1 :=
        match p.1 with
        | some h => map_common_upsert m h
        | none => m
      map_common_loop disk max_sectors fuel ((current_sector + p.2) % 2 ^ 64) m1
    else some m

/-- The function `map_common(cc, start, end)` (lines 4572-4648), run on the map `m`.
`max_sectors` is `end` converted to `unsigned`. -/
def map_common (disk : Nat → Buf) (m : Idr) (start end_ : Nat) : Option Idr :=
  map_common_loop disk (end_ % 2 ^ 32) (end_ % 2 ^ 32 + 1) start m

/-- The chains the loop of `map_common` accepts, in the order it meets them. -/
def map_common_chains (disk : Nat → Buf) (max_sectors : Nat) : Nat → Nat → List ScanHit
  | 0, _ => []
  | fuel + 1, current_sector =>
    if current_sector < max_sectors then
      let p := map_common_probe disk current_sector
      match p.1 with
      | some h =>
        h :: map_common_chains disk max_sectors fuel ((current_sector + p.2) % 2 ^ 64)
      | none => map_common_chains disk max_sectors fuel ((current_sector + p.2) % 2 ^ 64)
    else []

/-- The chain a scan that keeps the greatest sequence number retains for key `L`
out of a list of chains: the first one in the list among those of greatest sequence
number. -/
def best_chain (L : Nat) : List ScanHit → Option ScanHit → Option ScanHit
  | [], acc => acc
  | h :: rest, acc =>
    if h.sector_num = L then
      match acc with
      | none => best_chain L rest (some h)
      | some b =>
        if h.sequence_num > b.sequence_num then best_chain L rest (some h)
        else best_chain L rest (some b)
    else best_chain L rest acc

/-! ## Sample inputs -/

/-- A head IV slot at offset 0 of a buffer: magic `0xAA`, `iv_offset` 0, logical
sector `L` (below 256), sequence number `seq` (below 256), `public_counter` 0, payload
bytes 0. -/
def sample_head_slot (L seq : Nat) : Buf :=
  fun i => if i = 15 then 0xAA else if i = 6 then L else if i = 10 then seq else 0

/-- A tail IV slot: magic `0xAA`, the given `iv_offset`, everything else 0. -/
def sample_tail_slot (iv_offset : Nat) : Buf :=
  fun i => if i = 15 then 0xAA else if i = 12 then iv_offset else 0

/-- A map with the single entry `L -> (phys, seq)` without the reuse bit. -/
def sample_map (L phys seq : Nat) : Idr :=
  fun k => if k = L then some (2 ^ 32 * seq + phys) else none

/-- The pass state at the first slot of a public write to sector `sector` whose
pre-read IV slot is `slot`. -/
def sample_pass (slot : Buf) (sector : Nat) (dirty : DirtyState) : PassState :=
  { buffer := slot, pos := 0, bi_size := 16, sector := sector,
    global_iv := fun _ => 0, global_sector := 2 ^ 64 - 1, dirty := dirty,
    fl := FreeState.init }

/-- A disk whose only chain has its head at sector 1: head IV for logical sector 7
with sequence 1 at sector 1, tail IVs with offsets 1 and 2 at sectors 2 and 3, all
with `public_counter` 0; every other slot is zero. -/
def sample_disk_one_chain : Nat → Buf :=
  fun s => if s = 1 then sample_head_slot 7 1 else if s = 2 then sample_tail_slot 1
    else if s = 3 then sample_tail_slot 2 else fun _ => 0

/-- A disk with two complete-looking chains for logical sector 7: sequence 1 with its
head at sector 0 and sequence 2 with its head at sector 52 (head IV and tail IVs with
offsets 1 and 2 each); every other slot is zero. -/
def sample_disk_two_chains : Nat → Buf :=
  fun s => if s = 0 then sample_head_slot 7 1 else if s = 1 then sample_tail_slot 1
    else if s = 2 then sample_tail_slot 2 else if s = 52 then sample_head_slot 7 2
    else if s = 53 then sample_tail_slot 1 else if s = 54 then sample_tail_slot 2
    else fun _ => 0

/-- The stored word of a chain can be told from an absent entry and its physical
sector from the return value -1: the head is not sector `0xFFFFFFFF`, and it is not
sector 0 with sequence number 0 (a word of 0, that is a `NULL` pointer). -/
def ScanHit.Storable (h : ScanHit) : Prop :=
  h.map_pub_sector ≠ 2 ^ 32 - 1 ∧ ¬ (h.map_pub_sector = 0 ∧ h.sequence_num = 0)

instance (h : ScanHit) : Decidable h.Storable := by
  unfold ScanHit.Storable; infer_instance

/-- The entry of key `L` in the map is the one a scan writes for the chain `acc`:
no id when there is no chain, the word `sequence << 32 | head` otherwise. -/
def Records (m : Idr) (L : Nat) : Option ScanHit → Prop
  | none => m L = none
  | some b => m L = some (2 ^ 32 * b.sequence_num + b.map_pub_sector)

/-- The sectors `s, s+1, ..., s+n-1` are all in the list. -/
def HasRun (xs : List Nat) (s n : Nat) : Prop := ∀ i, i < n → s + i ∈ xs

/-! ## Hidden read and the slots on disk -/

/-- The IV slots on disk after a hidden write (lines 3221-3259 of
`kcryptd_crypt_read_convert`): slot `j` of the buffer built by the splice loop is
encrypted and copied to the integrity metadata of carrier `start + j`; a write that
found no carriers writes nothing. `disk s` is the IV slot of sector `s` as a later
decryption returns it, so the encryption and the decryption cancel. -/
def hidden_write_disk (disk : Nat → Buf) (w : HiddenWrite) : Nat → Buf :=
  fun s =>
    if w.error = false ∧ w.start ≤ s ∧ s < w.start + NUM_PUBLIC_SECTORS_PER_HIDDEN_SECTOR then
      fun i => w.slots (IV_SIZE * (s - w.start) + i % IV_SIZE)
    else disk s

/-- The outcome of one hidden read: `io->error`, the first carrier read and the
content of the caller's pages. -/
structure HiddenRead where
  error : Bool
  start : Nat
  data : Buf

/-- The carrier selection of `kcryptd_io_read` for a hidden read of one sector
(lines 2343-2354, `i = 0`): the physical sector of the map entry, or the logical
sector itself when `map_find` returns -1. -/
def kcryptd_io_read_mapped (m : Idr) (bi_sector : Nat) : Nat :=
  let lsector := bi_sector % 2 ^ 32
  let f := map_find m lsector 0 false
  if f.ret = -1 then lsector else toU32 f.ret

/-- A hidden read of one 512-byte sector at logical sector `bi_sector`:
`kcryptd_io_read` reads the 52 carriers from `start` on, and the gather loop of
`kcryptd_crypt_read_convert` copies the payload of their decrypted IV slots to the
caller's pages, which hold `base` before. No statement on this path compares the
head slot with the map or sets `io->error`; buffer allocation and the cipher are
taken to succeed. -/
def hidden_read (m : Idr) (disk : Nat → Buf) (bi_sector : Nat) (base : Buf) :
    Option HiddenRead :=
  let start := kcryptd_io_read_mapped m bi_sector
  let slots : Buf := fun i => disk (start + i / IV_SIZE) (i % IV_SIZE)
  match kcryptd_crypt_read_convert_gather 512 slots 512 base with
  | none => none
  | some r => some { error := false, start := start, data := r.dbuffer }

/-- The request list of a run of hidden writes: each request is a logical sector and
the 512 bytes to write. The writes run one after the other, each on the map, the
free list and the disk the one before has left; `clone` is what freshly allocated
pages hold. -/
def hidden_writes (clone : Buf) :
    List (Nat × Buf) → Idr → FreeState → (Nat → Buf) → Option (Idr × FreeState × (Nat → Buf))
  | [], m, fl, disk => some (m, fl, disk)
  | rq :: rest, m, fl, disk =>
    (hidden_write m fl rq.1 rq.2 clone).bind
      (fun w => hidden_writes clone rest w.map_idr w.fl (hidden_write_disk disk w))

/-- The IV slots of sectors `52 * j`, `52 * j + 1` and `52 * j + 2` are the first
three slots of a chain for logical sector `j` with sequence number 1: a head slot
with the magic byte, `iv_offset` 0, logical sector `j` and sequence number 1, and
two tail slots with the magic byte, `iv_offset` 1 and 2 and a zero
`public_counter`. -/
def ChainAt (disk : Nat → Buf) (j : Nat) : Prop :=
  disk (52 * j) 15 = 0xAA ∧ disk (52 * j) 12 = 0 ∧
  le_load (disk (52 * j)) 6 4 = j ∧ le_load (disk (52 * j)) 10 2 = 1 ∧
  disk (52 * j + 1) 15 = 0xAA ∧ disk (52 * j + 1) 12 = 1 ∧
  disk (52 * j + 1) 13 = 0 ∧ disk (52 * j + 1) 14 = 0 ∧
  disk (52 * j + 2) 15 = 0xAA ∧ disk (52 * j + 2) 12 = 2 ∧ disk (52 * j + 2) 13 = 0

/-! ## B+ tree (`bpt.c`) -/

def DEFAULT_ORDER : Nat := 16
def IV_PER_NODE : Nat := 8
def NODE_SIZE : Nat := IV_PER_NODE * 16
def PD_MAP_MAGIC_DATA : Nat := 0xBB
def ROOT_MAGIC_POSN : Nat := 28
def ROOT_INITIALIZED : Nat := 0xAA
def START_OF_ROOT_NODE : Nat := 0

/-- The initial value of the global `int order = DEFAULT_ORDER`; nothing in the file
assigns it afterwards. -/
def order : Nat := DEFAULT_ORDER

/-- The function `cut` (lines 816-821). -/
def cut (length : Nat) : Nat :=
  if length % 2 = 0 then length / 2 else length / 2 + 1

/-- A `struct node`. The arrays `pointers`, `pointers_expanded`, `pointers_disk` and
`keys` are functions of the index; a pointer is the address of a node or of a record,
`none` for `NULL`. `num_keys` is an `int` that the code never makes negative.
`parent_disk` stands for the four bytes of it that the code copies. -/
structure node where
  pointers : Nat → Option Nat
  pointers_expanded : Nat → Bool
  pointers_disk : Nat → Nat
  keys : Nat → Int
  parent : Option Nat
  parent_disk : Nat
  is_leaf : Bool
  num_keys : Nat

/-- The memory of the tree and what it works on. `nodes a` is the node at address
`a`, `records a` the `value` of the record at address `a`; `brk` is the next address
`kmalloc` returns and `fresh` what the arrays and fields of a block hold when
`kmalloc` hands it out (the code does not clear them); `addr a` is the machine address
of the block `a`, of which `memcpy` of four bytes of a pointer takes the low 32 bits;
`fl` is the free list and `disk s` the IV slot of sector `s` as a decryption returns
it; `order` is the global variable of that name. -/
structure BptState where
  order : Nat
  nodes : Nat → node
  records : Nat → Int
  freed : Nat → Bool
  brk : Nat
  fresh : node
  addr : Nat → Nat
  fl : FreeState
  disk : Nat → Buf

/-- The store `a[i] = v`. -/
def aset {α : Type} (a : Nat → α) (i : Nat) (v : α) : Nat → α :=
  fun j => if j = i then v else a j

/-- The loop `for (i = lo; i < hi; i++) body`. -/
def for_up {σ : Type} (lo hi : Nat) (body : Nat → σ → σ) (s : σ) : σ :=
  (List.range' lo (hi - lo)).foldl (fun s i => body i s) s

/-- The loop `for (i = hi; i > lo; i--) body`. -/
def for_down {σ : Type} (hi lo : Nat) (body : Nat → σ → σ) (s : σ) : σ :=
  (List.range' (lo + 1) (hi - lo)).reverse.foldl (fun s i => body i s) s

/-- The loop `while (cond(i)) i++`, with fuel; `none` when the fuel runs out. -/
def scan_while (cond : Nat → Bool) : Nat → Nat → Option Nat
  | 0, _ => none
  | fuel + 1, i => if cond i then scan_while cond fuel (i + 1) else some i

def BptState.setNode (st : BptState) (a : Nat) (n : node) : BptState :=
  { st with nodes := aset st.nodes a n }

/-- The low four bytes of a pointer as `memcpy(dst, &p, 4)` copies them. -/
def BptState.ptr_bits (st : BptState) (p : Option Nat) : Nat :=
  match p with
  | none => 0
  | some a => st.addr a % 2 ^ 32

/-- The function `make_record` (lines 829-838). -/
def make_record (value : Int) (st : BptState) : Nat × BptState :=
  (st.brk, { st with brk := st.brk + 1, freed := kmalloc st.freed st.brk,
                     records := aset st.records st.brk value })

/-- The function `make_node` (lines 844-874): the arrays come from `kmalloc` as they
are, `pointers_expanded` is cleared, `is_leaf`, `num_keys` and `parent` are set. -/
def make_node (st : BptState) : Nat × BptState :=
  (st.brk,
   { st with brk := st.brk + 1, freed := kmalloc st.freed st.brk,
             nodes := aset st.nodes st.brk
               { st.fresh with
                 pointers_expanded := for_up 0 st.order (fun i e => aset e i false)
                   st.fresh.pointers_expanded,
                 is_leaf := false, num_keys := 0, parent := none } })

/-- The function `make_leaf` (lines 879-883). -/
def make_leaf (st : BptState) : Nat × BptState :=
  let r := make_node st
  (r.1, r.2.setNode r.1 { r.2.nodes r.1 with is_leaf := true })

/-- The 128 bytes `rdwr_sector_metadata(io, REQ_OP_READ, sector, data, NODE_SIZE)`
returns: the IV slots of the eight sectors from `sector` on. -/
def rdwr_sector_metadata_read (disk : Nat → Buf) (sector : Nat) : Buf :=
  fun i => disk (sector + i / 16) (i % 16)

/-- The disk after `rdwr_sector_metadata(io, REQ_OP_WRITE, sector, data, NODE_SIZE)`:
the 128 bytes become the IV slots of the eight sectors from `sector` on. -/
def rdwr_sector_metadata_write (disk : Nat → Buf) (sector : Nat) (data : Buf) : Nat → Buf :=
  fun s => if sector ≤ s ∧ s < sector + IV_PER_NODE then fun i => data (16 * (s - sector) + i % 16)
           else disk s

/-- The assignment `memcpy(&x, src + off, 2)` on an `int x`: the low two bytes are
replaced, the high two bytes stay. -/
def set_low16 (x : Int) (src : Buf) (off : Nat) : Int :=
  toInt32 (toU32 x / 65536 * 65536 + le_load src off 2)

/-- The function `initialize_node_from_disknode` (lines 1687-1725) for `data == NULL`:
the node at address `n` is filled from the eight IV slots at `sector`, an `int`
that is converted to `sector_t`. -/
def initialize_node_from_disknode (sector : Int) (n : Nat) (st : BptState) : BptState :=
  let node_data := rdwr_sector_metadata_read st.disk ((sector % 2 ^ 64).toNat)
  let nd0 := st.nodes n
  let num_keys := node_data 13 % 256
  -- for (i = 0; i < node->num_keys; i+=2)
  let keys := for_up 0 ((num_keys + 1) / 2)
    (fun t k => aset (aset k (2 * t) (set_low16 (k (2 * t)) node_data (16 * t)))
                  (2 * t + 1) (set_low16 (k (2 * t + 1)) node_data (16 * t + 2))) nd0.keys
  -- for (i = 0; i < order-2; i+=2)
  let half := (st.order - 2 + 1) / 2
  let pd := for_up 0 half
    (fun t p => aset (aset p (2 * t) (le_load node_data (16 * t + 4) 4))
                  (2 * t + 1) (le_load node_data (16 * t + 8) 4)) nd0.pointers_disk
  let i := 2 * half
  let offset := 16 * half
  let pd1 := aset (aset pd i (le_load node_data (offset + 2) 4)) (i + 1)
    (le_load node_data (offset + 6) 4)
  st.setNode n
    { nd0 with is_leaf := decide (node_data 12 % 256 ≠ 0), num_keys := num_keys, keys := keys,
               pointers_disk := pd1, parent_disk := le_load node_data (offset + 10) 4 }

/-- The 128 bytes `initialize_disknode_from_node` builds for a node (lines 1737-1768). -/
def disknode_bytes (st : BptState) (n : node) (is_root : Bool) : Buf :=
  let d0 : Buf := fun _ => 0
  let d1 := poke (poke d0 12 (if n.is_leaf then 1 else 0)) 13 n.num_keys
  -- for (i = 0; i < node->num_keys; i+=2)
  let d2 := for_up 0 ((n.num_keys + 1) / 2)
    (fun t d => memcpy (memcpy d (16 * t) (le_bytes (toU32 (n.keys (2 * t)))) 0 2)
                  (16 * t + 2) (le_bytes (toU32 (n.keys (2 * t + 1)))) 0 2) d1
  -- for (i = 0; i < order-2; i+=2): the code copies `pointers`, not `pointers_disk`
  let half := (st.order - 2 + 1) / 2
  let d3 := for_up 0 half
    (fun t d => memcpy (memcpy d (16 * t + 4) (le_bytes (st.ptr_bits (n.pointers (2 * t)))) 0 4)
                  (16 * t + 8) (le_bytes (st.ptr_bits (n.pointers (2 * t + 1)))) 0 4) d2
  let i := 2 * half
  let offset := 16 * half
  let d4 := memcpy (memcpy (memcpy d3 (offset + 2) (le_bytes (n.pointers_disk i)) 0 4)
      (offset + 6) (le_bytes (n.pointers_disk (i + 1))) 0 4)
    (offset + 10) (le_bytes n.parent_disk) 0 4
  let d5 := for_up 0 IV_PER_NODE (fun t d => poke d (16 * t + 15) PD_MAP_MAGIC_DATA) d4
  if is_root then poke d5 (ROOT_MAGIC_POSN - 1) ROOT_INITIALIZED else d5

/-- The function `initialize_disknode_from_node` (lines 1727-1780): the root goes to
sector `START_OF_ROOT_NODE`, any other node to a run of `IV_PER_NODE` sectors taken
from the free list; returns the `unsigned` result, `-1` when no run is found. -/
def initialize_disknode_from_node (n : Nat) (is_root : Bool) (st : BptState) :
    Option (Nat × BptState) :=
  let node_data := disknode_bytes st (st.nodes n) is_root
  if is_root then
    some (START_OF_ROOT_NODE,
      { st with disk := rdwr_sector_metadata_write st.disk START_OF_ROOT_NODE node_data })
  else
    match getfrom_freelist IV_PER_NODE ⟨0, 0⟩ st.fl with
    | none => none
    | some out =>
      if out.ret ≠ 0 then some (2 ^ 32 - 1, { st with fl := out.st })
      else
        some (out.results.start,
          { st with fl := out.st,
                    disk := rdwr_sector_metadata_write st.disk out.results.start node_data })

/-- The inner loop of `find_leaf` (lines 698-701): the index of the child to follow. -/
def find_leaf_index (c : node) (key : Int) : Option Nat :=
  scan_while (fun i => decide (i < c.num_keys) && decide (key ≥ c.keys i)) (c.num_keys + 1) 0

/-- The loop `while (!c->is_leaf)` of `find_leaf` (lines 696-712). A child whose
`pointers_expanded` flag is not set is read from the disk into a new node that
replaces the pointer. `none` when the fuel runs out or a `NULL` child is followed. -/
def find_leaf_loop (key : Int) : Nat → Nat → BptState → Option (Nat × BptState)
  | 0, _, _ => none
  | fuel + 1, c, st =>
    let cn := st.nodes c
    if cn.is_leaf then some (c, st)
    else
      match find_leaf_index cn key with
      | none => none
      | some i =>
        if cn.pointers_expanded i then
          match cn.pointers i with
          | none => none
          | some child => find_leaf_loop key fuel child st
        else
          let r := make_node st
          let st2 := initialize_node_from_disknode (toInt32 (cn.pointers_disk i)) r.1 r.2
          let cn2 := st2.nodes c
          let st3 := st2.setNode c
            { cn2 with pointers := aset cn2.pointers i (some r.1),
                       pointers_expanded := aset cn2.pointers_expanded i true }
          find_leaf_loop key fuel r.1 st3

/-- The function `find_leaf` (lines 690-713). -/
def find_leaf (root : Option Nat) (key : Int) (st : BptState) : Option (Option Nat × BptState) :=
  match root with
  | none => some (none, st)
  | some r => (find_leaf_loop key (st.brk + 2) r st).map (fun p => (some p.1, p.2))

/-- The loop `for (i = 0; i < leaf->num_keys; i++) if (leaf->keys[i] == key) break;`. -/
def leaf_search (leaf : node) (key : Int) : Option Nat :=
  scan_while (fun i => decide (i < leaf.num_keys) && decide (leaf.keys i ≠ key))
    (leaf.num_keys + 1) 0

/-- The function `find` (lines 719-747): the record pointer (`NULL` when the key is
not in the leaf) and `*leaf_out`. -/
def find (root : Option Nat) (key : Int) (st : BptState) :
    Option (Option Nat × Option Nat × BptState) :=
  match find_leaf root key st with
  | none => none
  | some (none, st1) => some (none, none, st1)
  | some (some leaf, st1) =>
    match leaf_search (st1.nodes leaf) key with
    | none => none
    | some i =>
      if i = (st1.nodes leaf).num_keys then some (none, some leaf, st1)
      else some ((st1.nodes leaf).pointers i, some leaf, st1)

/-- The function `find_value` (lines 749-777): `leaf->pointers_disk[i]` for the key,
and `-1` as an `unsigned` when the tree is empty or the key is not in the leaf. -/
def find_value (root : Option Nat) (key : Int) (st : BptState) : Option (Nat × BptState) :=
  match find_leaf root key st with
  | none => none
  | some (none, st1) => some (2 ^ 32 - 1, st1)
  | some (some leaf, st1) =>
    match leaf_search (st1.nodes leaf) key with
    | none => none
    | some i =>
      if i = (st1.nodes leaf).num_keys then some (2 ^ 32 - 1, st1)
      else some ((st1.nodes leaf).pointers_disk i, st1)

/-- The function `find_update` (lines 780-810): as `find`, and when the key is in
the leaf, `leaf->pointers_disk[i] = value`. -/
def find_update (root : Option Nat) (key : Int) (value : Int) (st : BptState) :
    Option (Option Nat × Option Nat × BptState) :=
  match find_leaf root key st with
  | none => none
  | some (none, st1) => some (none, none, st1)
  | some (some leaf, st1) =>
    let ln := st1.nodes leaf
    match leaf_search ln key with
    | none => none
    | some i =>
      if i = ln.num_keys then some (none, some leaf, st1)
      else
        some (ln.pointers i, some leaf,
          st1.setNode leaf { ln with pointers_disk := aset ln.pointers_disk i (toU32 value) })

/-- The loop `while (n != NULL)` of `find_range` (lines 672-680): the keys and
pointers collected, in the order they are stored. -/
def find_range_loop (key_end : Int) (st : BptState) :
    Nat → Option Nat → Nat → List (Int × Option Nat) → Option (List (Int × Option Nat))
  | 0, _, _, _ => none
  | _ + 1, none, _, acc => some acc
  | fuel + 1, some n, i, acc =>
    let nn := st.nodes n
    match scan_while (fun j => decide (j < nn.num_keys) && decide (nn.keys j ≤ key_end))
        (nn.num_keys + 1) i with
    | none => none
    | some i2 =>
      find_range_loop key_end st fuel (nn.pointers (st.order - 1)) 0
        (acc ++ (List.range' i (i2 - i)).map (fun j => (nn.keys j, nn.pointers j)))

/-- The function `find_range` (lines 664-682): the return value and the entries of
`returned_keys` and `returned_pointers` it has filled. -/
def find_range (root : Option Nat) (key_start key_end : Int) (st : BptState) :
    Option (Nat × List (Int × Option Nat) × BptState) :=
  match find_leaf root key_start st with
  | none => none
  | some (none, st1) => some (0, [], st1)
  | some (some n, st1) =>
    let nn := st1.nodes n
    match scan_while (fun i => decide (i < nn.num_keys) && decide (nn.keys i < key_start))
        (nn.num_keys + 1) 0 with
    | none => none
    | some i =>
      if i = nn.num_keys then some (0, [], st1)
      else
        (find_range_loop key_end st1 (st1.brk + 1) (some n) i []).map
          (fun l => (l.length, l, st1))

/-- The function `insert_into_leaf` (lines 903-921). -/
def insert_into_leaf (leaf : Nat) (key : Int) (pointer : Nat) (st : BptState) :
    Option BptState :=
  let ln := st.nodes leaf
  match scan_while (fun i => decide (i < ln.num_keys) && decide (ln.keys i < key))
      (ln.num_keys + 1) 0 with
  | none => none
  | some insertion_point =>
    let ln1 := for_down ln.num_keys insertion_point
      (fun i (n : node) =>
        { n with keys := aset n.keys i (n.keys (i - 1)),
                 pointers := aset n.pointers i (n.pointers (i - 1)),
                 pointers_disk := aset n.pointers_disk i (n.pointers_disk (i - 1)) }) ln
    some (st.setNode leaf
      { ln1 with keys := aset ln1.keys insertion_point key,
                 pointers := aset ln1.pointers insertion_point (some pointer),
                 pointers_disk := aset ln1.pointers_disk insertion_point
                   (toU32 (st.records pointer)),
                 num_keys := ln1.num_keys + 1 })

/-- The function `insert_into_new_root` (lines 1184-1199). -/
def insert_into_new_root (left : Nat) (key : Int) (right : Nat) (left_disk right_disk : Nat)
    (st : BptState) : Nat × BptState :=
  let r := make_node st
  let rn := r.2.nodes r.1
  let st1 := r.2.setNode r.1
    { rn with keys := aset rn.keys 0 key,
              pointers := aset (aset rn.pointers 0 (some left)) 1 (some right),
              pointers_disk := aset (aset rn.pointers_disk 0 left_disk) 1 right_disk,
              pointers_expanded := aset (aset rn.pointers_expanded 0 true) 1 true,
              num_keys := rn.num_keys + 1, parent := none }
  let st2 := st1.setNode left { st1.nodes left with parent := some r.1 }
  let st3 := st2.setNode right { st2.nodes right with parent := some r.1 }
  (r.1, st3)

/-- The function `get_left_index` (lines 890-897). -/
def get_left_index (parent : node) (left : Nat) : Option Nat :=
  scan_while (fun i => decide (i ≤ parent.num_keys) && decide (parent.pointers i ≠ some left))
    (parent.num_keys + 2) 0

/-- The function `insert_into_node` (lines 1024-1038); the result of
`initialize_disknode_from_node` is not used. -/
def insert_into_node (root : Option Nat) (n : Nat) (left_index : Nat) (key : Int)
    (right : Nat) (right_disk : Nat) (st : BptState) : Option (Option Nat × BptState) :=
  let nn := st.nodes n
  let nn1 := for_down nn.num_keys left_index
    (fun i (x : node) =>
      { x with pointers := aset x.pointers (i + 1) (x.pointers i),
               pointers_disk := aset x.pointers_disk (i + 1) (x.pointers_disk i),
               keys := aset x.keys i (x.keys (i - 1)) }) nn
  let st1 := st.setNode n
    { nn1 with pointers := aset nn1.pointers (left_index + 1) (some right),
               pointers_disk := aset nn1.pointers_disk (left_index + 1) right_disk,
               keys := aset nn1.keys left_index key,
               num_keys := nn1.num_keys + 1 }
  (initialize_disknode_from_node n false st1).map (fun r => (root, r.2))

/-- The temporary arrays of the two splitting functions. -/
structure TempArrays where
  keys : Nat → Int
  pointers : Nat → Option Nat
  pointers_disk : Nat → Nat

mutual

/-- The function `insert_into_parent` (lines 1143-1176). The fuel bounds the chain of
splits up the tree. -/
def insert_into_parent (root : Option Nat) (left : Nat) (key : Int) (right : Nat)
    (left_disk right_disk : Nat) : Nat → BptState → Option (Option Nat × BptState)
  | 0, _ => none
  | fuel + 1, st =>
    match (st.nodes left).parent with
    | none =>
      let r := insert_into_new_root left key right left_disk right_disk st
      some (some r.1, r.2)
    | some parent =>
      match get_left_index (st.nodes parent) left with
      | none => none
      | some left_index =>
        if (st.nodes parent).num_keys < st.order - 1 then
          insert_into_node root parent left_index key right right_disk st
        else
          insert_into_node_after_splitting root parent left_index key right right_disk fuel st

/-- The function `insert_into_node_after_splitting` (lines 1046-1136). The two
pointers copied outside the loops (`old_node->pointers[i]`, `new_node->pointers[j]`)
go without their `pointers_disk`. -/
def insert_into_node_after_splitting (root : Option Nat) (old_node : Nat) (left_index : Nat)
    (key : Int) (right : Nat) (right_disk : Nat) : Nat → BptState →
    Option (Option Nat × BptState)
  | 0, _ => none
  | fuel + 1, st =>
    let old := st.nodes old_node
    let t0 : TempArrays :=
      { keys := st.fresh.keys, pointers := st.fresh.pointers,
        pointers_disk := st.fresh.pointers_disk }
    -- for (i = 0, j = 0; i < old_node->num_keys + 1; i++, j++)
    let t1 := for_up 0 (old.num_keys + 1)
      (fun i (t : TempArrays) =>
        let j := if i < left_index + 1 then i else i + 1
        { t with pointers := aset t.pointers j (old.pointers i),
                 pointers_disk := aset t.pointers_disk j (old.pointers_disk i) }) t0
    -- for (i = 0, j = 0; i < old_node->num_keys; i++, j++)
    let t2 := for_up 0 old.num_keys
      (fun i (t : TempArrays) =>
        let j := if i < left_index then i else i + 1
        { t with keys := aset t.keys j (old.keys i) }) t1
    let t3 : TempArrays :=
      { keys := aset t2.keys left_index key,
        pointers := aset t2.pointers (left_index + 1) (some right),
        pointers_disk := aset t2.pointers_disk (left_index + 1) right_disk }
    let split := cut st.order
    let r := make_node st
    let new_node := r.1
    let old1 := for_up 0 (split - 1)
      (fun i (x : node) =>
        { x with pointers := aset x.pointers i (t3.pointers i),
                 pointers_disk := aset x.pointers_disk i (t3.pointers_disk i),
                 keys := aset x.keys i (t3.keys i),
                 num_keys := x.num_keys + 1 }) { old with num_keys := 0 }
    let old2 := { old1 with pointers := aset old1.pointers (split - 1) (t3.pointers (split - 1)) }
    let k_prime := t3.keys (split - 1)
    -- for (++i, j = 0; i < order; i++, j++)
    let nn1 := for_up split st.order
      (fun i (x : node) =>
        let j := i - split
        { x with pointers := aset x.pointers j (t3.pointers i),
                 pointers_disk := aset x.pointers_disk j (t3.pointers_disk i),
                 keys := aset x.keys j (t3.keys i),
                 num_keys := x.num_keys + 1 }) (r.2.nodes new_node)
    let nn2 :=
      { nn1 with pointers := aset nn1.pointers (st.order - split) (t3.pointers st.order),
                 parent := old.parent, parent_disk := old.parent_disk }
    let st1 := (r.2.setNode old_node old2).setNode new_node nn2
    -- for (i = 0; i <= new_node->num_keys; i++) { child = new_node->pointers[i]; child->parent = new_node; }
    let st2 := for_up 0 (nn2.num_keys + 1)
      (fun i (x : Option BptState) =>
        match x with
        | none => none
        | some y =>
          match nn2.pointers i with
          | none => none
          | some child => some (y.setNode child { y.nodes child with parent := some new_node }))
      (some st1)
    match st2 with
    | none => none
    | some st3 =>
      match initialize_disknode_from_node old_node false st3 with
      | none => none
      | some (old_disk, st4) =>
        match initialize_disknode_from_node new_node false st4 with
        | none => none
        | some (new_disk, st5) =>
          insert_into_parent root old_node k_prime new_node old_disk new_disk fuel st5

end

/-- The function `insert_into_leaf_after_splitting` (lines 929-1016). -/
def insert_into_leaf_after_splitting (root : Option Nat) (leaf : Nat) (key : Int)
    (pointer : Nat) (st : BptState) : Option (Option Nat × BptState) :=
  let r := make_leaf st
  let new_leaf := r.1
  let st0 := r.2
  let ln := st0.nodes leaf
  let t0 : TempArrays :=
    { keys := st.fresh.keys, pointers := st.fresh.pointers,
      pointers_disk := st.fresh.pointers_disk }
  match scan_while (fun i => decide (i < st.order - 1) && decide (ln.keys i < key)) st.order 0 with
  | none => none
  | some insertion_index =>
    -- for (i = 0, j = 0; i < leaf->num_keys; i++, j++)
    let t1 := for_up 0 ln.num_keys
      (fun i (t : TempArrays) =>
        let j := if i < insertion_index then i else i + 1
        { keys := aset t.keys j (ln.keys i), pointers := aset t.pointers j (ln.pointers i),
          pointers_disk := aset t.pointers_disk j (ln.pointers_disk i) }) t0
    let t2 : TempArrays :=
      { keys := aset t1.keys insertion_index key,
        pointers := aset t1.pointers insertion_index (some pointer),
        pointers_disk := aset t1.pointers_disk insertion_index (toU32 (st0.records pointer)) }
    let split := cut (st.order - 1)
    let ln1 := for_up 0 split
      (fun i (x : node) =>
        { x with pointers := aset x.pointers i (t2.pointers i),
                 pointers_disk := aset x.pointers_disk i (t2.pointers_disk i),
                 keys := aset x.keys i (t2.keys i),
                 num_keys := x.num_keys + 1 }) { ln with num_keys := 0 }
    let nl1 := for_up split st.order
      (fun i (x : node) =>
        let j := i - split
        { x with pointers := aset x.pointers j (t2.pointers i),
                 pointers_disk := aset x.pointers_disk j (t2.pointers_disk i),
                 keys := aset x.keys j (t2.keys i),
                 num_keys := x.num_keys + 1 }) (st0.nodes new_leaf)
    -- last pointer points to the next leaf
    let nl2 :=
      { nl1 with pointers := aset nl1.pointers (st.order - 1) (ln1.pointers (st.order - 1)),
                 pointers_disk := aset nl1.pointers_disk (st.order - 1)
                   (ln1.pointers_disk (st.order - 1)) }
    let ln2 := { ln1 with pointers := aset ln1.pointers (st.order - 1) (some new_leaf) }
    let ln3 := for_up ln2.num_keys (st.order - 1)
      (fun i (x : node) => { x with pointers := aset x.pointers i none }) ln2
    let nl3 := for_up nl2.num_keys (st.order - 1)
      (fun i (x : node) => { x with pointers := aset x.pointers i none }) nl2
    let nl4 := { nl3 with parent := ln3.parent }
    let new_key := nl4.keys 0
    let st1 := (st0.setNode leaf ln3).setNode new_leaf nl4
    match initialize_disknode_from_node leaf false st1 with
    | none => none
    | some (leaf_disk, st2) =>
      match initialize_disknode_from_node new_leaf false st2 with
      | none => none
      | some (new_leaf_disk, st3) =>
        let l3 := st3.nodes leaf
        let st4 := st3.setNode leaf
          { l3 with pointers_disk := aset l3.pointers_disk (st.order - 1) new_leaf_disk }
        match insert_into_parent root leaf new_key new_leaf leaf_disk new_leaf_disk
            (st4.brk + 1) st4 with
        | none => none
        | some (lroot, st5) =>
          if lroot ≠ root then
            match lroot with
            | none => none
            | some lr =>
              (initialize_disknode_from_node lr true st5).map (fun x => (lroot, x.2))
          else some (root, st5)

/-- The function `start_new_tree` (lines 1206-1218). -/
def start_new_tree (key : Int) (pointer : Nat) (st : BptState) :
    Option (Option Nat × BptState) :=
  let r := make_leaf st
  let rn := r.2.nodes r.1
  let st1 := r.2.setNode r.1
    { rn with keys := aset rn.keys 0 key,
              pointers := aset (aset rn.pointers 0 (some pointer)) (st.order - 1) none,
              pointers_disk := aset rn.pointers_disk 0 (toU32 (r.2.records pointer)),
              parent := none,
              num_keys := rn.num_keys + 1 }
  (initialize_disknode_from_node r.1 true st1).map (fun x => (some r.1, x.2))

/-- The function `insert` (lines 1228-1285). -/
def insert (root : Option Nat) (key : Int) (value : Int) (st : BptState) :
    Option (Option Nat × BptState) :=
  match find_update root key value st with
  | none => none
  | some (some record_pointer, key_leaf, st1) =>
    -- record_pointer->value = value;
    let st2 := { st1 with records := aset st1.records record_pointer value }
    match key_leaf with
    | none => none
    | some kl =>
      (initialize_disknode_from_node kl (decide (key_leaf = root)) st2).map
        (fun x => (root, x.2))
  | some (none, _, st1) =>
    let r := make_record value st1
    match root with
    | none => start_new_tree key r.1 r.2
    | some _ =>
      match find_leaf root key r.2 with
      | none => none
      | some (none, _) => none
      | some (some leaf, st3) =>
        if (st3.nodes leaf).num_keys < st.order - 1 then
          match insert_into_leaf leaf key r.1 st3 with
          | none => none
          | some st4 =>
            (initialize_disknode_from_node leaf (decide (some leaf = root)) st4).map
              (fun x => (root, x.2))
        else insert_into_leaf_after_splitting root leaf key r.1 st3

/-- The function `get_neighbor_index` (lines 1298-1317): the index of the pointer to
the left of `n` in its parent, -1 for the leftmost child, 9999 when the parent does
not point to `n`. -/
def get_neighbor_index (n : Nat) (st : BptState) : Option Int :=
  match (st.nodes n).parent with
  | none => none
  | some p =>
    let pn := st.nodes p
    match scan_while (fun i => decide (i ≤ pn.num_keys) && decide (pn.pointers i ≠ some n))
        (pn.num_keys + 2) 0 with
    | none => none
    | some i => if i ≤ pn.num_keys then some ((i : Int) - 1) else some 9999

/-- The function `remove_entry_from_node` (lines 1320-1354): keys and pointers are
moved down over the removed entry; `pointers_disk` and `pointers_expanded` are not
touched. The two searches have no bound in the code; here they stop with `none` after
`order` steps. -/
def remove_entry_from_node (n : Nat) (key : Int) (pointer : Option Nat) (st : BptState) :
    Option BptState :=
  let nn := st.nodes n
  match scan_while (fun i => decide (nn.keys i ≠ key)) st.order 0 with
  | none => none
  | some ik =>
    let nn1 := for_up (ik + 1) nn.num_keys
      (fun i (x : node) => { x with keys := aset x.keys (i - 1) (x.keys i) }) nn
    let num_pointers := if nn1.is_leaf then nn1.num_keys else nn1.num_keys + 1
    match scan_while (fun i => decide (nn1.pointers i ≠ pointer)) st.order 0 with
    | none => none
    | some ip =>
      let nn2 := for_up (ip + 1) num_pointers
        (fun i (x : node) => { x with pointers := aset x.pointers (i - 1) (x.pointers i) }) nn1
      let nn3 := { nn2 with num_keys := nn2.num_keys - 1 }
      let nn4 :=
        if nn3.is_leaf then
          for_up nn3.num_keys (st.order - 1)
            (fun i (x : node) => { x with pointers := aset x.pointers i none }) nn3
        else
          for_up (nn3.num_keys + 1) st.order
            (fun i (x : node) => { x with pointers := aset x.pointers i none }) nn3
      some (st.setNode n nn4)

/-- The function `adjust_root` (lines 1357-1391). -/
def adjust_root (root : Nat) (st : BptState) : Option (Option Nat × BptState) :=
  let rn := st.nodes root
  if rn.num_keys > 0 then some (some root, st)
  else if !rn.is_leaf then
    match rn.pointers 0 with
    | none => none
    | some new_root =>
      let st1 := st.setNode new_root { st.nodes new_root with parent := none }
      some (some new_root, { st1 with freed := kfree st1.freed root })
  else some (none, { st with freed := kfree st.freed root })

/-- The function `redistribute_nodes` (lines 1491-1559). -/
def redistribute_nodes (root : Option Nat) (n neighbor : Nat) (neighbor_index : Int)
    (k_prime_index : Nat) (k_prime : Int) (st : BptState) : Option (Option Nat × BptState) :=
  match (st.nodes n).parent with
  | none => none
  | some parent =>
    let nn := st.nodes n
    let nb := st.nodes neighbor
    if neighbor_index ≠ -1 then
      let nn1 :=
        if !nn.is_leaf then
          { nn with pointers := aset nn.pointers (nn.num_keys + 1) (nn.pointers nn.num_keys) }
        else nn
      let nn2 := for_down nn1.num_keys 0
        (fun i (x : node) =>
          { x with keys := aset x.keys i (x.keys (i - 1)),
                   pointers := aset x.pointers i (x.pointers (i - 1)) }) nn1
      if !nn2.is_leaf then
        match nb.pointers nb.num_keys with
        | none => none
        | some tmp =>
          let nn3 :=
            { nn2 with pointers := aset nn2.pointers 0 (some tmp),
                       keys := aset nn2.keys 0 k_prime, num_keys := nn2.num_keys + 1 }
          let nb1 :=
            { nb with pointers := aset nb.pointers nb.num_keys none,
                      num_keys := nb.num_keys - 1 }
          let st1 := (st.setNode n nn3).setNode tmp { st.nodes tmp with parent := some n }
          let st2 := st1.setNode neighbor nb1
          let pn := st2.nodes parent
          some (root, st2.setNode parent
            { pn with keys := aset pn.keys k_prime_index (nb.keys (nb.num_keys - 1)) })
      else
        let nn3 :=
          { nn2 with pointers := aset nn2.pointers 0 (nb.pointers (nb.num_keys - 1)),
                     keys := aset nn2.keys 0 (nb.keys (nb.num_keys - 1)),
                     num_keys := nn2.num_keys + 1 }
        let nb1 :=
          { nb with pointers := aset nb.pointers (nb.num_keys - 1) none,
                    num_keys := nb.num_keys - 1 }
        let st1 := (st.setNode n nn3).setNode neighbor nb1
        let pn := st1.nodes parent
        some (root, st1.setNode parent
          { pn with keys := aset pn.keys k_prime_index (nn3.keys 0) })
    else
      if nn.is_leaf then
        let nn1 :=
          { nn with keys := aset nn.keys nn.num_keys (nb.keys 0),
                    pointers := aset nn.pointers nn.num_keys (nb.pointers 0),
                    num_keys := nn.num_keys + 1 }
        let nb1 := for_up 0 (nb.num_keys - 1)
          (fun i (x : node) =>
            { x with keys := aset x.keys i (x.keys (i + 1)),
                     pointers := aset x.pointers i (x.pointers (i + 1)) }) nb
        let nb2 := { nb1 with num_keys := nb1.num_keys - 1 }
        let st1 := (st.setNode n nn1).setNode neighbor nb2
        let pn := st1.nodes parent
        some (root, st1.setNode parent
          { pn with keys := aset pn.keys k_prime_index (nb.keys 1) })
      else
        match nb.pointers 0 with
        | none => none
        | some tmp =>
          let nn1 :=
            { nn with keys := aset nn.keys nn.num_keys k_prime,
                      pointers := aset nn.pointers (nn.num_keys + 1) (some tmp),
                      num_keys := nn.num_keys + 1 }
          let nb1 := for_up 0 (nb.num_keys - 1)
            (fun i (x : node) =>
              { x with keys := aset x.keys i (x.keys (i + 1)),
                       pointers := aset x.pointers i (x.pointers (i + 1)) }) nb
          let nb2 :=
            { nb1 with pointers := aset nb1.pointers (nb.num_keys - 1) (nb1.pointers nb.num_keys),
                       num_keys := nb1.num_keys - 1 }
          let st1 := (st.setNode n nn1).setNode tmp { st.nodes tmp with parent := some n }
          let pn := st1.nodes parent
          let st2 := st1.setNode parent
            { pn with keys := aset pn.keys k_prime_index (nb.keys 0) }
          some (root, st2.setNode neighbor nb2)

mutual

/-- The function `delete_entry` (lines 1568-1633). The fuel bounds the chain of
merges up the tree. -/
def delete_entry (root : Option Nat) (n : Nat) (key : Int) (pointer : Option Nat) :
    Nat → BptState → Option (Option Nat × BptState)
  | 0, _ => none
  | fuel + 1, st =>
    match remove_entry_from_node n key pointer st with
    | none => none
    | some st1 =>
      if some n = root then adjust_root n st1
      else
        let nn := st1.nodes n
        let min_keys := if nn.is_leaf then cut (st.order - 1) else cut st.order - 1
        if nn.num_keys ≥ min_keys then some (root, st1)
        else
          match get_neighbor_index n st1, nn.parent with
          | some neighbor_index, some parent =>
            let pn := st1.nodes parent
            let k_prime_index := if neighbor_index = -1 then 0 else neighbor_index.toNat
            let k_prime := pn.keys k_prime_index
            match (if neighbor_index = -1 then pn.pointers 1
                   else pn.pointers neighbor_index.toNat) with
            | none => none
            | some neighbor =>
              let capacity := if nn.is_leaf then st.order else st.order - 1
              if (st1.nodes neighbor).num_keys + nn.num_keys < capacity then
                coalesce_nodes root n neighbor neighbor_index k_prime fuel st1
              else
                redistribute_nodes root n neighbor neighbor_index k_prime_index k_prime st1
          | _, _ => none

/-- The function `coalesce_nodes` (lines 1401-1482). -/
def coalesce_nodes (root : Option Nat) (n0 neighbor0 : Nat) (neighbor_index : Int)
    (k_prime : Int) : Nat → BptState → Option (Option Nat × BptState)
  | 0, _ => none
  | fuel + 1, st =>
    let n := if neighbor_index = -1 then neighbor0 else n0
    let neighbor := if neighbor_index = -1 then n0 else neighbor0
    let nn := st.nodes n
    let nb := st.nodes neighbor
    let neighbor_insertion_index := nb.num_keys
    let st2 : Option BptState :=
      if !nn.is_leaf then
        let nb1 :=
          { nb with keys := aset nb.keys neighbor_insertion_index k_prime,
                    num_keys := nb.num_keys + 1 }
        let n_end := nn.num_keys
        let nb2 := for_up 0 n_end
          (fun j (x : node) =>
            let i := neighbor_insertion_index + 1 + j
            { x with keys := aset x.keys i (nn.keys j),
                     pointers := aset x.pointers i (nn.pointers j),
                     num_keys := x.num_keys + 1 }) nb1
        let nb3 :=
          { nb2 with pointers := aset nb2.pointers (neighbor_insertion_index + 1 + n_end)
                       (nn.pointers n_end) }
        let st1 := (st.setNode n { nn with num_keys := nn.num_keys - n_end }).setNode neighbor nb3
        for_up 0 (nb3.num_keys + 1)
          (fun i (x : Option BptState) =>
            match x with
            | none => none
            | some y =>
              match nb3.pointers i with
              | none => none
              | some tmp => some (y.setNode tmp { y.nodes tmp with parent := some neighbor }))
          (some st1)
      else
        let nb1 := for_up 0 nn.num_keys
          (fun j (x : node) =>
            let i := neighbor_insertion_index + j
            { x with keys := aset x.keys i (nn.keys j),
                     pointers := aset x.pointers i (nn.pointers j),
                     num_keys := x.num_keys + 1 }) nb
        some (st.setNode neighbor
          { nb1 with pointers := aset nb1.pointers (st.order - 1) (nn.pointers (st.order - 1)) })
    match st2 with
    | none => none
    | some st3 =>
      match (st3.nodes n).parent with
      | none => none
      | some parent =>
        match delete_entry root parent k_prime (some n) fuel st3 with
        | none => none
        | some (root1, st4) => some (root1, { st4 with freed := kfree st4.freed n })

end

/-- The function `delete` (lines 1639-1653). -/
def delete (root : Option Nat) (key : Int) (st : BptState) : Option (Option Nat × BptState) :=
  match find root key st with
  | none => none
  | some (some key_record, some key_leaf, st1) =>
    match delete_entry root key_leaf key (some key_record) (st1.brk + 1) st1 with
    | none => none
    | some (root1, st2) => some (root1, { st2 with freed := kfree st2.freed key_record })
  | some (_, _, st1) => some (root, st1)

/-- The free list `s, s + 1, ..., s + n - 1` laid out in the cells at addresses
`0 .. n - 1`. -/
def FreeState.run (s n : Nat) : FreeState :=
  { mem := fun a => ⟨s + a, if a + 1 < n then some (a + 1) else none⟩,
    freed := fun _ => false, brk := n,
    head_freelist := if 0 < n then some 0 else none,
    tail_freelist := if 0 < n then some (n - 1) else none, total_freelist := n }

/-- A sample memory: nothing allocated, `kmalloc` hands out zeroed blocks, the block
at model address `a` has machine address `0x1000 + 64 * a`, the free list holds the
sectors `8 .. 8 + 8 * runs - 1`, the disk is blank, and `order` has its initial
value. -/
def BptState.sample (runs : Nat) : BptState :=
  { order := PdLinux.order,
    nodes := fun _ => ⟨fun _ => none, fun _ => false, fun _ => 0, fun _ => 0, none, 0, false, 0⟩,
    records := fun _ => 0, freed := fun _ => false, brk := 0,
    fresh := ⟨fun _ => none, fun _ => false, fun _ => 0, fun _ => 0, none, 0, false, 0⟩,
    addr := fun a => 0x1000 + 64 * a, fl := FreeState.run 8 (8 * runs),
    disk := fun _ _ => 0 }

/-- Repeated `insert`, as a caller that inserts several keys in turn, each time with
the root the call before returned. -/
def insert_all : List (Int × Int) → Option Nat → BptState → Option (Option Nat × BptState)
  | [], root, st => some (root, st)
  | kv :: rest, root, st =>
    (insert root kv.1 kv.2 st).bind (fun r => insert_all rest r.1 r.2)

/-- The pairs `(k, 10 * k + c)` for `k = 1, ..., n`. -/
def sample_pairs (n : Nat) (c : Int) : List (Int × Int) :=
  (List.range' 1 n).map (fun k => ((k : Int), 10 * (k : Int) + c))

/-- The pairs `(10 * k, k)` for `k = 1, ..., 16`. -/
def sample_tens : List (Int × Int) :=
  (List.range' 1 16).map (fun k => (10 * (k : Int), (k : Int)))

/-- The node at address `n` written out by `initialize_disknode_from_node` and read
back by `initialize_node_from_disknode` from the sector the write returned, into a
node that `make_leaf` has just made: the node before, and the node read back. -/
def disknode_roundtrip (n : Nat) (is_root : Bool) (st : BptState) : Option (node × node) :=
  (initialize_disknode_from_node n is_root st).map (fun w =>
    let r := make_leaf w.2
    (st.nodes n, (initialize_node_from_disknode (toInt32 w.1) r.1 r.2).nodes r.1))

/-- The fields of a node that are kept on the disk: the first `k` keys and the first
`k + 1` entries of `pointers_disk`. -/
structure NodeView where
  is_leaf : Bool
  num_keys : Nat
  keys : List Int
  pointers_disk : List Nat
  parent_disk : Nat
deriving DecidableEq

/-- The view of a node. -/
def node_view (k : Nat) (x : node) : NodeView :=
  { is_leaf := x.is_leaf, num_keys := x.num_keys, keys := (List.range k).map x.keys,
    pointers_disk := (List.range (k + 1)).map x.pointers_disk, parent_disk := x.parent_disk }

/-- The cells reachable from `head_dirtylist`. -/
def DirtyState.nodes (st : DirtyState) : List Nat :=
  walk st.mem st.brk st.head_dirtylist

/-- The sector numbers reachable from `head_dirtylist`, in list order. -/
def DirtyState.sectors (st : DirtyState) : List Nat :=
  st.nodes.map (fun a => (st.mem a).sector)

/-- The dirty list as the three functions keep it: the walk from `head_dirtylist`
ends at `NULL`, its cells were handed out by `kmalloc`, no sector is in it twice, and
`tail_dirtylist` of a list that is not empty points either to its last cell or to a
cell that is not in the list (`removefrom_dirty_list` leaves it behind when it
removes the last cell). -/
def DirtyState.WF (st : DirtyState) : Prop :=
  Seg st.mem st.head_dirtylist st.nodes none ∧ (∀ a ∈ st.nodes, a < st.brk) ∧
    st.sectors.Nodup ∧
    (st.nodes ≠ [] →
      ∃ t, st.tail_dirtylist = some t ∧ (st.nodes.getLast? = some t ∨ t ∉ st.nodes))

/-- The loop `while (iter_in.bi_size)` of the public-write pass (lines 3072-3170);
`rnd pos` is what `get_random_bytes` delivers for the slot at `pos`. -/
def pass_loop (m : Idr) (disk : Nat → Buf) (rnd : Nat → Buf) :
    Nat → PassState → Option PassState
  | 0, _ => none
  | fuel + 1, s =>
    if s.bi_size = 0 then some s
    else (pass_step m disk (rnd s.pos) s).bind (pass_loop m disk rnd fuel)

/-- The state of the public-write pass when it has gone `k` times through the body
of its loop. -/
def pass_iter (m : Idr) (disk : Nat → Buf) (rnd : Nat → Buf) :
    Nat → PassState → Option PassState
  | 0, s => some s
  | k + 1, s =>
    if s.bi_size = 0 then none
    else (pass_step m disk (rnd s.pos) s).bind (pass_iter m disk rnd k)

/-- A disk that is blank but for a chain of logical sector 7 with sequence number 1
whose head IV is at sector `h` and whose first tail IV is at sector `h + 1`. -/
def sample_disk_chain_at (h : Nat) : Nat → Buf :=
  fun s => if s = h then sample_head_slot 7 1 else if s = h + 1 then sample_tail_slot 1
    else fun _ => 0

/-- The slot `b` with its `public_counter` (bytes 13 and 14) set to `c`. -/
def with_public_counter (b : Buf) (c : Nat) : Buf :=
  memcpy b RANDOM_BYTES_POS (le_bytes c) 0 RANDOM_BYTES_PER_TAG

/-- A disk that is blank but for a chain of logical sector 7 with sequence number 1 at
the sectors 0, 1 and 2, whose slots hold the `public_counter` values `c0`, `c1` and
`c2`. -/
def sample_disk_counters (c0 c1 c2 : Nat) : Nat → Buf :=
  fun s => if s = 0 then with_public_counter (sample_head_slot 7 1) c0
    else if s = 1 then with_public_counter (sample_tail_slot 1) c1
    else if s = 2 then with_public_counter (sample_tail_slot 2) c2
    else fun _ => 0

/-- The sample memory with the global `order` set to `m`. -/
def BptState.sample_order (m runs : Nat) : BptState :=
  { BptState.sample runs with order := m }

/-- The keys of a node, as a list. -/
def node_keys (x : node) : List Int := (List.range x.num_keys).map x.keys

/-- The leaves met when following the last pointer (`pointers[order - 1]`) from the
leaf `p` on, at most `fuel` of them, each with its keys. -/
def leaf_chain (st : BptState) : Nat → Option Nat → List (Nat × List Int)
  | 0, _ => []
  | _ + 1, none => []
  | fuel + 1, some a =>
    (a, node_keys (st.nodes a)) :: leaf_chain st fuel ((st.nodes a).pointers (st.order - 1))

/-- A memory for a tree of order `m`: as `BptState.sample_order`, but the
`pointers_disk` array of a block that `kmalloc` hands out holds the number `g` in
every entry, and the IV slot of sector `g` on the disk is a tail slot of a hidden
sector (magic byte, `iv_offset` 1, `public_counter` 0). -/
def BptState.sample_stale (m runs g : Nat) : BptState :=
  { BptState.sample runs with
    order := m,
    fresh := ⟨fun _ => none, fun _ => false, fun _ => g, fun _ => 0, none, 0, false, 0⟩,
    disk := fun s => if s = g then sample_tail_slot 1 else fun _ => 0 }

/-- The pairs `(k, k)` for `k = hi, hi - 1, ..., hi - n + 1`. -/
def sample_descending (hi n : Nat) : List (Int × Int) :=
  (List.range n).map (fun i => (((hi - i : Nat) : Int), ((hi - i : Nat) : Int)))

/-! # Properties -/

/-! ## Lists in memory -/

theorem seg_nil (mem : Nat → freelist) (p q : Option Nat) :
    Seg mem p [] q ↔ p = q := Iff.rfl

theorem seg_cons (mem : Nat → freelist) (a : Nat) (as : List Nat) (p q : Option Nat) :
    Seg mem p (a :: as) q ↔ p = some a ∧ Seg mem (mem a).next as q := Iff.rfl

theorem seg_append (mem : Nat → freelist) (xs ys : List Nat) (p r : Option Nat) :
    Seg mem p (xs ++ ys) r ↔ ∃ q, Seg mem p xs q ∧ Seg mem q ys r := by
  induction xs generalizing p with
  | nil => simp [seg_nil]
  | cons a xs ih =>
    rw [List.cons_append, seg_cons, ih]
    constructor
    · rintro ⟨h1, q, h2, h3⟩
      exact ⟨q, (seg_cons _ _ _ _ _).mpr ⟨h1, h2⟩, h3⟩
    · rintro ⟨q, h12, h3⟩
      obtain ⟨h1, h2⟩ := (seg_cons _ _ _ _ _).mp h12
      exact ⟨h1, q, h2, h3⟩

theorem seg_congr (mem mem2 : Nat → freelist) (xs : List Nat) (p q : Option Nat)
    (h : ∀ a ∈ xs, mem2 a = mem a) : Seg mem2 p xs q ↔ Seg mem p xs q := by
  induction xs generalizing p with
  | nil => simp [seg_nil]
  | cons a xs ih =>
    rw [seg_cons, seg_cons, h a (List.mem_cons_self _ _), ih]
    intro b hb
    exact h b (List.mem_cons_of_mem _ hb)

theorem seg_unique (mem : Nat → freelist) (xs ys : List Nat) (p : Option Nat)
    (hx : Seg mem p xs none) (hy : Seg mem p ys none) : xs = ys := by
  induction xs generalizing p ys with
  | nil =>
    cases ys with
    | nil => rfl
    | cons b ys =>
      simp only [Seg] at hx hy
      rw [hx] at hy
      exact absurd hy.1 (by simp)
  | cons a xs ih =>
    cases ys with
    | nil =>
      simp only [Seg] at hx hy
      rw [hy] at hx
      exact absurd hx.1 (by simp)
    | cons b ys =>
      simp only [Seg] at hx hy
      have hab : a = b := by
        have := hx.1.symm.trans hy.1
        simpa using this
      subst hab
      rw [ih ys _ hx.2 hy.2]

theorem seg_nodup (mem : Nat → freelist) (xs : List Nat) (p : Option Nat)
    (hx : Seg mem p xs none) : xs.Nodup := by
  induction xs generalizing p with
  | nil => exact List.nodup_nil
  | cons a xs ih =>
    simp only [Seg] at hx
    refine List.nodup_cons.mpr ⟨?_, ih _ hx.2⟩
    intro hmem
    obtain ⟨pre, suf, hsplit⟩ := List.append_of_mem hmem
    have h2 := hx.2
    rw [hsplit, seg_append] at h2
    obtain ⟨q, _, h3⟩ := h2
    have h4 : Seg mem (some a) (a :: suf) none :=
      (seg_cons _ _ _ _ _).mpr ⟨rfl, ((seg_cons _ _ _ _ _).mp h3).2⟩
    have h5 : Seg mem (some a) (a :: xs) none := (seg_cons _ _ _ _ _).mpr ⟨rfl, hx.2⟩
    have h6 := seg_unique mem _ _ _ h4 h5
    have h7 : suf.length = xs.length := by
      have := congrArg List.length h6
      simpa using this
    rw [hsplit] at h7
    simp at h7
    omega

theorem length_le_of_nodup_lt (xs : List Nat) (n : Nat) (hn : xs.Nodup)
    (hb : ∀ a ∈ xs, a < n) : xs.length ≤ n := by
  have hsub : xs ⊆ List.range n := fun a ha => List.mem_range.mpr (hb a ha)
  have := (hn.subperm hsub).length_le
  simpa using this

theorem walk_of_seg (mem : Nat → freelist) (xs : List Nat) (p : Option Nat) (fuel : Nat)
    (hx : Seg mem p xs none) (hf : xs.length ≤ fuel) : walk mem fuel p = xs := by
  induction xs generalizing p fuel with
  | nil =>
    simp only [Seg] at hx
    subst hx
    cases fuel <;> rfl
  | cons a xs ih =>
    simp only [Seg] at hx
    obtain ⟨h1, h2⟩ := hx
    subst h1
    cases fuel with
    | zero => simp at hf
    | succ fuel =>
      simp only [walk]
      rw [ih _ fuel h2 (by simpa using hf)]

/-! ## `addto_freelist` -/

theorem seg_head (mem : Nat → freelist) (xs : List Nat) (p : Option Nat)
    (hx : Seg mem p xs none) : p = xs.head? := by
  cases xs with
  | nil => exact hx
  | cons a xs => exact hx.1

theorem addto_freelist_loop_spec (m : Nat → freelist) (sector : Nat) :
    ∀ (suf : List Nat) (p : Option Nat) (prev fuel : Nat),
      Seg m p suf none → suf.length < fuel →
      Ascending (suf.map (fun a => (m a).sector)) →
      (sector ∈ suf.map (fun a => (m a).sector) ∧
        addto_freelist_loop m sector fuel p prev = some AddScan.dup) ∨
      (sector ∉ suf.map (fun a => (m a).sector) ∧
        ∃ s1 s2, suf = s1 ++ s2 ∧ (∀ a ∈ s1, (m a).sector < sector) ∧
          (∀ a ∈ s2, sector < (m a).sector) ∧
          addto_freelist_loop m sector fuel p prev =
            some (AddScan.slot ((s1.getLast?).getD prev) s2.head?)) := by
  intro suf
  induction suf with
  | nil =>
    intro p prev fuel hseg hf _
    have hp : p = none := hseg
    subst hp
    right
    refine ⟨by simp, [], [], rfl, by simp, by simp, ?_⟩
    cases fuel with
    | zero => simp at hf
    | succ fuel => rfl
  | cons a t ih =>
    intro p prev fuel hseg hf hasc
    obtain ⟨hp, htail⟩ := (seg_cons _ _ _ _ _).mp hseg
    subst hp
    cases fuel with
    | zero => simp at hf
    | succ fuel =>
      have hasc2 : (∀ b ∈ t.map (fun a => (m a).sector), (m a).sector < b) ∧
          Ascending (t.map (fun a => (m a).sector)) := by
        simpa [Ascending] using hasc
      simp only [addto_freelist_loop]
      by_cases h1 : sector < (m a).sector
      · right
        refine ⟨?_, [], a :: t, rfl, by simp, ?_, by simp [h1]⟩
        · intro hmem
          rcases List.mem_map.mp hmem with ⟨b, hb, hbe⟩
          rcases List.mem_cons.mp hb with hb | hb
          · subst hb; omega
          · have := hasc2.1 _ (List.mem_map.mpr ⟨b, hb, rfl⟩)
            omega
        · intro b hb
          rcases List.mem_cons.mp hb with hb | hb
          · subst hb; exact h1
          · have := hasc2.1 _ (List.mem_map.mpr ⟨b, hb, rfl⟩)
            omega
      · by_cases h2 : sector = (m a).sector
        · left
          refine ⟨by simp [h2], by simp [h2]⟩
        · rcases ih (m a).next a fuel htail (by simpa using hf) hasc2.2 with hd | hs
          · left
            refine ⟨?_, by simp [h1, h2, hd.2]⟩
            exact List.mem_map.mpr (by
              rcases List.mem_map.mp hd.1 with ⟨b, hb, hbe⟩
              exact ⟨b, List.mem_cons_of_mem _ hb, hbe⟩)
          · right
            obtain ⟨hnot, s1, s2, hsplit, hlt, hgt, hloop⟩ := hs
            refine ⟨?_, a :: s1, s2, by simp [hsplit], ?_, hgt, ?_⟩
            · intro hmem
              rcases List.mem_map.mp hmem with ⟨b, hb, hbe⟩
              rcases List.mem_cons.mp hb with hb | hb
              · subst hb; exact h2 hbe.symm
              · exact hnot (List.mem_map.mpr ⟨b, hb, hbe⟩)
            · intro b hb
              rcases List.mem_cons.mp hb with hb | hb
              · subst hb; omega
              · exact hlt b hb
            · simp only [h1, h2, if_false, hloop, List.getLast?_cons]
              rfl

theorem setNext_sector (m : Nat → freelist) (a b : Nat) (r : Option Nat) :
    (setNext m a r b).sector = (m b).sector := by
  unfold setNext
  split
  · next h => rw [h]
  · rfl

theorem setNext_same (m : Nat → freelist) (a : Nat) (r : Option Nat) :
    (setNext m a r a).next = r := by
  simp [setNext]

theorem setNext_other (m : Nat → freelist) (a b : Nat) (r : Option Nat) (h : b ≠ a) :
    setNext m a r b = m b := by
  simp [setNext, h]

theorem setCell_same (m : Nat → freelist) (a : Nat) (c : freelist) :
    setCell m a c a = c := by
  simp [setCell]

theorem setCell_other (m : Nat → freelist) (a b : Nat) (c : freelist) (h : b ≠ a) :
    setCell m a c b = m b := by
  simp [setCell, h]

theorem seg_setNext_of_not_mem (m : Nat → freelist) (a : Nat) (r : Option Nat)
    (xs : List Nat) (p q : Option Nat) (h : a ∉ xs) :
    Seg (setNext m a r) p xs q ↔ Seg m p xs q := by
  apply seg_congr
  intro b hb
  exact setNext_other m a b r (fun e => h (e ▸ hb))

theorem seg_setCell_of_not_mem (m : Nat → freelist) (a : Nat) (c : freelist)
    (xs : List Nat) (p q : Option Nat) (h : a ∉ xs) :
    Seg (setCell m a c) p xs q ↔ Seg m p xs q := by
  apply seg_congr
  intro b hb
  exact setCell_other m a b c (fun e => h (e ▸ hb))

theorem seg_setNext_last (m : Nat → freelist) (a : Nat) (r : Option Nat)
    (xs : List Nat) (p q : Option Nat) (h : a ∉ xs) (hs : Seg m p (xs ++ [a]) q) :
    Seg (setNext m a r) p (xs ++ [a]) r := by
  rw [seg_append] at hs ⊢
  obtain ⟨q2, h1, h2⟩ := hs
  refine ⟨q2, (seg_setNext_of_not_mem m a r xs p q2 h).mpr h1, ?_⟩
  rw [seg_cons] at h2 ⊢
  exact ⟨h2.1, by rw [setNext_same]; exact (seg_nil _ _ _).mpr rfl⟩

theorem walk_none (m : Nat → freelist) (fuel : Nat) : walk m fuel none = [] := by
  cases fuel <;> rfl

theorem nodes_of_seg (st : FreeState) (L : List Nat)
    (h : Seg st.mem st.head_freelist L none) (hb : ∀ a ∈ L, a < st.brk) :
    st.nodes = L :=
  walk_of_seg st.mem L st.head_freelist st.brk h
    (length_le_of_nodup_lt L st.brk (seg_nodup _ _ _ h) hb)

theorem wf_of_seg (st : FreeState) (L : List Nat)
    (h : Seg st.mem st.head_freelist L none)
    (hb : ∀ a ∈ L, a < st.brk ∧ st.freed a = false) :
    st.WF ∧ st.nodes = L := by
  have hn := nodes_of_seg st L h (fun a ha => (hb a ha).1)
  refine ⟨?_, hn⟩
  unfold FreeState.WF
  rw [hn]
  exact ⟨h, hb⟩

/-- Adding a sector that is not yet in a well-formed ascending list: the call
returns, and the new list is the old one with the sector put in at its place. -/
theorem addto_freelist_new (st : FreeState) (sector : Nat) (hwf : st.WF)
    (hasc : Ascending st.sectors) (hnew : sector ∉ st.sectors) :
    ∃ st2 l1 l2, addto_freelist sector st = some st2 ∧ st2.WF ∧
      st.sectors = l1 ++ l2 ∧ st2.sectors = l1 ++ sector :: l2 ∧
      (∀ x ∈ l1, x < sector) ∧ (∀ x ∈ l2, sector < x) ∧
      st2.total_freelist = (st.total_freelist + 1) % 2 ^ 32 := by
  obtain ⟨hseg, hb⟩ := hwf
  have hfresh : st.brk ∉ st.nodes := fun h => by have := (hb _ h).1; omega
  have hne : ∀ a ∈ st.nodes, a ≠ st.brk := fun a ha e => hfresh (e ▸ ha)
  have hseg1 : Seg (setCell st.mem st.brk ⟨sector, none⟩) st.head_freelist st.nodes none :=
    (seg_setCell_of_not_mem _ _ _ _ _ _ hfresh).mpr hseg
  have hsec1 : st.nodes.map (fun a => (setCell st.mem st.brk ⟨sector, none⟩ a).sector)
      = st.sectors := by
    unfold FreeState.sectors
    apply List.map_congr_left
    intro a ha
    rw [setCell_other _ _ _ _ (hne a ha)]
  have hlen : st.nodes.length ≤ st.brk :=
    length_le_of_nodup_lt _ _ (seg_nodup _ _ _ hseg) (fun a ha => (hb a ha).1)
  unfold addto_freelist
  cases hh : st.head_freelist with
  | none =>
    have hnil : st.nodes = [] := by
      unfold FreeState.nodes
      rw [hh, walk_none]
    have hsn : st.sectors = [] := by unfold FreeState.sectors; rw [hnil]; rfl
    refine ⟨_, [], [], rfl, ?_⟩
    have key := wf_of_seg
      { st with mem := setCell st.mem st.brk ⟨sector, none⟩, freed := kmalloc st.freed st.brk,
                brk := st.brk + 1, head_freelist := some st.brk,
                tail_freelist := some st.brk,
                total_freelist := (st.total_freelist + 1) % 2 ^ 32 } [st.brk]
      (by
        dsimp only
        rw [seg_cons, setCell_same]
        exact ⟨rfl, rfl⟩)
      (by
        intro a ha
        have : a = st.brk := by simpa using ha
        subst this
        exact ⟨Nat.lt_succ_self _, by simp [kmalloc]⟩)
    refine ⟨key.1, by simp [hsn], ?_, by simp, by simp, rfl⟩
    unfold FreeState.sectors
    rw [key.2]
    simp [setCell_same]
  | some h =>
    have hhmem : h ∈ st.nodes := by
      have := seg_head _ _ _ hseg
      rw [hh] at this
      cases hn : st.nodes with
      | nil => rw [hn] at this; simp at this
      | cons b t =>
        rw [hn] at this
        simp at this
        subst this
        exact List.mem_cons_self _ _
    have hhsec : (setCell st.mem st.brk ⟨sector, none⟩ h).sector = (st.mem h).sector := by
      rw [setCell_other _ _ _ _ (hne h hhmem)]
    by_cases hlt : sector < (st.mem h).sector
    · simp only [hhsec, hlt, if_true]
      refine ⟨_, [], st.sectors, rfl, ?_⟩
      have hsegx : Seg (setNext (setCell st.mem st.brk ⟨sector, none⟩) st.brk (some h))
          (some st.brk) (st.brk :: st.nodes) none := by
        rw [seg_cons, setNext_same]
        refine ⟨rfl, ?_⟩
        rw [seg_setNext_of_not_mem _ _ _ _ _ _ hfresh, ← hh]
        exact hseg1
      have key := wf_of_seg
        { st with mem := setNext (setCell st.mem st.brk ⟨sector, none⟩) st.brk (some h),
                  freed := kmalloc st.freed st.brk,
                  brk := st.brk + 1, head_freelist := some st.brk,
                  total_freelist := (st.total_freelist + 1) % 2 ^ 32 } (st.brk :: st.nodes)
        hsegx
        (by
          intro a ha
          rcases List.mem_cons.mp ha with ha | ha
          · subst ha
            exact ⟨Nat.lt_succ_self _, by simp [kmalloc]⟩
          · have := hb a ha
            exact ⟨Nat.lt_succ_of_lt this.1, by simp [kmalloc, hne a ha, this.2]⟩)
      refine ⟨key.1, by simp, ?_, by simp, ?_, rfl⟩
      · unfold FreeState.sectors
        rw [key.2]
        simp only [List.map_cons, setNext_sector, setCell_same, List.nil_append]
        congr 1
      · intro x hx
        unfold FreeState.sectors at hx hasc
        rcases List.mem_map.mp hx with ⟨b, hb2, hbe⟩
        have hn2 : st.nodes = h :: st.nodes.tail := by
          have := seg_head _ _ _ hseg
          rw [hh] at this
          cases hn : st.nodes with
          | nil => rw [hn] at this; simp at this
          | cons b t =>
            rw [hn] at this
            simp at this
            subst this
            rfl
        rw [hn2] at hb2 hasc
        simp only [List.map_cons, Ascending, List.pairwise_cons] at hasc
        rcases List.mem_cons.mp hb2 with e | e
        · subst e; omega
        · have := hasc.1 _ (List.mem_map.mpr ⟨b, e, rfl⟩)
          omega
    · simp only [hhsec, hlt, if_false]
      have hloop := addto_freelist_loop_spec (setCell st.mem st.brk ⟨sector, none⟩) sector
        st.nodes (some h) h (st.brk + 1 + 1) (hh ▸ hseg1) (by omega) (by rw [hsec1]; exact hasc)
      rw [hsec1] at hloop
      rcases hloop with hd | hs
      · exact absurd hd.1 hnew
      · obtain ⟨_, s1, s2, hsplit, hl1, hl2, hloop⟩ := hs
        rw [hloop]
        have hs1 : s1 ≠ [] := by
          intro e
          subst e
          simp only [List.nil_append] at hsplit
          have := hl2 h (hsplit ▸ hhmem)
          rw [hhsec] at this
          exact hlt this
        rcases List.eq_nil_or_concat s1 with e | ⟨ini, lst, e⟩
        · exact absurd e hs1
        rw [List.concat_eq_append] at e
        subst e
        have hlast : ((ini ++ [lst]).getLast?).getD h = lst := by simp
        simp only [hlast]
        have hnd : (ini ++ [lst] ++ s2).Nodup := hsplit ▸ seg_nodup _ _ _ hseg
        have hl_ini : lst ∉ ini := by
          intro hm
          have := (List.nodup_append.mp (List.nodup_append.mp hnd).1).2.2
          exact this hm (by simp) 
        have hl_s2 : lst ∉ s2 := by
          intro hm
          have := (List.nodup_append.mp hnd).2.2
          exact this (by simp) hm
        have hf_ini : st.brk ∉ ini := fun hm => hfresh (by rw [hsplit]; simp [hm])
        have hf_s2 : st.brk ∉ s2 := fun hm => hfresh (by rw [hsplit]; simp [hm])
        have hf_lst : lst ≠ st.brk := hne lst (by rw [hsplit]; simp)
        have hsegs := hseg1
        rw [hh, hsplit, seg_append] at hsegs
        obtain ⟨q, hq1, hq2⟩ := hsegs
        have hqh : q = s2.head? := seg_head _ _ _ hq2
        subst hqh
        have hsegx : Seg (setNext (setNext (setCell st.mem st.brk ⟨sector, none⟩) st.brk
            s2.head?) lst (some st.brk)) (some h) ((ini ++ [lst]) ++ (st.brk :: s2)) none := by
          rw [seg_append]
          refine ⟨some st.brk, ?_, ?_⟩
          · apply seg_setNext_last _ _ _ _ _ s2.head? hl_ini
            have hni : st.brk ∉ ini ++ [lst] := by
              simp only [List.mem_append, List.mem_singleton, not_or]
              exact ⟨hf_ini, fun e => hf_lst e.symm⟩
            exact (seg_setNext_of_not_mem _ _ _ _ _ _ hni).mpr hq1
          · rw [seg_cons]
            refine ⟨rfl, ?_⟩
            rw [setNext_other _ _ _ _ (Ne.symm hf_lst), setNext_same]
            rw [seg_setNext_of_not_mem _ _ _ _ _ _ hl_s2,
              seg_setNext_of_not_mem _ _ _ _ _ _ hf_s2]
            exact hq2
        have key := wf_of_seg
          { st with mem := setNext (setNext (setCell st.mem st.brk ⟨sector, none⟩) st.brk
                      s2.head?) lst (some st.brk),
                    freed := kmalloc st.freed st.brk,
                    brk := st.brk + 1, head_freelist := some h,
                    total_freelist := (st.total_freelist + 1) % 2 ^ 32 }
          ((ini ++ [lst]) ++ (st.brk :: s2))
          hsegx
          (by
            intro a ha
            rcases List.mem_append.mp ha with ha | ha
            · have hm : a ∈ st.nodes := by rw [hsplit]; exact List.mem_append_left _ ha
              have := hb a hm
              exact ⟨Nat.lt_succ_of_lt this.1, by simp [kmalloc, hne a hm, this.2]⟩
            · rcases List.mem_cons.mp ha with ha | ha
              · subst ha
                exact ⟨Nat.lt_succ_self _, by simp [kmalloc]⟩
              · have hm : a ∈ st.nodes := by rw [hsplit]; exact List.mem_append_right _ ha
                have := hb a hm
                exact ⟨Nat.lt_succ_of_lt this.1, by simp [kmalloc, hne a hm, this.2]⟩)
        have hsecs : st.sectors =
            (ini ++ [lst]).map (fun a => (st.mem a).sector) ++
              s2.map (fun a => (st.mem a).sector) := by
          unfold FreeState.sectors
          rw [hsplit, List.map_append]
        refine ⟨_, (ini ++ [lst]).map (fun a => (st.mem a).sector),
          s2.map (fun a => (st.mem a).sector), rfl, key.1, hsecs, ?_, ?_, ?_, rfl⟩
        · unfold FreeState.sectors
          rw [key.2]
          simp only [List.map_append, List.map_cons, setNext_sector, setCell_same]
          have e1 : ∀ (l : List Nat), st.brk ∉ l →
              l.map (fun a => (setCell st.mem st.brk ⟨sector, none⟩ a).sector)
                = l.map (fun a => (st.mem a).sector) := by
            intro l hl
            apply List.map_congr_left
            intro a ha
            rw [setCell_other _ _ _ _ (fun e => hl (by rw [← e]; exact ha))]
          rw [e1 ini hf_ini, e1 s2 hf_s2, setCell_other _ _ _ _ hf_lst]
          rfl
        · intro x hx
          rcases List.mem_map.mp hx with ⟨b, hb2, hbe⟩
          have := hl1 b hb2
          have hbm : b ∈ st.nodes := by rw [hsplit]; exact List.mem_append_left _ hb2
          rw [setCell_other _ _ _ _ (hne b hbm)] at this
          omega
        · intro x hx
          rcases List.mem_map.mp hx with ⟨b, hb2, hbe⟩
          have := hl2 b hb2
          have hbm : b ∈ st.nodes := by rw [hsplit]; exact List.mem_append_right _ hb2
          rw [setCell_other _ _ _ _ (hne b hbm)] at this
          omega

/-- Adding a sector that is already in a well-formed ascending list: the call
returns after freeing the cell it allocated, and the list, its head pointer and
`total_freelist` are what they were. -/
theorem addto_freelist_dup (st : FreeState) (sector : Nat) (hwf : st.WF)
    (hasc : Ascending st.sectors) (hmem : sector ∈ st.sectors) :
    ∃ st2, addto_freelist sector st = some st2 ∧ st2.WF ∧
      st2.nodes = st.nodes ∧ st2.sectors = st.sectors ∧
      st2.head_freelist = st.head_freelist ∧
      st2.total_freelist = st.total_freelist ∧
      (∀ a ∈ st.nodes, st2.mem a = st.mem a) := by
  obtain ⟨hseg, hb⟩ := hwf
  have hfresh : st.brk ∉ st.nodes := fun h => by have := (hb _ h).1; omega
  have hne : ∀ a ∈ st.nodes, a ≠ st.brk := fun a ha e => hfresh (e ▸ ha)
  have hseg1 : Seg (setCell st.mem st.brk ⟨sector, none⟩) st.head_freelist st.nodes none :=
    (seg_setCell_of_not_mem _ _ _ _ _ _ hfresh).mpr hseg
  have hsec1 : st.nodes.map (fun a => (setCell st.mem st.brk ⟨sector, none⟩ a).sector)
      = st.sectors := by
    unfold FreeState.sectors
    apply List.map_congr_left
    intro a ha
    rw [setCell_other _ _ _ _ (hne a ha)]
  have hlen : st.nodes.length ≤ st.brk :=
    length_le_of_nodup_lt _ _ (seg_nodup _ _ _ hseg) (fun a ha => (hb a ha).1)
  unfold addto_freelist
  cases hh : st.head_freelist with
  | none =>
    exfalso
    have hnil : st.nodes = [] := by
      unfold FreeState.nodes
      rw [hh, walk_none]
    unfold FreeState.sectors at hmem
    rw [hnil] at hmem
    simp at hmem
  | some h =>
    have hn2 : st.nodes = h :: st.nodes.tail := by
      have := seg_head _ _ _ hseg
      rw [hh] at this
      cases hn : st.nodes with
      | nil => rw [hn] at this; simp at this
      | cons b t =>
        rw [hn] at this
        simp at this
        subst this
        rfl
    have hhmem : h ∈ st.nodes := by rw [hn2]; exact List.mem_cons_self _ _
    have hhsec : (setCell st.mem st.brk ⟨sector, none⟩ h).sector = (st.mem h).sector := by
      rw [setCell_other _ _ _ _ (hne h hhmem)]
    have hlt : ¬ sector < (st.mem h).sector := by
      intro hlt
      unfold FreeState.sectors at hmem hasc
      rcases List.mem_map.mp hmem with ⟨b, hb2, hbe⟩
      rw [hn2] at hb2 hasc
      simp only [List.map_cons, Ascending, List.pairwise_cons] at hasc
      rcases List.mem_cons.mp hb2 with e | e
      · subst e; omega
      · have := hasc.1 _ (List.mem_map.mpr ⟨b, e, rfl⟩)
        omega
    simp only [hhsec, hlt, if_false]
    have hloop := addto_freelist_loop_spec (setCell st.mem st.brk ⟨sector, none⟩) sector
      st.nodes (some h) h (st.brk + 1 + 1) (hh ▸ hseg1) (by omega) (by rw [hsec1]; exact hasc)
    rw [hsec1] at hloop
    rcases hloop with hd | hs
    · rw [hd.2]
      have key := wf_of_seg
        { st with mem := setCell st.mem st.brk ⟨sector, none⟩, brk := st.brk + 1,
                  head_freelist := some h,
                  freed := kfree (kmalloc st.freed st.brk) st.brk } st.nodes
        (hh ▸ hseg1)
        (by
          intro a ha
          have := hb a ha
          exact ⟨Nat.lt_succ_of_lt this.1, by simp [kfree, kmalloc, hne a ha, this.2]⟩)
      refine ⟨_, rfl, key.1, key.2, ?_, rfl, rfl, ?_⟩
      · unfold FreeState.sectors
        rw [key.2]
        exact hsec1
      · intro a ha
        exact setCell_other _ _ _ _ (hne a ha)
    · exact absurd hmem hs.1

/-! ## Concrete runs of the free list -/

theorem ascending_insert (l1 l2 : List Nat) (s : Nat) (h : Ascending (l1 ++ l2))
    (h1 : ∀ x ∈ l1, x < s) (h2 : ∀ x ∈ l2, s < x) : Ascending (l1 ++ s :: l2) := by
  unfold Ascending at h ⊢
  rw [List.pairwise_append] at h ⊢
  refine ⟨h.1, List.pairwise_cons.mpr ⟨h2, h.2.1⟩, ?_⟩
  intro a ha b hb
  rcases List.mem_cons.mp hb with e | e
  · subst e; exact h1 a ha
  · exact h.2.2 a ha b e

/-- C7 (as found in the code): asked for a run of one sector, `getfrom_freelist`
fails on the list `5, 6` although sector 5 alone is such a run, and on the list
`5, 7` it hands out sector 7 although 5 is the least one; the list is left as it
was in the first case. -/
theorem getfrom_freelist_count_one :
    (FreeState.two 5 6).WF ∧ Ascending (FreeState.two 5 6).sectors ∧
    (FreeState.two 5 6).sectors = [5, 6] ∧
    (getfrom_freelist 1 ⟨0, 0⟩ (FreeState.two 5 6)).map
        (fun o => (o.ret, o.results, o.st.sectors, o.st.total_freelist))
      = some (-1, ⟨0, 0⟩, [5, 6], 2) ∧
    (FreeState.two 5 7).WF ∧ Ascending (FreeState.two 5 7).sectors ∧
    (FreeState.two 5 7).sectors = [5, 7] ∧
    (getfrom_freelist 1 ⟨0, 0⟩ (FreeState.two 5 7)).map (fun o => (o.ret, o.results))
      = some (0, ⟨7, 1⟩) := by
  decide

/-- C8 (as found in the code): on the list `1, 5, 6` a request for two sectors
returns the run starting at 5, which does not begin at `head_freelist`. Afterwards
the cell of sector 5 is freed but still linked behind the cell of sector 1, so the
sectors reachable from `head_freelist` are `1, 5` instead of `1`, while
`total_freelist` is 1. -/
theorem getfrom_freelist_run_behind_head :
    (FreeState.three 1 5 6).WF ∧ Ascending (FreeState.three 1 5 6).sectors ∧
    (FreeState.three 1 5 6).sectors = [1, 5, 6] ∧
    (getfrom_freelist 2 ⟨0, 0⟩ (FreeState.three 1 5 6)).map
        (fun o => (o.ret, o.results, o.st.sectors, o.st.total_freelist,
                   o.st.nodes.map o.st.freed))
      = some (0, ⟨5, 2⟩, [1, 5], 1, [false, true]) := by
  decide

/-- C9: on a well-formed, strictly ascending free list `addto_freelist(sector)`
returns, and the list reachable from `head_freelist` afterwards is again well
formed and strictly ascending and holds exactly the old sectors and `sector`. -/
theorem addto_freelist_ascending (st : FreeState) (sector : Nat) (hwf : st.WF)
    (hasc : Ascending st.sectors) :
    ∃ st2, addto_freelist sector st = some st2 ∧ st2.WF ∧ Ascending st2.sectors ∧
      ∀ x, x ∈ st2.sectors ↔ x = sector ∨ x ∈ st.sectors := by
  by_cases hmem : sector ∈ st.sectors
  · obtain ⟨st2, h1, h2, _, h4, _⟩ := addto_freelist_dup st sector hwf hasc hmem
    refine ⟨st2, h1, h2, h4 ▸ hasc, ?_⟩
    intro x
    rw [h4]
    constructor
    · exact fun h => Or.inr h
    · rintro (h | h)
      · exact h ▸ hmem
      · exact h
  · obtain ⟨st2, l1, l2, h1, h2, h3, h4, h5, h6, _⟩ :=
      addto_freelist_new st sector hwf hasc hmem
    refine ⟨st2, h1, h2, ?_, ?_⟩
    · rw [h4]
      exact ascending_insert l1 l2 sector (h3 ▸ hasc) h5 h6
    · intro x
      rw [h4, h3]
      simp only [List.mem_append, List.mem_cons]
      tauto

theorem addto_freelist_ascending_witness :
    (FreeState.three 1 5 6).WF ∧ Ascending (FreeState.three 1 5 6).sectors ∧
    ∃ st2, addto_freelist 3 (FreeState.three 1 5 6) = some st2 ∧ st2.WF ∧
      Ascending st2.sectors ∧
      ∀ x, x ∈ st2.sectors ↔ x = 3 ∨ x ∈ (FreeState.three 1 5 6).sectors :=
  ⟨by decide, by decide,
    addto_freelist_ascending (FreeState.three 1 5 6) 3 (by decide) (by decide)⟩

/-- C10: on a well-formed, strictly ascending free list, `addto_freelist` of a
sector that is already in the list returns and leaves the cells of the list, their
order, `head_freelist` and `total_freelist` as they were; hence for any sector a
second `addto_freelist` right after the first changes neither the list nor
`total_freelist`. -/
theorem addto_freelist_idempotent (st : FreeState) (hwf : st.WF)
    (hasc : Ascending st.sectors) :
    (∀ sector ∈ st.sectors, ∃ st2, addto_freelist sector st = some st2 ∧
        st2.sectors = st.sectors ∧ st2.nodes = st.nodes ∧
        (∀ a ∈ st.nodes, st2.mem a = st.mem a) ∧
        st2.head_freelist = st.head_freelist ∧
        st2.total_freelist = st.total_freelist) ∧
    (∀ sector st1, addto_freelist sector st = some st1 →
        ∃ st2, addto_freelist sector st1 = some st2 ∧
          st2.sectors = st1.sectors ∧ st2.total_freelist = st1.total_freelist) := by
  constructor
  · intro sector hmem
    obtain ⟨st2, h1, _, h3, h4, h5, h6, h7⟩ := addto_freelist_dup st sector hwf hasc hmem
    exact ⟨st2, h1, h4, h3, h7, h5, h6⟩
  · intro sector st1 hst1
    by_cases hmem : sector ∈ st.sectors
    · obtain ⟨st2, h1, h2, _, h4, _⟩ := addto_freelist_dup st sector hwf hasc hmem
      have e : st2 = st1 := Option.some.inj (h1.symm.trans hst1)
      rw [e] at h2 h4
      obtain ⟨st3, g1, _, _, g4, _, g6, _⟩ :=
        addto_freelist_dup st1 sector h2 (h4 ▸ hasc) (h4 ▸ hmem)
      exact ⟨st3, g1, g4, g6⟩
    · obtain ⟨st2, l1, l2, h1, h2, h3, h4, h5, h6, _⟩ :=
        addto_freelist_new st sector hwf hasc hmem
      have e : st2 = st1 := Option.some.inj (h1.symm.trans hst1)
      rw [e] at h2 h4
      have hasc2 : Ascending st1.sectors := by
        rw [h4]
        exact ascending_insert l1 l2 sector (h3 ▸ hasc) h5 h6
      obtain ⟨st3, g1, _, _, g4, _, g6, _⟩ :=
        addto_freelist_dup st1 sector h2 hasc2 (by rw [h4]; simp)
      exact ⟨st3, g1, g4, g6⟩

theorem addto_freelist_idempotent_witness :
    (FreeState.three 1 5 6).WF ∧ Ascending (FreeState.three 1 5 6).sectors ∧
    (∃ st2, addto_freelist 5 (FreeState.three 1 5 6) = some st2 ∧
        st2.sectors = [1, 5, 6] ∧ st2.total_freelist = 3) :=
  ⟨by decide, by decide, by
    obtain ⟨st2, h1, h2, _, _, _, h6⟩ :=
      (addto_freelist_idempotent (FreeState.three 1 5 6) (by decide) (by decide)).1 5
        (by decide)
    exact ⟨st2, h1, h2.trans (by decide), h6.trans (by decide)⟩⟩

/-! ## Splice and gather loops -/

theorem hb_first : HIDDEN_BYTES_IN_FIRST_IV = 6 := rfl
theorem hb_rest : HIDDEN_BYTES_IN_REST_IVS = 10 := rfl

theorem poke_other (dst : Buf) (d v i : Nat) (h : i ≠ d) : poke dst d v i = dst i := by
  simp [poke, h]

theorem memset_outside (dst : Buf) (d c n i : Nat) (h : i < d ∨ d + n ≤ i) :
    memset dst d c n i = dst i := by
  unfold memset
  rw [if_neg]
  omega

theorem memcpy_outside (dst : Buf) (d : Nat) (src : Buf) (s n i : Nat)
    (h : i < d ∨ d + n ≤ i) : memcpy dst d src s n i = dst i := by
  unfold memcpy
  rw [if_neg]
  omega

theorem memcpy_inside (dst : Buf) (d : Nat) (src : Buf) (s n j : Nat) (h : j < n) :
    memcpy dst d src s n (d + j) = src (s + j) := by
  unfold memcpy
  rw [if_pos (by omega)]
  congr 1
  omega

theorem copy_bytes_for_le (ss : Nat) (b : Bool) (n t : Nat) :
    copy_bytes_for ss b n t ≤ n ∧ copy_bytes_for ss b n t ≤ (if b then 6 else 10) := by
  unfold copy_bytes_for
  rw [hb_first, hb_rest]
  cases b <;> simp only [if_true, if_false, Bool.false_eq_true] <;> split <;> omega

theorem copy_bytes_for_pos (ss : Nat) (b : Bool) (n t : Nat) (hn : 0 < n) (ht : t < ss) :
    0 < copy_bytes_for ss b n t := by
  unfold copy_bytes_for
  rw [hb_first, hb_rest]
  cases b <;> simp only [if_true, if_false, Bool.false_eq_true] <;> split <;> omega

theorem splice_step_eq (m : Idr) (ss : Nat) (P : Buf) (s : SpliceState) :
    splice_step m ss P s =
      if s.total_copied + copy_bytes_for ss s.is_first_iv s.bi_size s.total_copied = ss then
        { in_pos := s.in_pos + copy_bytes_for ss s.is_first_iv s.bi_size s.total_copied,
          bi_size := s.bi_size - copy_bytes_for ss s.is_first_iv s.bi_size s.total_copied,
          out_pos := s.out_pos + 16, sector_num := (s.sector_num + 1) % 2 ^ 32,
          is_first_iv := true, iv_offset := 0, total_copied := 0,
          dbuffer := stamp_iv (memcpy s.dbuffer s.out_pos P s.in_pos
              (copy_bytes_for ss s.is_first_iv s.bi_size s.total_copied))
            s.out_pos s.is_first_iv s.sector_num (write_sequence_number m s.sector_num)
            s.iv_offset }
      else
        { in_pos := s.in_pos + copy_bytes_for ss s.is_first_iv s.bi_size s.total_copied,
          bi_size := s.bi_size - copy_bytes_for ss s.is_first_iv s.bi_size s.total_copied,
          out_pos := s.out_pos + 16, sector_num := s.sector_num,
          is_first_iv := false, iv_offset := (s.iv_offset + 1) % 256,
          total_copied := s.total_copied + copy_bytes_for ss s.is_first_iv s.bi_size s.total_copied,
          dbuffer := stamp_iv (memcpy s.dbuffer s.out_pos P s.in_pos
              (copy_bytes_for ss s.is_first_iv s.bi_size s.total_copied))
            s.out_pos s.is_first_iv s.sector_num (write_sequence_number m s.sector_num)
            s.iv_offset } := by
  have hc := copy_bytes_for_le ss s.is_first_iv s.bi_size s.total_copied
  have hnb : ¬ s.bi_size < copy_bytes_for ss s.is_first_iv s.bi_size s.total_copied := by omega
  unfold splice_step
  simp only [hnb, if_false, IV_SIZE]

theorem gather_step_eq (ss : Nat) (S : Buf) (s : GatherState) :
    gather_step ss S s =
      if s.total_copied + copy_bytes_for ss s.is_first_iv s.bi_size s.total_copied = ss then
        { in_pos := s.in_pos + 16,
          out_pos := s.out_pos + copy_bytes_for ss s.is_first_iv s.bi_size s.total_copied,
          bi_size := s.bi_size - copy_bytes_for ss s.is_first_iv s.bi_size s.total_copied,
          is_first_iv := true, total_copied := 0,
          dbuffer := memcpy s.dbuffer s.out_pos S s.in_pos
              (copy_bytes_for ss s.is_first_iv s.bi_size s.total_copied) }
      else
        { in_pos := s.in_pos + 16,
          out_pos := s.out_pos + copy_bytes_for ss s.is_first_iv s.bi_size s.total_copied,
          bi_size := s.bi_size - copy_bytes_for ss s.is_first_iv s.bi_size s.total_copied,
          is_first_iv := false,
          total_copied := s.total_copied + copy_bytes_for ss s.is_first_iv s.bi_size s.total_copied,
          dbuffer := memcpy s.dbuffer s.out_pos S s.in_pos
              (copy_bytes_for ss s.is_first_iv s.bi_size s.total_copied) } := by
  have hc := copy_bytes_for_le ss s.is_first_iv s.bi_size s.total_copied
  have hnb : ¬ s.bi_size < copy_bytes_for ss s.is_first_iv s.bi_size s.total_copied := by omega
  unfold gather_step
  simp only [hnb, if_false, IV_SIZE]

theorem stamp_iv_low (d : Buf) (o : Nat) (b : Bool) (sn sq off i : Nat)
    (h : i < o + (if b then 6 else 10)) : stamp_iv d o b sn sq off i = d i := by
  unfold stamp_iv
  simp only [hb_first, hb_rest, SECTOR_NUM_LEN, SEQUENCE_NUMBER_LEN, IV_OFFSET_LEN,
    RANDOM_BYTES_PER_TAG]
  cases b
  · simp only [if_false, Bool.false_eq_true] at h ⊢
    rw [poke_other _ _ _ _ (by omega), memset_outside _ _ _ _ _ (by omega),
      poke_other _ _ _ _ (by omega), memcpy_outside _ _ _ _ _ _ (by omega)]
  · simp only [if_true] at h ⊢
    rw [poke_other _ _ _ _ (by omega), memset_outside _ _ _ _ _ (by omega),
      poke_other _ _ _ _ (by omega), memcpy_outside _ _ _ _ _ _ (by omega),
      memcpy_outside _ _ _ _ _ _ (by omega)]


theorem copy_bytes_for_total (ss : Nat) (b : Bool) (n t : Nat) (ht : t < ss) :
    t + copy_bytes_for ss b n t ≤ ss := by
  unfold copy_bytes_for
  rw [hb_first, hb_rest]
  cases b <;> simp only [if_true, if_false, Bool.false_eq_true] <;> split <;> omega

theorem splice_step_out_pos (m : Idr) (ss : Nat) (P : Buf) (s : SpliceState) :
    (splice_step m ss P s).out_pos = s.out_pos + 16 := by
  rw [splice_step_eq]; split <;> rfl

theorem splice_step_in_pos (m : Idr) (ss : Nat) (P : Buf) (s : SpliceState) :
    (splice_step m ss P s).in_pos =
      s.in_pos + copy_bytes_for ss s.is_first_iv s.bi_size s.total_copied := by
  rw [splice_step_eq]; split <;> rfl

theorem splice_step_bi_size (m : Idr) (ss : Nat) (P : Buf) (s : SpliceState) :
    (splice_step m ss P s).bi_size =
      s.bi_size - copy_bytes_for ss s.is_first_iv s.bi_size s.total_copied := by
  rw [splice_step_eq]; split <;> rfl

theorem splice_step_total (m : Idr) (ss : Nat) (P : Buf) (s : SpliceState) :
    (splice_step m ss P s).total_copied =
      if s.total_copied + copy_bytes_for ss s.is_first_iv s.bi_size s.total_copied = ss then 0
      else s.total_copied + copy_bytes_for ss s.is_first_iv s.bi_size s.total_copied := by
  rw [splice_step_eq]; split <;> rfl

theorem splice_step_first (m : Idr) (ss : Nat) (P : Buf) (s : SpliceState) :
    (splice_step m ss P s).is_first_iv =
      decide (s.total_copied + copy_bytes_for ss s.is_first_iv s.bi_size s.total_copied = ss) := by
  rw [splice_step_eq]; split <;> simp [*]

theorem splice_step_dbuffer (m : Idr) (ss : Nat) (P : Buf) (s : SpliceState) :
    (splice_step m ss P s).dbuffer =
      stamp_iv (memcpy s.dbuffer s.out_pos P s.in_pos
          (copy_bytes_for ss s.is_first_iv s.bi_size s.total_copied))
        s.out_pos s.is_first_iv s.sector_num (write_sequence_number m s.sector_num)
        s.iv_offset := by
  rw [splice_step_eq]; split <;> rfl

theorem gather_step_in_pos (ss : Nat) (S : Buf) (s : GatherState) :
    (gather_step ss S s).in_pos = s.in_pos + 16 := by
  rw [gather_step_eq]; split <;> rfl

theorem gather_step_out_pos (ss : Nat) (S : Buf) (s : GatherState) :
    (gather_step ss S s).out_pos =
      s.out_pos + copy_bytes_for ss s.is_first_iv s.bi_size s.total_copied := by
  rw [gather_step_eq]; split <;> rfl

theorem gather_step_bi_size (ss : Nat) (S : Buf) (s : GatherState) :
    (gather_step ss S s).bi_size =
      s.bi_size - copy_bytes_for ss s.is_first_iv s.bi_size s.total_copied := by
  rw [gather_step_eq]; split <;> rfl

theorem gather_step_total (ss : Nat) (S : Buf) (s : GatherState) :
    (gather_step ss S s).total_copied =
      if s.total_copied + copy_bytes_for ss s.is_first_iv s.bi_size s.total_copied = ss then 0
      else s.total_copied + copy_bytes_for ss s.is_first_iv s.bi_size s.total_copied := by
  rw [gather_step_eq]; split <;> rfl

theorem gather_step_first (ss : Nat) (S : Buf) (s : GatherState) :
    (gather_step ss S s).is_first_iv =
      decide (s.total_copied + copy_bytes_for ss s.is_first_iv s.bi_size s.total_copied = ss) := by
  rw [gather_step_eq]; split <;> simp [*]

theorem gather_step_dbuffer (ss : Nat) (S : Buf) (s : GatherState) :
    (gather_step ss S s).dbuffer =
      memcpy s.dbuffer s.out_pos S s.in_pos
        (copy_bytes_for ss s.is_first_iv s.bi_size s.total_copied) := by
  rw [gather_step_eq]; split <;> rfl

/-- The splice loop never touches the slots it has already left behind. -/
theorem splice_loop_frame (m : Idr) (ss : Nat) (P : Buf) :
    ∀ (fuel : Nat) (s w : SpliceState), splice_loop m ss P fuel s = some w →
      ∀ i < s.out_pos, w.dbuffer i = s.dbuffer i := by
  intro fuel
  induction fuel with
  | zero => intro s w h; simp [splice_loop] at h
  | succ fuel ih =>
    intro s w h i hi
    simp only [splice_loop] at h
    split at h
    · cases h; rfl
    · have h1 := ih _ _ h i (by rw [splice_step_out_pos]; omega)
      rw [h1, splice_step_dbuffer, stamp_iv_low _ _ _ _ _ _ _ (by split <;> omega),
        memcpy_outside _ _ _ _ _ _ (Or.inl hi)]

/-- With enough fuel the splice loop ends. -/
theorem splice_loop_total (m : Idr) (ss : Nat) (P : Buf) :
    ∀ (fuel : Nat) (s : SpliceState), s.bi_size < fuel → s.total_copied < ss →
      ∃ w, splice_loop m ss P fuel s = some w := by
  intro fuel
  induction fuel with
  | zero => intro s h; omega
  | succ fuel ih =>
    intro s hf ht
    simp only [splice_loop]
    split
    · exact ⟨s, rfl⟩
    · next hne =>
      have hpos := copy_bytes_for_pos ss s.is_first_iv s.bi_size s.total_copied (by omega) ht
      have htot := copy_bytes_for_total ss s.is_first_iv s.bi_size s.total_copied ht
      apply ih
      · rw [splice_step_bi_size]; omega
      · rw [splice_step_total]; split <;> omega

/-- Gathering from the slots the splice loop produced gives back the bytes the
splice loop consumed. -/
theorem gather_of_splice (m : Idr) (ss : Nat) (P : Buf) :
    ∀ (fuel fuel2 : Nat) (s w : SpliceState) (g : GatherState),
      splice_loop m ss P fuel s = some w →
      g.bi_size = s.bi_size → g.is_first_iv = s.is_first_iv →
      g.total_copied = s.total_copied → g.in_pos = s.out_pos → g.out_pos = s.in_pos →
      s.total_copied < ss → g.bi_size < fuel2 →
      ∃ r, gather_loop ss w.dbuffer fuel2 g = some r ∧
        (∀ i, s.in_pos ≤ i → i < s.in_pos + s.bi_size → r.dbuffer i = P i) ∧
        (∀ i < g.out_pos, r.dbuffer i = g.dbuffer i) ∧
        r.in_pos = w.out_pos := by
  intro fuel
  induction fuel with
  | zero => intro fuel2 s w g h; simp [splice_loop] at h
  | succ fuel ih =>
    intro fuel2 s w g h e1 e2 e3 e4 e5 ht hf
    simp only [splice_loop] at h
    cases fuel2 with
    | zero => omega
    | succ fuel2 =>
      simp only [gather_loop]
      split at h
      · next hz =>
        cases h
        rw [if_pos (by omega)]
        exact ⟨g, rfl, fun i h1 h2 => by omega, fun i _ => rfl, e4⟩
      · next hnz =>
        rw [if_neg (by omega)]
        have hpos := copy_bytes_for_pos ss s.is_first_iv s.bi_size s.total_copied (by omega) ht
        have htot := copy_bytes_for_total ss s.is_first_iv s.bi_size s.total_copied ht
        have hle := copy_bytes_for_le ss s.is_first_iv s.bi_size s.total_copied
        have hframe := splice_loop_frame m ss P fuel _ _ h
        obtain ⟨r, hr, hP, hlow, hin⟩ := ih fuel2 (splice_step m ss P s) w
          (gather_step ss w.dbuffer g) h
          (by rw [gather_step_bi_size, splice_step_bi_size, e1, e2, e3])
          (by rw [gather_step_first, splice_step_first, e1, e2, e3])
          (by rw [gather_step_total, splice_step_total, e1, e2, e3])
          (by rw [gather_step_in_pos, splice_step_out_pos, e4])
          (by rw [gather_step_out_pos, splice_step_in_pos, e1, e2, e3, e5])
          (by rw [splice_step_total]; split <;> omega)
          (by rw [gather_step_bi_size, e1, e2, e3]; omega)
        refine ⟨r, hr, ?_, ?_, hin⟩
        · intro i hi1 hi2
          by_cases hc : s.in_pos + copy_bytes_for ss s.is_first_iv s.bi_size s.total_copied ≤ i
          · apply hP i
            · rw [splice_step_in_pos]; exact hc
            · rw [splice_step_in_pos, splice_step_bi_size]; omega
          · have hj : i = s.in_pos + (i - s.in_pos) := by omega
            rw [hlow i (by rw [gather_step_out_pos, e1, e2, e3, e5]; omega),
              gather_step_dbuffer, e1, e2, e3, e4, e5]
            rw [hj, memcpy_inside _ _ _ _ _ _ (by omega), ← hj]
            rw [hframe _ (by rw [splice_step_out_pos]; split at hle <;> omega),
              splice_step_dbuffer, stamp_iv_low _ _ _ _ _ _ _ (by split <;> split at hle <;> omega),
              memcpy_inside _ _ _ _ _ _ (by omega), ← hj]
        · intro i hi
          rw [hlow i (by rw [gather_step_out_pos]; omega), gather_step_dbuffer,
            memcpy_outside _ _ _ _ _ _ (Or.inl hi)]


theorem splice_step_sector_num (m : Idr) (ss : Nat) (P : Buf) (s : SpliceState) :
    (splice_step m ss P s).sector_num =
      if s.total_copied + copy_bytes_for ss s.is_first_iv s.bi_size s.total_copied = ss
      then (s.sector_num + 1) % 2 ^ 32 else s.sector_num := by
  rw [splice_step_eq]; split <;> rfl

theorem splice_step_iv_offset (m : Idr) (ss : Nat) (P : Buf) (s : SpliceState) :
    (splice_step m ss P s).iv_offset =
      if s.total_copied + copy_bytes_for ss s.is_first_iv s.bi_size s.total_copied = ss
      then 0 else (s.iv_offset + 1) % 256 := by
  rw [splice_step_eq]; split <;> rfl

/-- The positions and counters of the splice loop do not depend on the data, the
map, the logical sector or the buffer. -/
theorem splice_loop_control (m m0 : Idr) (ss : Nat) (P P0 : Buf) :
    ∀ (fuel : Nat) (s s0 w : SpliceState),
      s.in_pos = s0.in_pos → s.bi_size = s0.bi_size → s.out_pos = s0.out_pos →
      s.is_first_iv = s0.is_first_iv →
      s.iv_offset = s0.iv_offset → s.total_copied = s0.total_copied →
      splice_loop m ss P fuel s = some w →
      ∃ w0, splice_loop m0 ss P0 fuel s0 = some w0 ∧
        w.in_pos = w0.in_pos ∧ w.bi_size = w0.bi_size ∧ w.out_pos = w0.out_pos ∧
        w.is_first_iv = w0.is_first_iv ∧
        w.iv_offset = w0.iv_offset ∧ w.total_copied = w0.total_copied := by
  intro fuel
  induction fuel with
  | zero => intro s s0 w _ _ _ _ _ _ h; simp [splice_loop] at h
  | succ fuel ih =>
    intro s s0 w e1 e2 e3 e5 e6 e7 h
    simp only [splice_loop] at h ⊢
    split at h
    · next hz =>
      cases h
      rw [if_pos (by omega)]
      exact ⟨s0, rfl, e1, e2, e3, e5, e6, e7⟩
    · next hnz =>
      rw [if_neg (by omega)]
      apply ih _ _ _ _ _ _ _ _ _ h
      · rw [splice_step_in_pos, splice_step_in_pos, e1, e2, e5, e7]
      · rw [splice_step_bi_size, splice_step_bi_size, e2, e5, e7]
      · rw [splice_step_out_pos, splice_step_out_pos, e3]
      · rw [splice_step_first, splice_step_first, e2, e5, e7]
      · rw [splice_step_iv_offset, splice_step_iv_offset, e2, e5, e6, e7]
      · rw [splice_step_total, splice_step_total, e2, e5, e7]

theorem splice_512_control :
    (splice_loop (fun _ => none) 512 (fun _ => 0) 513
        { in_pos := 0, bi_size := 512, out_pos := 0, sector_num := 0,
          is_first_iv := true, iv_offset := 0, total_copied := 0,
          dbuffer := fun _ => 0 }).map (fun w => (w.in_pos, w.bi_size, w.out_pos))
      = some (512, 0, 832) := by
  decide


/-- Round trip for any buffer size. -/
theorem roundtrip_general (m : Idr) (ss n fuel fuel2 : Nat) (L : Nat) (P clone base : Buf)
    (hss : 0 < ss) (hf : n < fuel) (hf2 : n < fuel2) :
    ∃ w r, splice_loop m ss P fuel
        { in_pos := 0, bi_size := n, out_pos := 0, sector_num := L,
          is_first_iv := true, iv_offset := 0, total_copied := 0, dbuffer := clone } = some w ∧
      gather_loop ss w.dbuffer fuel2
        { in_pos := 0, out_pos := 0, bi_size := n, is_first_iv := true,
          total_copied := 0, dbuffer := base } = some r ∧
      r.in_pos = w.out_pos ∧ ∀ i < n, r.dbuffer i = P i := by
  obtain ⟨w, hw⟩ := splice_loop_total m ss P fuel
    { in_pos := 0, bi_size := n, out_pos := 0, sector_num := L,
      is_first_iv := true, iv_offset := 0, total_copied := 0, dbuffer := clone }
    hf hss
  obtain ⟨r, hr, hP, _, hin⟩ := gather_of_splice m ss P fuel fuel2 _ w
    { in_pos := 0, out_pos := 0, bi_size := n, is_first_iv := true,
      total_copied := 0, dbuffer := base } hw rfl rfl rfl rfl rfl hss hf2
  refine ⟨w, r, hw, hr, hin, ?_⟩
  intro i hi
  exact hP i (Nat.zero_le _) (by simpa using hi)

theorem splice_512_out_pos (m : Idr) (L : Nat) (P clone : Buf) (w : SpliceState)
    (hw : splice_loop m 512 P 513
        { in_pos := 0, bi_size := 512, out_pos := 0, sector_num := L,
          is_first_iv := true, iv_offset := 0, total_copied := 0, dbuffer := clone } = some w) :
    w.out_pos = 832 := by
  obtain ⟨w0, hw0, _, _, hout, _⟩ := splice_loop_control m (fun _ => none) 512 P (fun _ => 0)
    513
    { in_pos := 0, bi_size := 512, out_pos := 0, sector_num := L,
      is_first_iv := true, iv_offset := 0, total_copied := 0, dbuffer := clone }
    { in_pos := 0, bi_size := 512, out_pos := 0, sector_num := 0,
      is_first_iv := true, iv_offset := 0, total_copied := 0,
      dbuffer := fun _ => 0 } w rfl rfl rfl rfl rfl rfl hw
  have h := splice_512_control
  rw [hw0] at h
  simp only [Option.map_some', Option.some.injEq, Prod.mk.injEq] at h
  rw [hout, h.2.2]

/-- C1: for every 512-byte plaintext `P`, logical sector `L` and map state `m` (which
fixes the sequence number), the splice loop of the hidden write fills 52 IV slots,
and the gather loop of the hidden read, run over those slots after an encryption and
a decryption that cancel, consumes the 52 slots and writes exactly `P`. -/
theorem hidden_write_read_roundtrip (m : Idr) (L : Nat) (P clone base : Buf)
    (enc dec : Buf → Buf) (hcancel : ∀ b, dec (enc b) = b) :
    ∃ w r, kcryptd_crypt_write_convert_splice m 512 L P 512 clone = some w ∧
      w.out_pos = NUM_PUBLIC_SECTORS_PER_HIDDEN_SECTOR * IV_SIZE ∧
      kcryptd_crypt_read_convert_gather 512 (dec (enc w.dbuffer)) 512 base = some r ∧
      r.in_pos = NUM_PUBLIC_SECTORS_PER_HIDDEN_SECTOR * IV_SIZE ∧
      ∀ i < 512, r.dbuffer i = P i := by
  obtain ⟨w, r, hw, hr, hin, hP⟩ :=
    roundtrip_general m 512 512 513 513 (L % 2 ^ 32) P clone base (by omega) (by omega)
      (by omega)
  have hout := splice_512_out_pos m (L % 2 ^ 32) P clone w hw
  refine ⟨w, r, hw, hout, ?_, ?_, hP⟩
  · rw [hcancel]; exact hr
  · rw [hin, hout]; rfl

theorem hidden_write_read_roundtrip_witness :
    (∀ b : Buf, (fun (c : Buf) (i : Nat) => c i - 1) ((fun (c : Buf) (i : Nat) => c i + 1) b) = b) ∧
    ∃ w r, kcryptd_crypt_write_convert_splice (fun _ => none) 512 100 (fun _ => 0x42) 512
        (fun _ => 0) = some w ∧
      w.out_pos = NUM_PUBLIC_SECTORS_PER_HIDDEN_SECTOR * IV_SIZE ∧
      kcryptd_crypt_read_convert_gather 512
        ((fun (c : Buf) (i : Nat) => c i - 1) ((fun (c : Buf) (i : Nat) => c i + 1) w.dbuffer))
        512 (fun _ => 0) = some r ∧
      r.in_pos = NUM_PUBLIC_SECTORS_PER_HIDDEN_SECTOR * IV_SIZE ∧
      ∀ i < 512, r.dbuffer i = (fun _ => 0x42) i :=
  ⟨fun b => by funext i; simp,
    hidden_write_read_roundtrip (fun _ => none) 100 (fun _ => 0x42) (fun _ => 0) (fun _ => 0)
      (fun c i => c i + 1) (fun c i => c i - 1) (fun b => by funext i; simp)⟩

/-! ## The stored word of the map -/

theorem pack_eq (seq v : Nat) (hv : v < 2 ^ 32) :
    (seq <<< 32) ||| v = 2 ^ 32 * seq + v := by
  rw [Nat.shiftLeft_eq, Nat.mul_comm, Nat.mul_add_lt_is_or hv]

theorem pack_reuse_eq (x : Nat) (hx : x < 2 ^ 48) :
    x ||| (1 <<< REUSE_PHYSICAL_BIT) = 2 ^ 48 + x := by
  have h := Nat.mul_add_lt_is_or hx 1
  rw [Nat.lor_comm, Nat.shiftLeft_eq, Nat.one_mul]
  simpa [REUSE_PHYSICAL_BIT] using h.symm

theorem and_low32 (c : Nat) : c &&& 0xFFFFFFFF = c % 2 ^ 32 :=
  Nat.and_pow_two_sub_one_eq_mod c 32

theorem and_bit48 (c : Nat) :
    (c &&& (1 <<< REUSE_PHYSICAL_BIT) ≠ 0) ↔ c / 2 ^ 48 % 2 = 1 := by
  rw [Nat.shiftLeft_eq, Nat.one_mul]
  show c &&& 2 ^ 48 ≠ 0 ↔ _
  rw [Nat.and_two_pow, Nat.testBit_to_div_mod]
  by_cases h : c / 2 ^ 48 % 2 = 1 <;> simp [h]

/-- `map_find` in terms of the fields of the stored word. -/
theorem map_find_eq (m : Idr) (k s0 : Nat) (r0 : Bool) :
    map_find m k s0 r0 =
      if idr_find m k = 0 then { ret := -1, seq_num := s0, reuse_physical_sector := r0 }
      else { ret := toInt32 (idr_find m k % 2 ^ 32),
             seq_num := idr_find m k / 2 ^ 32 % 2 ^ 16,
             reuse_physical_sector := decide (idr_find m k / 2 ^ 48 % 2 = 1) } := by
  unfold map_find
  simp only [and_low32, Nat.shiftRight_eq_div_pow]
  split
  · rfl
  · congr 1
    simp only [and_bit48]

theorem toInt32_lt (x : Nat) (h : x < 2 ^ 31) : toInt32 x = x := by
  unfold toInt32
  have : x % 2 ^ 32 = x := Nat.mod_eq_of_lt (by omega)
  rw [this, if_pos h]

theorem toInt32_ge (x : Nat) (h1 : 2 ^ 31 ≤ x) (h2 : x < 2 ^ 32) :
    toInt32 x = (x : Int) - 2 ^ 32 := by
  unfold toInt32
  have : x % 2 ^ 32 = x := Nat.mod_eq_of_lt h2
  rw [this, if_neg (by omega)]

theorem toInt32_eq_neg_one (x : Nat) (h2 : x < 2 ^ 32) :
    toInt32 x = -1 ↔ x = 2 ^ 32 - 1 := by
  by_cases h : x < 2 ^ 31
  · rw [toInt32_lt x h]; omega
  · rw [toInt32_ge x (by omega) h2]; omega

theorem toU32_toInt32 (x : Nat) (h2 : x < 2 ^ 32) : toU32 (toInt32 x) = x := by
  unfold toU32
  by_cases h : x < 2 ^ 31
  · rw [toInt32_lt x h]; omega
  · rw [toInt32_ge x (by omega) h2]; omega

/-- `idr_alloc` as `map_insert` calls it, on the id range `[sector, sector + 1)`. -/
theorem idr_alloc_one (m : Idr) (ptr sector : Nat) (hs : sector < 2 ^ 32) :
    idr_alloc m ptr (toInt32 sector) (toInt32 (sector + 1)) =
      if 2 ^ 31 ≤ sector then (-22, m)
      else if m sector = none then
        ((sector : Int), fun k => if k = sector then some ptr else m k)
      else (-28, m) := by
  unfold idr_alloc
  by_cases h : sector < 2 ^ 31
  · have hge : ¬ (2 ^ 31 ≤ sector) := by omega
    have hmax : (if toInt32 (sector + 1) > 0 then toInt32 (sector + 1) - 1 else 2147483647)
        = (sector : Int) := by
      by_cases h2 : sector + 1 < 2 ^ 31
      · rw [toInt32_lt _ h2, if_pos (by omega)]; omega
      · rw [toInt32_ge _ (by omega) (by omega), if_neg (by omega)]; omega
    have hneg : ¬ (toInt32 sector < 0) := by rw [toInt32_lt sector h]; omega
    simp only [hmax, hge, hneg, if_false]
    rw [toInt32_lt sector h]
    have hr : ((sector : Int) + 1 - (sector : Int)).toNat = 1 := by omega
    rw [hr]
    simp only [Int.toNat_ofNat, List.range'_one, List.find?_cons, List.find?_nil]
    cases hm : m sector <;> simp
  · have hneg : toInt32 sector < 0 := by rw [toInt32_ge sector (by omega) hs]; omega
    rw [if_pos hneg, if_pos (by omega)]

/-- The word `map_insert` stores for a sequence number, a physical sector and the
reuse flag, and its fields. -/
theorem stored_word (seq v : Nat) (r : Bool) (hs : seq < 2 ^ 16) (hv : v < 2 ^ 32) :
    (if r then ((seq <<< 32) ||| v) ||| (1 <<< REUSE_PHYSICAL_BIT) else (seq <<< 32) ||| v)
      = (if r then 2 ^ 48 else 0) + (2 ^ 32 * seq + v) := by
  have hx : 2 ^ 32 * seq + v < 2 ^ 48 := by omega
  cases r
  · simp only [Bool.false_eq_true, if_false, pack_eq seq v hv]; omega
  · simp only [if_true, pack_eq seq v hv, pack_reuse_eq _ hx]

/-- `map_insert` spelled out: it fails with `-EINVAL` for a key of `2 ^ 31` or more
and with `-EBUSY` for a key whose id holds a `NULL` pointer, and otherwise stores
the new word under the key. -/
theorem map_insert_word (m : Idr) (sector value seq : Nat) (r : Bool)
    (hs : sector < 2 ^ 32) (hseq : seq < 2 ^ 16) :
    (let r1 := idr_alloc (if idr_find m sector ≠ 0 then idr_remove m sector else m)
        (if r then ((seq <<< 32) ||| (value % 2 ^ 32)) ||| (1 <<< REUSE_PHYSICAL_BIT)
         else (seq <<< 32) ||| (value % 2 ^ 32))
        (toInt32 sector) (toInt32 (sector + 1))
     if r1.1 < 0 then (if r1.1 = -28 then -16 else r1.1, r1.2) else (0, r1.2)) =
      if 2 ^ 31 ≤ sector then
        (-22, if idr_find m sector ≠ 0 then idr_remove m sector else m)
      else if m sector = some 0 then (-16, m)
      else
        (0, fun k => if k = sector then
            some ((if r then 2 ^ 48 else 0) + (2 ^ 32 * seq + value % 2 ^ 32))
          else m k) := by
  rw [stored_word seq _ r hseq (Nat.mod_lt value (by norm_num)), idr_alloc_one _ _ _ hs]
  by_cases h31 : 2 ^ 31 ≤ sector
  · simp only [h31, if_true]
    simp
  · simp only [h31, if_false]
    by_cases hc : idr_find m sector = 0
    · simp only [hc, ne_eq, not_true_eq_false, if_false]
      cases hm : m sector with
      | none => simp
      | some c =>
        have : c = 0 := by simpa [idr_find, hm] using hc
        subst this
        simp
    · have hm : m sector ≠ some 0 := by
        intro e; apply hc; simp [idr_find, e]
      simp only [hc, ne_eq, not_false_eq_true, if_true, hm, if_false]
      have hrem : idr_remove m sector sector = none := by simp [idr_remove]
      simp only [hrem, if_true]
      have hnn : ¬ ((sector : Int) < 0) := by omega
      simp only [hnn, if_false]
      congr 1
      funext k
      by_cases hk : k = sector
      · simp [hk]
      · simp [hk, idr_remove]

/-- `map_insert` without a sequence override, spelled out: it fails with `-EINVAL`
for a key of `2 ^ 31` or more and with `-EBUSY` for a key whose id holds a `NULL`
pointer, and otherwise stores the new word under the key. -/
theorem map_insert_none_eq (m : Idr) (sector value : Nat) (r : Bool) (hs : sector < 2 ^ 32) :
    map_insert m sector value none r =
      if 2 ^ 31 ≤ sector then
        (-22, if idr_find m sector ≠ 0 then idr_remove m sector else m)
      else if m sector = some 0 then (-16, m)
      else
        (0, fun k => if k = sector then
            some ((if r then 2 ^ 48 else 0) +
              (2 ^ 32 * (((if idr_find m sector ≠ 0 then idr_find m sector / 2 ^ 32 % 2 ^ 16
                          else 0) + 1) % 2 ^ 16) + value % 2 ^ 32))
          else m k) := by
  have h := map_insert_word m sector value
    (((if idr_find m sector ≠ 0 then idr_find m sector / 2 ^ 32 % 2 ^ 16 else 0) + 1) % 2 ^ 16)
    r hs (Nat.mod_lt _ (by norm_num))
  rw [← h]
  unfold map_insert
  simp only [Nat.shiftRight_eq_div_pow]

/-- `map_insert` with a sequence override, spelled out. -/
theorem map_insert_some_eq (m : Idr) (sector value s : Nat) (r : Bool) (hs : sector < 2 ^ 32) :
    map_insert m sector value (some s) r =
      if 2 ^ 31 ≤ sector then
        (-22, if idr_find m sector ≠ 0 then idr_remove m sector else m)
      else if m sector = some 0 then (-16, m)
      else
        (0, fun k => if k = sector then
            some ((if r then 2 ^ 48 else 0) + (2 ^ 32 * (s % 2 ^ 16) + value % 2 ^ 32))
          else m k) := by
  have h := map_insert_word m sector value (s % 2 ^ 16) r hs (Nat.mod_lt _ (by norm_num))
  rw [← h]
  unfold map_insert
  simp only [Nat.shiftRight_eq_div_pow]

/-! ## Hidden writes and the map -/

theorem toInt32_mod (x : Nat) : toInt32 (x % 2 ^ 32) = toInt32 x := by
  unfold toInt32
  rw [Nat.mod_mod]

theorem toInt32_toU32 (x : Nat) : toInt32 (toU32 (toInt32 x)) = toInt32 x := by
  rw [← toInt32_mod x, toU32_toInt32 _ (Nat.mod_lt _ (by norm_num))]

theorem le_load_two (b : Buf) (off : Nat) :
    le_load b off 2 = b off % 256 + 256 * (b (off + 1) % 256) := by
  simp [le_load]

theorem stamp_iv_head_seq (d : Buf) (sn sq off : Nat) :
    stamp_iv d 0 true sn sq off 10 = sq % 256 ∧
    stamp_iv d 0 true sn sq off 11 = sq / 256 % 256 := by
  unfold stamp_iv
  simp only [hb_first, SECTOR_NUM_LEN, SEQUENCE_NUMBER_LEN, IV_OFFSET_LEN,
    RANDOM_BYTES_PER_TAG, if_true]
  constructor
  · rw [poke_other _ _ _ _ (by omega), memset_outside _ _ _ _ _ (by omega),
      poke_other _ _ _ _ (by omega)]
    have := memcpy_inside (memcpy d (0 + 6) (le_bytes sn) 0 4) (0 + 6 + 4) (le_bytes sq) 0 2 0
      (by omega)
    simp only [Nat.add_zero] at this
    rw [this]
    simp [le_bytes]
  · rw [poke_other _ _ _ _ (by omega), memset_outside _ _ _ _ _ (by omega),
      poke_other _ _ _ _ (by omega)]
    have := memcpy_inside (memcpy d (0 + 6) (le_bytes sn) 0 4) (0 + 6 + 4) (le_bytes sq) 0 2 1
      (by omega)
    rw [this]
    simp [le_bytes]

theorem write_sequence_number_lt (m : Idr) (L : Nat) : write_sequence_number m L < 2 ^ 16 := by
  unfold write_sequence_number
  rw [map_find_eq]
  split
  · simp
  · simp only
    split
    · norm_num
    · split
      · exact Nat.mod_lt _ (by norm_num)
      · exact Nat.mod_lt _ (by norm_num)

/-- The sequence number in the head IV slot built by the splice loop is the one
computed from the map for the logical sector. -/
theorem splice_head_sequence (m : Idr) (L : Nat) (P clone : Buf) (w : SpliceState)
    (hw : kcryptd_crypt_write_convert_splice m 512 L P 512 clone = some w) :
    le_load w.dbuffer (HIDDEN_BYTES_IN_FIRST_IV + SECTOR_NUM_LEN) SEQUENCE_NUMBER_LEN =
      write_sequence_number m (L % 2 ^ 32) := by
  unfold kcryptd_crypt_write_convert_splice at hw
  have h1 : splice_loop m 512 P (512 + 1)
      { in_pos := 0, bi_size := 512, out_pos := 0, sector_num := L % 2 ^ 32,
        is_first_iv := true, iv_offset := 0, total_copied := 0, dbuffer := clone } =
      splice_loop m 512 P 512 (splice_step m 512 P
        { in_pos := 0, bi_size := 512, out_pos := 0, sector_num := L % 2 ^ 32,
          is_first_iv := true, iv_offset := 0, total_copied := 0, dbuffer := clone }) := by
    rw [splice_loop]
    simp
  rw [h1] at hw
  have hf := splice_loop_frame m 512 P 512 _ w hw
  rw [splice_step_out_pos] at hf
  have h10 := hf 10 (by simp)
  have h11 := hf 11 (by simp)
  rw [splice_step_dbuffer] at h10 h11
  have hs := stamp_iv_head_seq (memcpy clone 0 P 0 (copy_bytes_for 512 true 512 0)) (L % 2 ^ 32)
    (write_sequence_number m (L % 2 ^ 32)) 0
  simp only at h10 h11
  rw [hs.1] at h10
  rw [hs.2] at h11
  have hlt := write_sequence_number_lt m (L % 2 ^ 32)
  show le_load w.dbuffer (6 + 4) 2 = _
  rw [le_load_two, h10, h11]
  omega


/-- What a hidden write that found carriers did: the head slot carries the sequence
number computed from the map; with a reuse entry the carriers are those of the entry
and the map is untouched, otherwise `map_insert` was called with the first carrier. -/
theorem hidden_write_cases (m : Idr) (fl : FreeState) (L : Nat) (P clone : Buf)
    (w : HiddenWrite) (hw : hidden_write m fl L P clone = some w) (he : w.error = false) :
    le_load w.slots (HIDDEN_BYTES_IN_FIRST_IV + SECTOR_NUM_LEN) SEQUENCE_NUMBER_LEN =
        write_sequence_number m (L % 2 ^ 32) ∧
      (((map_find m (L % 2 ^ 32) 0 false).ret ≠ -1 ∧
          (map_find m (L % 2 ^ 32) 0 false).reuse_physical_sector = true) →
        w.start = toU32 (map_find m (L % 2 ^ 32) 0 false).ret ∧ w.map_idr = m ∧
          w.map_ret = 0) ∧
      (((map_find m (L % 2 ^ 32) 0 false).ret = -1 ∨
          (map_find m (L % 2 ^ 32) 0 false).reuse_physical_sector = false) →
        w.map_ret = (map_insert m (L % 2 ^ 32) w.start none true).1 ∧
          w.map_idr = (map_insert m (L % 2 ^ 32) w.start none true).2) := by
  unfold hidden_write at hw
  cases hsp : kcryptd_crypt_write_convert_splice m 512 L P 512 clone with
  | none => rw [hsp] at hw; simp at hw
  | some sp =>
    rw [hsp] at hw
    simp only at hw
    cases hc : kcryptd_io_read_carriers m L fl with
    | none => rw [hc] at hw; simp at hw
    | some c =>
      obtain ⟨ret, start, fl1⟩ := c
      rw [hc] at hw
      simp only at hw
      by_cases hret : ret ≠ 0
      · rw [if_pos hret] at hw
        cases hw
        simp at he
      · rw [if_neg hret] at hw
        cases hw
        refine ⟨splice_head_sequence m L P clone sp hsp, ?_, ?_⟩
        · intro hf
          have hnot : ¬ ((map_find m (L % 2 ^ 32) 0 false).ret = -1 ∨
              (map_find m (L % 2 ^ 32) 0 false).reuse_physical_sector = false) := by
            rintro (h | h)
            · exact hf.1 h
            · rw [hf.2] at h; exact absurd h (by simp)
          unfold kcryptd_io_read_carriers at hc
          cases ha : addto_freelist_all
              ((List.range NUM_PUBLIC_SECTORS_PER_HIDDEN_SECTOR).map
                (fun k => ((0 + L) * NUM_PUBLIC_SECTORS_PER_HIDDEN_SECTOR + k) % 2 ^ 32)) fl with
          | none => rw [ha] at hc; simp at hc
          | some fl2 =>
            rw [ha] at hc
            simp only [hnot, if_false] at hc
            simp only [Option.some.injEq, Prod.mk.injEq] at hc
            unfold kcryptd_io_rdwr_map
            simp only [hnot, if_false]
            exact ⟨hc.2.1.symm, trivial, trivial⟩
        · intro hf
          unfold kcryptd_io_rdwr_map
          simp only [hf, if_true]
          exact ⟨trivial, trivial⟩


theorem word_fields (seq v : Nat) (hs : seq < 2 ^ 16) (hv : v < 2 ^ 32) :
    2 ^ 48 + (2 ^ 32 * seq + v) ≠ 0 ∧ (2 ^ 48 + (2 ^ 32 * seq + v)) % 2 ^ 32 = v ∧
    (2 ^ 48 + (2 ^ 32 * seq + v)) / 2 ^ 32 % 2 ^ 16 = seq ∧
    (2 ^ 48 + (2 ^ 32 * seq + v)) / 2 ^ 48 % 2 = 1 := by
  norm_num at hs hv ⊢
  omega

theorem idr_find_update (m : Idr) (k W : Nat) :
    idr_find (fun j => if j = k then some W else m j) k = W := by
  simp [idr_find]

/-- `map_find` right after a successful `map_insert(key, value, NULL, true)`. -/
theorem map_find_after_insert (m : Idr) (k v : Nat) (hk : k < 2 ^ 32)
    (hok : (map_insert m k v none true).1 = 0) :
    map_find (map_insert m k v none true).2 k 0 false =
      { ret := toInt32 v,
        seq_num := ((if idr_find m k ≠ 0 then idr_find m k / 2 ^ 32 % 2 ^ 16 else 0) + 1)
          % 2 ^ 16,
        reuse_physical_sector := true } := by
  rw [map_insert_none_eq m k v true hk] at hok ⊢
  by_cases h31 : 2 ^ 31 ≤ k
  · rw [if_pos h31] at hok; simp at hok
  · rw [if_neg h31] at hok ⊢
    by_cases h0 : m k = some 0
    · rw [if_pos h0] at hok; simp at hok
    · rw [if_neg h0]
      obtain ⟨w1, w2, w3, w4⟩ := word_fields
        (((if idr_find m k ≠ 0 then idr_find m k / 2 ^ 32 % 2 ^ 16 else 0) + 1) % 2 ^ 16)
        (v % 2 ^ 32) (Nat.mod_lt _ (by norm_num)) (Nat.mod_lt _ (by norm_num))
      rw [map_find_eq, idr_find_update]
      simp only [if_true] at w1 w2 w3 w4 ⊢
      rw [if_neg w1, w2, w3, w4, toInt32_mod]
      simp

/-- C5: after a hidden write to logical sector `L` that found carriers and whose map
update did not fail, from any prior map state in which the carriers recorded for `L`
(if any) are 32-bit sector numbers, `map_find(L)` returns the first carrier the
write used and the sequence number found in bytes 10..11 of the head IV slot the
splice loop built. -/
theorem hidden_write_map_entry (m : Idr) (fl : FreeState) (L : Nat) (P clone : Buf)
    (w : HiddenWrite) (hw : hidden_write m fl L P clone = some w) (he : w.error = false)
    (hmap : w.map_ret = 0) (hprior : idr_find m (L % 2 ^ 32) % 2 ^ 32 + 51 < 2 ^ 32) :
    (map_find w.map_idr (L % 2 ^ 32) 0 false).ret = toInt32 w.start ∧
    (map_find w.map_idr (L % 2 ^ 32) 0 false).seq_num =
      le_load w.slots (HIDDEN_BYTES_IN_FIRST_IV + SECTOR_NUM_LEN) SEQUENCE_NUMBER_LEN := by
  obtain ⟨hseq, hreuse, hins⟩ := hidden_write_cases m fl L P clone w hw he
  have hk : L % 2 ^ 32 < 2 ^ 32 := Nat.mod_lt _ (by norm_num)
  rw [hseq]
  have hfind := map_find_eq m (L % 2 ^ 32) 0 false
  by_cases hc0 : idr_find m (L % 2 ^ 32) = 0
  · rw [if_pos hc0] at hfind
    have hi := hins (Or.inl (by rw [hfind]))
    rw [hi.2, map_find_after_insert m _ _ hk (hi.1 ▸ hmap)]
    refine ⟨rfl, ?_⟩
    unfold write_sequence_number
    rw [hfind]
    simp only [hc0, ne_eq, not_true_eq_false, if_false, if_true]
    norm_num
  · rw [if_neg hc0] at hfind
    have hne : toInt32 (idr_find m (L % 2 ^ 32) % 2 ^ 32) ≠ -1 := by
      rw [Ne, toInt32_eq_neg_one _ (Nat.mod_lt _ (by norm_num))]
      omega
    by_cases hr : idr_find m (L % 2 ^ 32) / 2 ^ 48 % 2 = 1
    · have hi := hreuse ⟨by rw [hfind]; exact hne, by rw [hfind]; exact decide_eq_true hr⟩
      rw [hi.2.1, hi.1, hfind]
      refine ⟨(toInt32_toU32 _).symm, ?_⟩
      unfold write_sequence_number
      rw [hfind]
      simp only [hne, if_false, decide_eq_true hr, Bool.not_true, Bool.false_eq_true]
    · have hi := hins (Or.inr (by rw [hfind]; exact decide_eq_false hr))
      rw [hi.2, map_find_after_insert m _ _ hk (hi.1 ▸ hmap)]
      refine ⟨rfl, ?_⟩
      unfold write_sequence_number
      rw [hfind]
      simp only [hne, if_false, decide_eq_false hr, Bool.not_false, if_true, hc0, ne_eq,
        not_false_eq_true]

/-- C4: when a hidden write to `L` that found carriers below `2 ^ 32` and updated the
map without failure is followed by a second hidden write to `L` that found carriers,
either the sequence number in the head IV slot of the second write is greater than
that of the first, or the map entry of `L` the second write ran on has the reuse bit
and the second write uses the same first carrier as the first. -/
theorem hidden_write_sequence (m : Idr) (fl : FreeState) (L : Nat) (P1 c1 P2 c2 : Buf)
    (w1 w2 : HiddenWrite) (h1 : hidden_write m fl L P1 c1 = some w1)
    (e1 : w1.error = false) (r1 : w1.map_ret = 0) (hc : w1.start + 51 < 2 ^ 32)
    (h2 : hidden_write w1.map_idr w1.fl L P2 c2 = some w2) (e2 : w2.error = false) :
    le_load w2.slots (HIDDEN_BYTES_IN_FIRST_IV + SECTOR_NUM_LEN) SEQUENCE_NUMBER_LEN >
        le_load w1.slots (HIDDEN_BYTES_IN_FIRST_IV + SECTOR_NUM_LEN) SEQUENCE_NUMBER_LEN ∨
      ((map_find w1.map_idr (L % 2 ^ 32) 0 false).reuse_physical_sector = true ∧
        w2.start = w1.start) := by
  right
  obtain ⟨_, hreuse1, hins1⟩ := hidden_write_cases m fl L P1 c1 w1 h1 e1
  obtain ⟨_, hreuse2, _⟩ := hidden_write_cases w1.map_idr w1.fl L P2 c2 w2 h2 e2
  have hk : L % 2 ^ 32 < 2 ^ 32 := Nat.mod_lt _ (by norm_num)
  by_cases hf : (map_find m (L % 2 ^ 32) 0 false).ret ≠ -1 ∧
      (map_find m (L % 2 ^ 32) 0 false).reuse_physical_sector = true
  · have hi := hreuse1 hf
    rw [hi.2.1] at hreuse2 ⊢
    exact ⟨hf.2, (hreuse2 hf).1.trans hi.1.symm⟩
  · have hf2 : (map_find m (L % 2 ^ 32) 0 false).ret = -1 ∨
        (map_find m (L % 2 ^ 32) 0 false).reuse_physical_sector = false := by
      by_cases hx : (map_find m (L % 2 ^ 32) 0 false).ret = -1
      · exact Or.inl hx
      · right
        cases hb : (map_find m (L % 2 ^ 32) 0 false).reuse_physical_sector with
        | false => rfl
        | true => exact absurd ⟨hx, hb⟩ hf
    have hi := hins1 hf2
    have hfind := map_find_after_insert m (L % 2 ^ 32) w1.start hk (hi.1 ▸ r1)
    rw [← hi.2] at hfind
    have hne : toInt32 w1.start ≠ -1 := by
      rw [Ne, toInt32_eq_neg_one _ (by omega)]
      omega
    have h3 := hreuse2 ⟨by rw [hfind]; exact hne, by rw [hfind]⟩
    refine ⟨by rw [hfind], ?_⟩
    rw [h3.1, hfind]
    exact toU32_toInt32 _ (by omega)

theorem hidden_write_map_entry_witness :
    ∃ w, hidden_write (fun _ => none) FreeState.init 100 (fun _ => 0x42) (fun _ => 0) = some w ∧
      w.error = false ∧ w.map_ret = 0 ∧
      idr_find (fun _ => none) (100 % 2 ^ 32) % 2 ^ 32 + 51 < 2 ^ 32 ∧
      (map_find w.map_idr (100 % 2 ^ 32) 0 false).ret = toInt32 w.start ∧
      (map_find w.map_idr (100 % 2 ^ 32) 0 false).seq_num =
        le_load w.slots (HIDDEN_BYTES_IN_FIRST_IV + SECTOR_NUM_LEN) SEQUENCE_NUMBER_LEN := by
  have hs : (hidden_write (fun _ => none) FreeState.init 100 (fun _ => 0x42) (fun _ => 0)).map
      (fun w => (w.error, w.map_ret)) = some (false, 0) := by decide
  cases hw : hidden_write (fun _ => none) FreeState.init 100 (fun _ => 0x42) (fun _ => 0) with
  | none => rw [hw] at hs; simp at hs
  | some w =>
    rw [hw] at hs
    simp only [Option.map_some', Option.some.injEq, Prod.mk.injEq] at hs
    exact ⟨w, rfl, hs.1, hs.2, by decide,
      hidden_write_map_entry _ _ _ _ _ w hw hs.1 hs.2 (by decide)⟩

theorem hidden_write_sequence_witness :
    ∃ w1 w2, hidden_write (fun _ => none) FreeState.init 100 (fun _ => 0xAA) (fun _ => 0) = some w1 ∧
      w1.error = false ∧ w1.map_ret = 0 ∧ w1.start + 51 < 2 ^ 32 ∧
      hidden_write w1.map_idr w1.fl 100 (fun _ => 0x55) (fun _ => 0) = some w2 ∧
      w2.error = false ∧
      (le_load w2.slots (HIDDEN_BYTES_IN_FIRST_IV + SECTOR_NUM_LEN) SEQUENCE_NUMBER_LEN >
          le_load w1.slots (HIDDEN_BYTES_IN_FIRST_IV + SECTOR_NUM_LEN) SEQUENCE_NUMBER_LEN ∨
        ((map_find w1.map_idr (100 % 2 ^ 32) 0 false).reuse_physical_sector = true ∧
          w2.start = w1.start)) := by
  have hs : ((hidden_write (fun _ => none) FreeState.init 100 (fun _ => 0xAA) (fun _ => 0)).bind
      (fun w1 => (hidden_write w1.map_idr w1.fl 100 (fun _ => 0x55) (fun _ => 0)).map
        (fun w2 => (w1.error, w1.map_ret, w1.start, w2.error)))) = some (false, 0, 5200, false) := by
    decide
  cases h1 : hidden_write (fun _ => none) FreeState.init 100 (fun _ => 0xAA) (fun _ => 0) with
  | none => rw [h1] at hs; simp at hs
  | some w1 =>
    rw [h1] at hs
    simp only [Option.some_bind] at hs
    cases h2 : hidden_write w1.map_idr w1.fl 100 (fun _ => 0x55) (fun _ => 0) with
    | none => rw [h2] at hs; simp at hs
    | some w2 =>
      rw [h2] at hs
      simp only [Option.map_some', Option.some.injEq, Prod.mk.injEq] at hs
      exact ⟨w1, w2, rfl, hs.1, hs.2.1, by rw [hs.2.2.1]; norm_num, h2, hs.2.2.2,
        hidden_write_sequence _ _ _ _ _ _ _ w1 w2 h1 hs.1 hs.2.1 (by rw [hs.2.2.1]; norm_num) h2
          hs.2.2.2⟩

/-- C2 (as found in the code): on a fresh device (empty map, empty free list) two
hidden writes to logical sector 0 both succeed; afterwards the map holds key 0
with physical sector 0 and the reuse bit, and the free list, still well formed,
holds all 52 carriers 0..51 of that entry. The block marked `TEST` in
`kcryptd_io_read` has put them back before the second write, which then reuses the
carriers of the entry without taking them from the list. -/
theorem carriers_in_freelist_after_rewrite :
    ((hidden_write (fun _ => none) FreeState.init 0 (fun _ => 0xAA) (fun _ => 0)).bind
      (fun w1 => (hidden_write w1.map_idr w1.fl 0 (fun _ => 0x55) (fun _ => 0)).map
        (fun w2 => ((w1.error, w1.start, w2.error, w2.start),
                    map_find w2.map_idr 0 0 false, w2.fl.sectors, decide w2.fl.WF)))) =
      some ((false, 0, false, 0), ⟨0, 1, true⟩, List.range 52, true) := by
  decide

/-! ## Public-write pass -/

/-- What the public-write pass does to a slot it classifies as a live carrier whose
sector `findin_dirty_list` does not find: every byte of the buffer other than bytes
13 and 14 of the slot is kept, the 16-bit counter in bytes 13..14 is incremented
modulo `2 ^ 16`, and the dirty list is the one `addto_dirty_list` returns. -/
theorem pass_step_live (m : Idr) (disk : Nat → Buf) (rnd : Buf) (s s2 : PassState)
    (hfound : (classify_slot m disk s).found = true)
    (hnot : findin_dirty_list s.sector s.dirty = some false)
    (h : pass_step m disk rnd s = some s2) :
    (∀ i, i ≠ s.pos + 13 → i ≠ s.pos + 14 → s2.buffer i = s.buffer i) ∧
    le_load s2.buffer (s.pos + RANDOM_BYTES_POS) RANDOM_BYTES_PER_TAG =
      (le_load s.buffer (s.pos + RANDOM_BYTES_POS) RANDOM_BYTES_PER_TAG + 1) % 2 ^ 16 ∧
    addto_dirty_list s.sector s.dirty = some s2.dirty := by
  unfold pass_step at h
  simp only [hfound, if_true, hnot] at h
  cases ha : addto_dirty_list s.sector s.dirty with
  | none => rw [ha] at h; simp at h
  | some d =>
    rw [ha] at h
    simp only [Option.some.injEq] at h
    subst h
    refine ⟨?_, ?_, rfl⟩
    · intro i h1 h2
      show memcpy s.buffer (s.pos + 13) _ 0 2 i = s.buffer i
      exact memcpy_outside _ _ _ _ _ _ (by omega)
    · have hlt : (le_load s.buffer (s.pos + RANDOM_BYTES_POS) RANDOM_BYTES_PER_TAG + 1) % 2 ^ 16
          < 2 ^ 16 := Nat.mod_lt _ (by norm_num)
      generalize (le_load s.buffer (s.pos + RANDOM_BYTES_POS) RANDOM_BYTES_PER_TAG + 1) % 2 ^ 16
        = v at hlt ⊢
      show le_load (memcpy s.buffer (s.pos + 13) (le_bytes v) 0 2) (s.pos + 13) 2 = v
      rw [le_load_two]
      have h0 := memcpy_inside s.buffer (s.pos + 13) (le_bytes v) 0 2 0 (by omega)
      have h1 := memcpy_inside s.buffer (s.pos + 13) (le_bytes v) 0 2 1 (by omega)
      simp only [Nat.add_zero] at h0
      rw [h0, h1]
      have e0 : le_bytes v 0 = v % 256 := by simp [le_bytes]
      have e1 : le_bytes v (0 + 1) = v / 256 % 256 := by simp [le_bytes]
      rw [e0, e1]
      norm_num at hlt
      omega

/-- C3 (as found in the code): the dirty list is in the state left by
`addto_dirty_list(1)`, `addto_dirty_list(2)`, `removefrom_dirty_list(2)`, where
`tail_dirtylist` still points to the freed cell of sector 2. The slot of sector 3 is
a head IV for logical sector 7 with sequence 1, which the map holds, so the pass
classifies it as a live carrier, and sector 3 is not in the dirty list. The pass
increments the counter (byte 13 becomes 1) and keeps all other bytes, but
`findin_dirty_list(3)` is still false afterwards: `addto_dirty_list` has linked the
new cell behind the freed one, out of reach of `head_dirtylist`. -/
theorem public_write_bump_not_recorded :
    ((((addto_dirty_list 1 DirtyState.init).bind (addto_dirty_list 2)).bind
        (removefrom_dirty_list 2)).bind
      (fun d =>
        (pass_step (sample_map 7 3 1) (fun _ _ => 0) (fun _ => 0)
            (sample_pass (sample_head_slot 7 1) 3 d)).bind
          (fun s2 => (findin_dirty_list 3 s2.dirty).map
            (fun after =>
              ((classify_slot (sample_map 7 3 1) (fun _ _ => 0)
                    (sample_pass (sample_head_slot 7 1) 3 d)).found,
                findin_dirty_list 3 d,
                (List.range 16).map s2.buffer, after))))) =
      some (true, some false, [0, 0, 0, 0, 0, 0, 7, 0, 0, 0, 1, 0, 0, 1, 0, 0xAA], false) := by
  decide

/-! ## Recovery scan -/

/-- C6 (as stated, refuted): on a disk whose slots at sectors 1, 2, 3 form a chain
for logical sector 7 that passes the validation (the scan accepts it when it is at
sector 1), `map_common` over the sectors 0..103 visits only sectors 0 and 52 and
ends with a map that has no entry for key 7. -/
theorem map_common_misses_chain :
    map_common_probe sample_disk_one_chain 1 = (some ⟨7, 1, 1⟩, 52) ∧
    (map_common sample_disk_one_chain (fun _ => none) 0 104).map
      (fun m => (map_find m 7 0 false).ret) = some (-1) := by
  decide

theorem le_load_lt (b : Buf) (off n : Nat) : le_load b off n < 256 ^ n := by
  induction n generalizing off with
  | zero => simp [le_load]
  | succ n ih =>
    simp only [le_load]
    have h1 := ih (off + 1)
    have h2 : b off % 256 < 256 := Nat.mod_lt _ (by norm_num)
    rw [pow_succ]
    omega

theorem map_common_probe_bounds (disk : Nat → Buf) (cur : Nat) (h : ScanHit)
    (hp : (map_common_probe disk cur).1 = some h) :
    h.sector_num < 2 ^ 32 ∧ h.sequence_num < 2 ^ 16 ∧ h.map_pub_sector < 2 ^ 32 := by
  have h4 : ∀ (b : Buf) (off : Nat), le_load b off SECTOR_NUM_LEN < 2 ^ 32 := fun b off => by
    have := le_load_lt b off 4
    norm_num at this ⊢
    exact this
  have h2 : ∀ (b : Buf) (off : Nat), le_load b off SEQUENCE_NUMBER_LEN < 2 ^ 16 := fun b off => by
    have := le_load_lt b off 2
    norm_num at this ⊢
    exact this
  unfold map_common_probe at hp
  simp only at hp
  split at hp
  · split at hp
    · split at hp
      · simp at hp
      · simp only [Option.some.injEq] at hp
        subst hp
        exact ⟨h4 _ _, h2 _ _, Nat.mod_lt _ (by norm_num)⟩
    · split at hp
      · simp at hp
      · split at hp
        · simp at hp
        · simp only [Option.some.injEq] at hp
          subst hp
          exact ⟨h4 _ _, h2 _ _, Nat.mod_lt _ (by norm_num)⟩
  · simp at hp

theorem map_common_probe_step (disk : Nat → Buf) (cur : Nat) :
    1 ≤ (map_common_probe disk cur).2 ∧ (map_common_probe disk cur).2 ≤ 52 := by
  unfold map_common_probe
  simp only [NUM_PUBLIC_SECTORS_PER_HIDDEN_SECTOR]
  split
  · split
    · split <;> simp
    · split
      · simp
      · next hlt =>
        split
        · simp
        · simp only
          omega
  · simp

theorem map_common_upsert_other (m : Idr) (h : ScanHit) (k : Nat)
    (hs : h.sector_num < 2 ^ 32) (hk : k ≠ h.sector_num) :
    map_common_upsert m h k = m k := by
  have hins : (map_insert m h.sector_num h.map_pub_sector (some h.sequence_num) false).2 k
      = m k := by
    rw [map_insert_some_eq m _ _ _ _ hs]
    split
    · simp only
      split
      · simp [idr_remove, hk]
      · rfl
    · split
      · rfl
      · simp [hk]
  unfold map_common_upsert
  split
  · split
    · exact hins
    · rfl
  · exact hins

theorem map_find_of_records (m : Idr) (L : Nat) (b : ScanHit)
    (hr : Records m L (some b)) (h1 : b.sequence_num < 2 ^ 16) (h2 : b.map_pub_sector < 2 ^ 32)
    (hst : b.Storable) :
    map_find m L 0 false =
      { ret := toInt32 b.map_pub_sector, seq_num := b.sequence_num,
        reuse_physical_sector := false } ∧ toInt32 b.map_pub_sector ≠ -1 := by
  have hm : m L = some (2 ^ 32 * b.sequence_num + b.map_pub_sector) := hr
  have hf : idr_find m L = 2 ^ 32 * b.sequence_num + b.map_pub_sector := by
    simp [idr_find, hm]
  obtain ⟨hs1, hs2⟩ := hst
  have hne : 2 ^ 32 * b.sequence_num + b.map_pub_sector ≠ 0 := by
    intro h0
    apply hs2
    norm_num at h0 ⊢
    omega
  have e1 : (2 ^ 32 * b.sequence_num + b.map_pub_sector) % 2 ^ 32 = b.map_pub_sector := by
    norm_num at h1 h2 ⊢; omega
  have e2 : (2 ^ 32 * b.sequence_num + b.map_pub_sector) / 2 ^ 32 % 2 ^ 16 = b.sequence_num := by
    norm_num at h1 h2 ⊢; omega
  have e3 : ¬ ((2 ^ 32 * b.sequence_num + b.map_pub_sector) / 2 ^ 48 % 2 = 1) := by
    norm_num at h1 h2 ⊢; omega
  constructor
  · rw [map_find_eq, hf, if_neg hne, e1, e2, decide_eq_false e3]
  · rw [Ne, toInt32_eq_neg_one _ h2]
    exact hs1

theorem map_find_of_records_none (m : Idr) (L : Nat) (hr : Records m L none) :
    map_find m L 0 false = { ret := -1, seq_num := 0, reuse_physical_sector := false } := by
  have hm : m L = none := hr
  rw [map_find_eq]
  simp [idr_find, hm]

/-- One chain processed by the scan: the entry of its key afterwards records the
chain kept by the rule "insert when absent, replace when the sequence number is
greater". -/
theorem map_common_upsert_records (m : Idr) (h : ScanHit) (acc : Option ScanHit)
    (hL : h.sector_num < 2 ^ 31) (h1 : h.sequence_num < 2 ^ 16)
    (h2 : h.map_pub_sector < 2 ^ 32)
    (hrec : Records m h.sector_num acc)
    (hacc : ∀ b, acc = some b →
      b.sequence_num < 2 ^ 16 ∧ b.map_pub_sector < 2 ^ 32 ∧ b.Storable) :
    Records (map_common_upsert m h) h.sector_num
      (match acc with
       | none => some h
       | some b => if h.sequence_num > b.sequence_num then some h else some b) := by
  have hs32 : h.sector_num < 2 ^ 32 := by omega
  have hins : ∀ (hm0 : m h.sector_num ≠ some 0),
      (map_insert m h.sector_num h.map_pub_sector (some h.sequence_num) false).2 h.sector_num
        = some (2 ^ 32 * h.sequence_num + h.map_pub_sector) := by
    intro hm0
    rw [map_insert_some_eq m _ _ _ _ hs32, if_neg (by omega), if_neg hm0]
    simp only [if_true, Bool.false_eq_true, if_false, Nat.zero_add]
    rw [Nat.mod_eq_of_lt h1, Nat.mod_eq_of_lt h2]
  cases acc with
  | none =>
    have hf := map_find_of_records_none m _ hrec
    have hm : m h.sector_num = none := hrec
    unfold map_common_upsert
    simp only [hf, ne_eq, not_true_eq_false, if_false]
    exact hins (by rw [hm]; simp)
  | some b =>
    obtain ⟨b1, b2, bst⟩ := hacc b rfl
    obtain ⟨hf, hne⟩ := map_find_of_records m _ b hrec b1 b2 bst
    have hm : m h.sector_num = some (2 ^ 32 * b.sequence_num + b.map_pub_sector) := hrec
    have hm0 : m h.sector_num ≠ some 0 := by
      rw [hm]
      intro e
      have e2 : 2 ^ 32 * b.sequence_num + b.map_pub_sector = 0 := Option.some.inj e
      apply bst.2
      norm_num at e2 ⊢
      omega
    unfold map_common_upsert
    simp only [hf, ne_eq, hne, not_false_eq_true, if_true]
    by_cases hgt : h.sequence_num > b.sequence_num
    · simp only [hgt, if_true]
      exact hins hm0
    · simp only [hgt, if_false]
      exact hrec


theorem best_chain_cons (L : Nat) (h : ScanHit) (rest : List ScanHit) (acc : Option ScanHit) :
    best_chain L (h :: rest) acc =
      best_chain L rest
        (if h.sector_num = L then
          (match acc with
           | none => some h
           | some b => if h.sequence_num > b.sequence_num then some h else some b)
         else acc) := by
  simp only [best_chain]
  split
  · cases acc with
    | none => rfl
    | some b =>
      simp only
      split <;> rfl
  · rfl

/-- The loop of `map_common`, started on a map that records the chains `acc` for
the keys below `2 ^ 31`, ends, and its map records for each such key the chain that
`best_chain` keeps out of `acc` and the chains the loop accepts. -/
theorem map_common_loop_records (disk : Nat → Buf) (max : Nat) (hmax : max < 2 ^ 32) :
    ∀ (fuel cur : Nat) (m : Idr) (acc : Nat → Option ScanHit),
      max - cur < fuel →
      (∀ L, L < 2 ^ 31 → Records m L (acc L) ∧ ∀ b, acc L = some b →
        b.sequence_num < 2 ^ 16 ∧ b.map_pub_sector < 2 ^ 32 ∧ b.Storable) →
      (∀ h ∈ map_common_chains disk max fuel cur, h.Storable) →
      ∃ m2, map_common_loop disk max fuel cur m = some m2 ∧
        ∀ L, L < 2 ^ 31 →
          Records m2 L (best_chain L (map_common_chains disk max fuel cur) (acc L)) ∧
          ∀ b, best_chain L (map_common_chains disk max fuel cur) (acc L) = some b →
            b.sequence_num < 2 ^ 16 ∧ b.map_pub_sector < 2 ^ 32 ∧ b.Storable := by
  intro fuel
  induction fuel with
  | zero => intro cur m acc hf; omega
  | succ fuel ih =>
    intro cur m acc hf hinv hst
    simp only [map_common_loop, map_common_chains] at hst ⊢
    by_cases hcur : cur < max
    · simp only [hcur, if_true] at hst ⊢
      have hstep := map_common_probe_step disk cur
      have hnext : (cur + (map_common_probe disk cur).2) % 2 ^ 64 =
          cur + (map_common_probe disk cur).2 := Nat.mod_eq_of_lt (by omega)
      rw [hnext] at hst ⊢
      cases hp : (map_common_probe disk cur).1 with
      | none =>
        rw [hp] at hst
        simp only at hst ⊢
        exact ih _ m acc (by omega) hinv hst
      | some h =>
        rw [hp] at hst
        simp only at hst ⊢
        obtain ⟨hb1, hb2, hb3⟩ := map_common_probe_bounds disk cur h hp
        have hhst : h.Storable := hst h (List.mem_cons_self _ _)
        obtain ⟨m2, hm2, hrec2⟩ := ih (cur + (map_common_probe disk cur).2)
          (map_common_upsert m h)
          (fun L => if h.sector_num = L then
              (match acc L with
               | none => some h
               | some b => if h.sequence_num > b.sequence_num then some h else some b)
            else acc L)
          (by omega)
          (by
            intro L hL
            by_cases hk : h.sector_num = L
            · simp only [hk, if_true]
              subst hk
              refine ⟨map_common_upsert_records m h (acc h.sector_num) hL hb2 hb3
                (hinv _ hL).1 (hinv _ hL).2, ?_⟩
              intro b hb
              cases hacc : acc h.sector_num with
              | none =>
                rw [hacc] at hb
                simp only [Option.some.injEq] at hb
                subst hb
                exact ⟨hb2, hb3, hhst⟩
              | some b0 =>
                rw [hacc] at hb
                simp only at hb
                split at hb
                · simp only [Option.some.injEq] at hb
                  subst hb
                  exact ⟨hb2, hb3, hhst⟩
                · simp only [Option.some.injEq] at hb
                  subst hb
                  exact (hinv _ hL).2 b0 hacc
            · simp only [hk, if_false]
              refine ⟨?_, (hinv L hL).2⟩
              have := (hinv L hL).1
              cases hacc : acc L with
              | none =>
                rw [hacc] at this
                show map_common_upsert m h L = none
                rw [map_common_upsert_other m h L hb1 (Ne.symm hk)]
                exact this
              | some b0 =>
                rw [hacc] at this
                show map_common_upsert m h L = some _
                rw [map_common_upsert_other m h L hb1 (Ne.symm hk)]
                exact this)
          (fun x hx => hst x (List.mem_cons_of_mem _ hx))
        refine ⟨m2, hm2, ?_⟩
        intro L hL
        rw [best_chain_cons]
        exact hrec2 L hL
    · simp only [hcur, if_false]
      refine ⟨m, rfl, ?_⟩
      intro L hL
      simp only [best_chain]
      exact hinv L hL

/-- C6 (amended): started on an empty map, `map_common` over a range returns, and
for every key `L` below `2 ^ 31` the map afterwards holds the head sector and the
sequence number of the chain that `best_chain` keeps for `L` out of the chains the
scan accepts at the sectors it visits (the first one met among those of greatest
sequence number), and no entry when it accepts none for `L`; this provided every
accepted chain is storable (its head is not sector `0xFFFFFFFF`, and not sector 0
with sequence number 0). -/
theorem map_common_keeps_best (disk : Nat → Buf) (start end_ : Nat)
    (hst : ∀ h ∈ map_common_chains disk (end_ % 2 ^ 32) (end_ % 2 ^ 32 + 1) start, h.Storable) :
    ∃ m, map_common disk (fun _ => none) start end_ = some m ∧
      ∀ L, L < 2 ^ 31 →
        match best_chain L (map_common_chains disk (end_ % 2 ^ 32) (end_ % 2 ^ 32 + 1) start)
            none with
        | none => (map_find m L 0 false).ret = -1
        | some b =>
          (map_find m L 0 false).ret = toInt32 b.map_pub_sector ∧
          (map_find m L 0 false).ret ≠ -1 ∧
          (map_find m L 0 false).seq_num = b.sequence_num := by
  obtain ⟨m, hm, hrec⟩ := map_common_loop_records disk (end_ % 2 ^ 32)
    (Nat.mod_lt _ (by norm_num)) (end_ % 2 ^ 32 + 1) start (fun _ => none) (fun _ => none)
    (by omega) (fun L _ => ⟨rfl, fun b hb => by simp at hb⟩) hst
  refine ⟨m, hm, ?_⟩
  intro L hL
  obtain ⟨hr, hgood⟩ := hrec L hL
  cases hb : best_chain L (map_common_chains disk (end_ % 2 ^ 32) (end_ % 2 ^ 32 + 1) start)
      none with
  | none =>
    rw [hb] at hr
    simp only
    rw [map_find_of_records_none m L hr]
  | some b =>
    rw [hb] at hr
    obtain ⟨g1, g2, g3⟩ := hgood b hb
    obtain ⟨hf, hne⟩ := map_find_of_records m L b hr g1 g2 g3
    simp only
    rw [hf]
    exact ⟨rfl, hne, rfl⟩

theorem map_common_keeps_best_witness :
    (∀ h ∈ map_common_chains sample_disk_two_chains (104 % 2 ^ 32) (104 % 2 ^ 32 + 1) 0,
        h.Storable) ∧
    map_common_chains sample_disk_two_chains (104 % 2 ^ 32) (104 % 2 ^ 32 + 1) 0 =
      [⟨7, 1, 0⟩, ⟨7, 2, 52⟩] ∧
    ∃ m, map_common sample_disk_two_chains (fun _ => none) 0 104 = some m ∧
      ∀ L, L < 2 ^ 31 →
        match best_chain L
            (map_common_chains sample_disk_two_chains (104 % 2 ^ 32) (104 % 2 ^ 32 + 1) 0)
            none with
        | none => (map_find m L 0 false).ret = -1
        | some b =>
          (map_find m L 0 false).ret = toInt32 b.map_pub_sector ∧
          (map_find m L 0 false).ret ≠ -1 ∧
          (map_find m L 0 false).seq_num = b.sequence_num :=
  ⟨by decide, by decide, map_common_keeps_best sample_disk_two_chains 0 104 (by decide)⟩

/-! ## The general behaviour of `getfrom_freelist` for two or more sectors -/

theorem ascending_append {l1 l2 : List Nat} (h : Ascending (l1 ++ l2)) :
    Ascending l1 ∧ Ascending l2 ∧ ∀ a ∈ l1, ∀ b ∈ l2, a < b := by
  unfold Ascending at h ⊢
  exact List.pairwise_append.mp h

theorem ascending_head_lt {b : Nat} {l : List Nat} (h : Ascending (b :: l)) :
    ∀ x ∈ l, b < x := by
  unfold Ascending at h
  exact (List.pairwise_cons.mp h).1

/-- In an ascending list `A ++ R ++ B` whose block `R` is the `c` consecutive
sectors from `t` and whose next sector is not `t + c`, the sector `t + c` is
missing. -/
theorem gap_after_block (A B : List Nat) (t c : Nat) (hc : 0 < c)
    (hasc : Ascending (A ++ List.range' t c ++ B))
    (hgap : ∀ b, B.head? = some b → b ≠ t + c) :
    t + c ∉ A ++ List.range' t c ++ B := by
  obtain ⟨h1, h2, h3⟩ := ascending_append hasc
  obtain ⟨_, _, h4⟩ := ascending_append h1
  have ht : t ∈ List.range' t c := by
    rw [List.mem_range'_1]; omega
  have hl : t + c - 1 ∈ List.range' t c := by
    rw [List.mem_range'_1]; omega
  intro hmem
  rcases List.mem_append.mp hmem with hm | hm
  · rcases List.mem_append.mp hm with hm | hm
    · have := h4 _ hm _ ht
      omega
    · rw [List.mem_range'_1] at hm
      omega
  · cases B with
    | nil => simp at hm
    | cons b B2 =>
      have hb := hgap b rfl
      have hlb := h3 _ (List.mem_append_right _ hl) b (List.mem_cons_self _ _)
      rcases List.mem_cons.mp hm with e | e
      · omega
      · have := ascending_head_lt h2 _ e
        omega

theorem no_run_in_block (A B : List Nat) (t c n : Nat) (hc : 0 < c) (hcn : c < n)
    (hasc : Ascending (A ++ List.range' t c ++ B))
    (hgap : ∀ b, B.head? = some b → b ≠ t + c) :
    ∀ s ∈ List.range' t c, ¬ HasRun (A ++ List.range' t c ++ B) s n := by
  intro s hs hrun
  rw [List.mem_range'_1] at hs
  have := hrun (t + c - s) (by omega)
  have e : s + (t + c - s) = t + c := by omega
  rw [e] at this
  exact gap_after_block A B t c hc hasc hgap this

theorem lt_block_mem (A B : List Nat) (t c : Nat) (hc : 0 < c)
    (hasc : Ascending (A ++ List.range' t c ++ B)) (x : Nat)
    (hx : x ∈ A ++ List.range' t c ++ B) (hlt : x < t) : x ∈ A := by
  obtain ⟨h1, h2, h3⟩ := ascending_append hasc
  have ht : t ∈ List.range' t c := by
    rw [List.mem_range'_1]; omega
  rcases List.mem_append.mp hx with hm | hm
  · rcases List.mem_append.mp hm with hm | hm
    · exact hm
    · rw [List.mem_range'_1] at hm
      omega
  · have := h3 _ (List.mem_append_right _ ht) x hm
    omega


theorem hasRun_mem {xs : List Nat} {s n : Nat} (hn : 0 < n) (h : HasRun xs s n) : s ∈ xs := by
  have := h 0 hn
  simpa using this

/-- The first loop of `getfrom_freelist` on a well-formed ascending list of 32-bit
sectors, for a request of at least two sectors: started with a block of fewer than
`n` consecutive sectors at `temp` behind cells none of which begins a run, it ends
either at the first cell that begins a run of `n` consecutive sectors, or without a
run when the list has none. -/
theorem getfrom_freelist_scan_spec (mem : Nat → freelist) (n : Nat) (hn : 2 ≤ n)
    (as : List Nat) (hasc : Ascending (as.map (fun a => (mem a).sector)))
    (hb : ∀ a ∈ as, (mem a).sector < 2 ^ 32) :
    ∀ (rest pre run : List Nat) (temp prev : Nat) (tp : Option Nat) (fuel : Nat),
      as = pre ++ (temp :: run) ++ rest →
      Seg mem rest.head? rest none →
      (temp :: run).map (fun a => (mem a).sector) =
        List.range' (mem temp).sector (run.length + 1) →
      run.length + 1 < n →
      (∀ a ∈ pre, ¬ HasRun (as.map (fun a => (mem a).sector)) (mem a).sector n) →
      tp = (if pre = [] then none else some temp) →
      rest.length < fuel →
      ∃ r, getfrom_freelist_scan mem n fuel temp rest.head? tp prev
          ((run.length + 1 : Nat) : Int) = some r ∧
        ((r.count = n ∧ ∃ pre2 run2 rest2, as = pre2 ++ (r.temp :: run2) ++ rest2 ∧
            run2.length + 1 = n ∧
            (r.temp :: run2).map (fun a => (mem a).sector) = List.range' (mem r.temp).sector n ∧
            (∀ a ∈ pre2, ¬ HasRun (as.map (fun a => (mem a).sector)) (mem a).sector n) ∧
            r.next = rest2.head? ∧ Seg mem rest2.head? rest2 none ∧
            r.temp_prev = (if pre2 = [] then none else some r.temp)) ∨
         (r.count ≠ n ∧ ∀ s, ¬ HasRun (as.map (fun a => (mem a).sector)) s n)) := by
  intro rest
  induction rest with
  | nil =>
    intro pre run temp prev tp fuel has _ hcons hlen hpre _ hf
    cases fuel with
    | zero => simp at hf
    | succ fuel =>
      refine ⟨_, rfl, Or.inr ⟨?_, ?_⟩⟩
      · simp only
        omega
      · intro s hrun
        have hxs : as.map (fun a => (mem a).sector) =
            pre.map (fun a => (mem a).sector) ++
              List.range' (mem temp).sector (run.length + 1) ++ [] := by
          rw [has, List.map_append, List.map_append, hcons]
          simp
        have hs := hasRun_mem (by omega) hrun
        rcases List.mem_map.mp hs with ⟨a, ha, hae⟩
        rw [has] at ha
        simp only [List.append_nil] at ha
        rcases List.mem_append.mp ha with ha | ha
        · exact hpre a ha (hae ▸ hrun)
        · have hin : s ∈ List.range' (mem temp).sector (run.length + 1) := by
            rw [← hcons, ← hae]
            exact List.mem_map.mpr ⟨a, ha, rfl⟩
          rw [hxs] at hrun hasc
          exact no_run_in_block _ [] _ _ n (by omega) hlen hasc (by simp) s hin hrun
  | cons b rest ih =>
    intro pre run temp prev tp fuel has hseg hcons hlen hpre htp hf
    cases fuel with
    | zero => simp at hf
    | succ fuel =>
      obtain ⟨_, hseg1⟩ := (seg_cons _ _ _ _ _).mp hseg
      have hnext : (mem b).next = rest.head? := seg_head _ _ _ hseg1
      have hseg2 : Seg mem rest.head? rest none := hnext ▸ hseg1
      have hxs : as.map (fun a => (mem a).sector) =
          pre.map (fun a => (mem a).sector) ++
            List.range' (mem temp).sector (run.length + 1) ++
            (b :: rest).map (fun a => (mem a).sector) := by
        rw [has, List.map_append, List.map_append, hcons]
      have hbm : b ∈ as := by rw [has]; simp
      have hbb := hb b hbm
      -- the last sector of the block is below the sector of `b`
      have hlast : (mem temp).sector + run.length < (mem b).sector := by
        have hasc2 := hasc
        rw [hxs] at hasc2
        obtain ⟨_, _, h3⟩ := ascending_append hasc2
        have h1 : (mem temp).sector + run.length ∈
            pre.map (fun a => (mem a).sector) ++
              List.range' (mem temp).sector (run.length + 1) := by
          apply List.mem_append_right
          rw [List.mem_range'_1]; omega
        exact h3 _ h1 _ (by simp)
      have hmod : (((mem temp).sector : Int) + ((run.length + 1 : Nat) : Int)) % 2 ^ 32 =
          (((mem temp).sector + run.length + 1 : Nat) : Int) := by
        rw [Int.emod_eq_of_lt (by omega) (by norm_num at hbb ⊢; omega)]
        push_cast
        omega
      simp only [List.head?_cons, getfrom_freelist_scan, hmod]
      by_cases hgap : (mem b).sector = (mem temp).sector + run.length + 1
      · have hc1 : ¬ (((mem b).sector : Int) ≠ (((mem temp).sector + run.length + 1 : Nat) : Int)) := by
          rw [hgap]; simp
        rw [if_neg hc1]
        have hcons2 : (temp :: (run ++ [b])).map (fun a => (mem a).sector) =
            List.range' (mem temp).sector ((run ++ [b]).length + 1) := by
          have : temp :: (run ++ [b]) = (temp :: run) ++ [b] := rfl
          rw [this, List.map_append, hcons, List.length_append, List.length_singleton]
          rw [List.range'_concat (mem temp).sector (run.length + 1)]
          simp [hgap, Nat.add_assoc]
        have has2 : as = pre ++ (temp :: (run ++ [b])) ++ rest := by
          rw [has]; simp
        by_cases hfull : ((run.length + 1 : Nat) : Int) + 1 = (n : Int)
        · rw [if_pos hfull]
          refine ⟨_, rfl, Or.inl ⟨hfull, pre, run ++ [b], rest, has2, ?_, ?_, hpre, hnext,
            hseg2, htp⟩⟩
          · simp only [List.length_append, List.length_singleton]; omega
          · have e : n = (run ++ [b]).length + 1 := by
              simp only [List.length_append, List.length_singleton]; omega
            rw [e]
            exact hcons2
        · rw [if_neg hfull]
          have hlen2 : (run ++ [b]).length + 1 < n := by
            simp only [List.length_append, List.length_singleton]; omega
          have := ih pre (run ++ [b]) temp b tp fuel has2 hseg2 hcons2 hlen2 hpre htp
            (by simpa using hf)
          have e : (((run ++ [b]).length + 1 : Nat) : Int) = ((run.length + 1 : Nat) : Int) + 1 := by
            simp only [List.length_append, List.length_singleton]
            push_cast
            ring
          rw [e] at this
          rw [hnext]
          exact this
      · have hc1 : ((mem b).sector : Int) ≠ (((mem temp).sector + run.length + 1 : Nat) : Int) := by
          intro e
          apply hgap
          exact_mod_cast e
        rw [if_pos hc1]
        have has2 : as = (pre ++ (temp :: run)) ++ (b :: []) ++ rest := by
          rw [has]; simp
        have hpre2 : ∀ a ∈ pre ++ (temp :: run),
            ¬ HasRun (as.map (fun a => (mem a).sector)) (mem a).sector n := by
          intro a ha hrun
          rcases List.mem_append.mp ha with ha | ha
          · exact hpre a ha hrun
          · have hin : (mem a).sector ∈ List.range' (mem temp).sector (run.length + 1) := by
              rw [← hcons]
              exact List.mem_map.mpr ⟨a, ha, rfl⟩
            rw [hxs] at hrun hasc
            refine no_run_in_block _ _ _ _ n (by omega) hlen hasc ?_ _ hin hrun
            intro x hx
            simp only [List.map_cons, List.head?_cons, Option.some.injEq] at hx
            omega
        have := ih (pre ++ (temp :: run)) [] b b (some b) fuel has2 hseg2 (by simp)
          (by simp only [List.length_nil]; omega) hpre2 (by simp) (by simpa using hf)
        rw [hnext]
        simpa using this


/-- The loop of `getfrom_freelist` that frees the allotted cells, run over the cells
`run` that lie between `p` and `next`: it ends after freeing exactly these cells. -/
theorem getfrom_freelist_release_spec (mem : Nat → freelist) (next : Option Nat) :
    ∀ (run : List Nat) (p : Option Nat) (freed : Nat → Bool) (fuel : Nat),
      Seg mem p run next → (∀ a ∈ run, some a ≠ next) → run.length < fuel →
      getfrom_freelist_release mem next fuel p
          (match p with
           | some t => (mem t).next
           | none => none) freed
        = some (run.foldl kfree freed) := by
  intro run
  induction run with
  | nil =>
    intro p freed fuel hseg _ hf
    have hp : p = next := hseg
    cases fuel with
    | zero => simp at hf
    | succ fuel =>
      simp only [getfrom_freelist_release, hp, if_true, List.foldl_nil]
  | cons a run ih =>
    intro p freed fuel hseg hne hf
    obtain ⟨hp, hseg2⟩ := (seg_cons _ _ _ _ _).mp hseg
    subst hp
    cases fuel with
    | zero => simp at hf
    | succ fuel =>
      simp only [getfrom_freelist_release]
      rw [if_neg (hne a (List.mem_cons_self _ _))]
      have := ih (mem a).next (kfree freed a) fuel hseg2
        (fun x hx => hne x (List.mem_cons_of_mem _ hx)) (by simpa using hf)
      simpa using this

theorem foldl_kfree_not_mem (run : List Nat) (freed : Nat → Bool) (b : Nat) (hb : b ∉ run) :
    run.foldl kfree freed b = freed b := by
  induction run generalizing freed with
  | nil => rfl
  | cons a run ih =>
    simp only [List.foldl_cons]
    rw [ih _ (fun h => hb (List.mem_cons_of_mem _ h))]
    have : b ≠ a := fun e => hb (e ▸ List.mem_cons_self _ _)
    simp [kfree, this]


/-- `getfrom_freelist` for a request of `n >= 2` sectors on a well-formed, strictly
ascending list of 32-bit sectors whose `total_freelist` is the number of cells: it
returns; it returns -1 and changes nothing exactly when the list has no run of `n`
consecutive sectors; otherwise it returns 0 with `results[0].len = n` and
`results[0].start` the least sector that begins such a run; and when that run
begins at `head_freelist`, the list afterwards is the old one without its first `n`
cells and `total_freelist` has gone down by `n`. -/
theorem getfrom_freelist_spec (st : FreeState) (n : Nat) (hn : 2 ≤ n)
    (res0 : freelist_results) (hwf : st.WF) (hasc : Ascending st.sectors)
    (hb : ∀ x ∈ st.sectors, x < 2 ^ 32) (htot : st.total_freelist = st.nodes.length)
    (ht32 : st.total_freelist < 2 ^ 32) :
    ∃ out, getfrom_freelist (n : Int) res0 st = some out ∧
      ((∀ s, ¬ HasRun st.sectors s n) → out.ret = -1 ∧ out.results = res0 ∧ out.st = st) ∧
      (∀ s, HasRun st.sectors s n →
        out.ret = 0 ∧ out.results.len = n ∧ HasRun st.sectors out.results.start n ∧
        (∀ s2, HasRun st.sectors s2 n → out.results.start ≤ s2) ∧
        (st.sectors.head? = some out.results.start →
          out.st.WF ∧ out.st.sectors = st.sectors.drop n ∧
          out.st.total_freelist = st.total_freelist - n)) := by
  obtain ⟨hseg, hbnd⟩ := hwf
  have hnd := seg_nodup _ _ _ hseg
  have hlen : st.nodes.length ≤ st.brk :=
    length_le_of_nodup_lt _ _ hnd (fun a ha => (hbnd a ha).1)
  unfold getfrom_freelist
  cases hh : st.head_freelist with
  | none =>
    have hnil : st.nodes = [] := by
      unfold FreeState.nodes
      rw [hh, walk_none]
    refine ⟨_, rfl, fun _ => ⟨rfl, rfl, rfl⟩, ?_⟩
    intro s hs
    have := hasRun_mem (by omega) hs
    unfold FreeState.sectors at this
    rw [hnil] at this
    simp at this
  | some h =>
    have hn2 : st.nodes = h :: st.nodes.tail := by
      have := seg_head _ _ _ hseg
      rw [hh] at this
      cases hn : st.nodes with
      | nil => rw [hn] at this; simp at this
      | cons b t =>
        rw [hn] at this
        simp at this
        subst this
        rfl
    have htne : ¬ st.total_freelist = 0 := by
      rw [htot, hn2]; simp
    simp only [htne, if_false]
    have hseg0 := hseg
    rw [hh, hn2, seg_cons] at hseg0
    have hnext0 : (st.mem h).next = st.nodes.tail.head? := seg_head _ _ _ hseg0.2
    have hscan := getfrom_freelist_scan_spec st.mem n hn st.nodes hasc
      (fun a ha => hb _ (List.mem_map.mpr ⟨a, ha, rfl⟩))
      st.nodes.tail [] [] h h none (st.brk + 1)
      (by simpa using hn2) (hnext0 ▸ hseg0.2) (by simp) (by simp only [List.length_nil]; omega)
      (by simp) (by simp)
      (by
        have : st.nodes.tail.length < st.nodes.length := by
          rw [hn2]; simp
        omega)
    obtain ⟨r, hr, hres⟩ := hscan
    rw [← hnext0] at hr
    have hr2 : getfrom_freelist_scan st.mem (n : Int) (st.brk + 1) h (st.mem h).next none h 1
        = some r := by
      simpa using hr
    rw [hr2]
    simp only
    rcases hres with ⟨hcount, pre2, run2, rest2, has, hl2, hcons, hpre, hnx, hsegr, htp⟩ | ⟨hcount, hno⟩
    · rw [if_neg (by rw [hcount]; simp)]
      -- the cells of the run, between `r.temp` and `r.next`
      have hseg1 := hseg
      rw [has, seg_append] at hseg1
      obtain ⟨q2, hseg1a, hseg1b⟩ := hseg1
      rw [seg_append] at hseg1a
      obtain ⟨q1, _, hsegrun⟩ := hseg1a
      have hq2 : q2 = rest2.head? := seg_head _ _ _ hseg1b
      have hq1 : q1 = some r.temp := ((seg_cons _ _ _ _ _).mp hsegrun).1
      rw [hq2, ← hnx, hq1] at hsegrun
      rw [has] at hnd
      have hdisj : ∀ a ∈ r.temp :: run2, a ∉ rest2 := by
        intro a ha hr
        have := (List.nodup_append.mp hnd).2.2
        exact this (List.mem_append_right _ ha) hr
      have hrel := getfrom_freelist_release_spec st.mem r.next (r.temp :: run2) (some r.temp)
        st.freed (st.brk + 1) hsegrun
        (by
          intro a ha e
          rw [hnx] at e
          cases rest2 with
          | nil => simp at e
          | cons c rest3 =>
            simp only [List.head?_cons, Option.some.injEq] at e
            exact hdisj a ha (e ▸ List.mem_cons_self _ _))
        (by
          have : (r.temp :: run2).length ≤ st.nodes.length := by
            rw [has]; simp only [List.length_append, List.length_cons]; omega
          omega)
      simp only at hrel
      rw [hrel]
      simp only
      -- the facts on the result that do not depend on how the run is unlinked
      have hxs : st.sectors = pre2.map (fun a => (st.mem a).sector) ++
          List.range' (st.mem r.temp).sector n ++ rest2.map (fun a => (st.mem a).sector) := by
        unfold FreeState.sectors
        rw [has, List.map_append, List.map_append, hcons]
      have hrun : HasRun st.sectors (st.mem r.temp).sector n := by
        intro i hi
        rw [hxs]
        apply List.mem_append_left
        apply List.mem_append_right
        rw [List.mem_range'_1]; omega
      have hleast : ∀ s2, HasRun st.sectors s2 n → (st.mem r.temp).sector ≤ s2 := by
        intro s2 hs2
        by_contra hlt
        have hm := hasRun_mem (by omega) hs2
        have hasc2 := hasc
        rw [hxs] at hm hasc2
        have hin := lt_block_mem _ _ _ n (by omega) hasc2 s2 hm (by omega)
        rcases List.mem_map.mp hin with ⟨a, ha, hae⟩
        exact hpre a ha (by
          have e : st.nodes.map (fun a => (st.mem a).sector) = st.sectors := rfl
          rw [e, hae]; exact hs2)
      have hhead : st.sectors.head? = some (st.mem r.temp).sector → pre2 = [] := by
        intro hhd
        cases pre2 with
        | nil => rfl
        | cons p0 pre3 =>
          exfalso
          rw [hxs] at hhd
          simp only [List.map_cons, List.cons_append, List.head?_cons, Option.some.injEq] at hhd
          have hasc2 := hasc
          rw [hxs] at hasc2
          obtain ⟨h1, _, _⟩ := ascending_append hasc2
          obtain ⟨_, _, h4⟩ := ascending_append h1
          have := h4 (st.mem p0).sector (by simp) (st.mem r.temp).sector
            (by rw [List.mem_range'_1]; omega)
          omega
      cases htpv : r.temp_prev with
      | some tp =>
        simp only
        refine ⟨_, rfl, ?_, ?_⟩
        · intro hno
          exact absurd hrun (hno _)
        · intro s _
          refine ⟨rfl, hcount, hrun, hleast, ?_⟩
          intro hhd
          have := hhead hhd
          rw [this] at htp
          rw [htpv] at htp
          simp at htp
      | none =>
        simp only
        refine ⟨_, rfl, ?_, ?_⟩
        · intro hno
          exact absurd hrun (hno _)
        · intro s _
          refine ⟨rfl, hcount, hrun, hleast, ?_⟩
          intro hhd
          have hp2 := hhead hhd
          subst hp2
          simp only [List.nil_append] at has hxs
          have key := wf_of_seg
            { st with head_freelist := r.next,
                      freed := (r.temp :: run2).foldl kfree st.freed,
                      total_freelist := (((st.total_freelist : Int) - (n : Int)) % 2 ^ 32).toNat }
            rest2 (by show Seg st.mem r.next rest2 none; rw [hnx]; exact hsegr)
            (by
              intro a ha
              have ham : a ∈ st.nodes := by rw [has]; exact List.mem_append_right _ ha
              refine ⟨(hbnd a ham).1, ?_⟩
              show (r.temp :: run2).foldl kfree st.freed a = false
              rw [foldl_kfree_not_mem _ _ _ (fun hx => hdisj a hx ha)]
              exact (hbnd a ham).2)
          refine ⟨key.1, ?_, ?_⟩
          · unfold FreeState.sectors
            rw [key.2, has]
            show rest2.map (fun a => (st.mem a).sector) = _
            rw [List.map_append, List.drop_append_of_le_length (by simp [hl2])]
            have : ((r.temp :: run2).map (fun a => (st.mem a).sector)).length = n := by
              simp [hl2]
            rw [List.drop_of_length_le (by omega)]
            rfl
          · show (((st.total_freelist : Int) - (n : Int)) % 2 ^ 32).toNat = _
            have hge : n ≤ st.total_freelist := by
              rw [htot, has]; simp only [List.length_append, List.length_cons]; omega
            have e : ((st.total_freelist : Int) - (n : Int)) = ((st.total_freelist - n : Nat) : Int) := by
              omega
            rw [e, Int.emod_eq_of_lt (by omega) (by norm_num at ht32 ⊢; omega)]
            simp
    · rw [if_pos hcount]
      refine ⟨_, rfl, fun _ => ⟨rfl, rfl, rfl⟩, ?_⟩
      intro s hs
      exact absurd hs (hno s)

/-! ## Contract of `map_insert` and `map_find` -/

theorem word_fields_gen (seq v : Nat) (r : Bool) (hs : seq < 2 ^ 16) (hv : v < 2 ^ 32) :
    ((if r then 2 ^ 48 else 0) + (2 ^ 32 * seq + v)) % 2 ^ 32 = v ∧
    ((if r then 2 ^ 48 else 0) + (2 ^ 32 * seq + v)) / 2 ^ 32 % 2 ^ 16 = seq ∧
    (((if r then 2 ^ 48 else 0) + (2 ^ 32 * seq + v)) / 2 ^ 48 % 2 = 1 ↔ r = true) ∧
    ((if r then 2 ^ 48 else 0) + (2 ^ 32 * seq + v) = 0 ↔ (v = 0 ∧ seq = 0 ∧ r = false)) := by
  cases r
  · simp only [Bool.false_eq_true, if_false]
    norm_num at hs hv ⊢
    omega
  · simp only [if_true]
    norm_num at hs hv ⊢
    omega

/-- A successful `map_insert` changes the id of its key only. -/
theorem map_insert_other (m : Idr) (key v : Nat) (ls : Option Nat) (r : Bool)
    (hk : key < 2 ^ 32) (hok : (map_insert m key v ls r).1 = 0) (k : Nat) (hne : k ≠ key) :
    (map_insert m key v ls r).2 k = m k := by
  cases ls with
  | none =>
    rw [map_insert_none_eq m key v r hk] at hok ⊢
    by_cases h31 : 2 ^ 31 ≤ key
    · rw [if_pos h31] at hok; simp at hok
    · rw [if_neg h31] at hok ⊢
      by_cases h0 : m key = some 0
      · rw [if_pos h0]
      · rw [if_neg h0]
        simp only [hne, if_false]
  | some s =>
    rw [map_insert_some_eq m key v s r hk] at hok ⊢
    by_cases h31 : 2 ^ 31 ≤ key
    · rw [if_pos h31] at hok; simp at hok
    · rw [if_neg h31] at hok ⊢
      by_cases h0 : m key = some 0
      · rw [if_pos h0]
      · rw [if_neg h0]
        simp only [hne, if_false]

theorem map_find_congr (m m2 : Idr) (k s0 : Nat) (r0 : Bool) (h : m2 k = m k) :
    map_find m2 k s0 r0 = map_find m k s0 r0 := by
  unfold map_find idr_find
  rw [h]

/-- C11 (as stated, refuted): `map_insert(7, 0, &s, false)` with `s = 0` on an empty
map returns 0, and so does `map_insert(7, 0xFFFFFFFF, &s, true)` with `s = 5`, but
`map_find(7)` returns -1, the value for a key that is not there, after either. -/
theorem map_insert_not_found_again :
    (map_insert (fun _ => none) 7 0 (some 0) false).1 = 0 ∧
    (map_find (map_insert (fun _ => none) 7 0 (some 0) false).2 7 0 false).ret = -1 ∧
    (map_insert (fun _ => none) 7 0xFFFFFFFF (some 5) true).1 = 0 ∧
    (map_find (map_insert (fun _ => none) 7 0xFFFFFFFF (some 5) true).2 7 0 false).ret = -1 := by
  decide

/-- C11 (amended): for every key, every 32-bit physical sector `p` other than
`0xFFFFFFFF`, every 16-bit override sequence `s` and every reuse flag `r` such that
`p`, `s` and `r` are not all zero, after `map_insert(key, p, &s, r)` has returned 0,
`map_find(key)` returns `p` (as an `int`, not -1, and `p` again once converted to
`unsigned`) and sets the sequence `s` and the reuse flag `r`, and `map_find` of every
other key gives what it gave before. -/
theorem map_insert_then_find (m : Idr) (key p s : Nat) (r : Bool) (hk : key < 2 ^ 32)
    (hp : p < 2 ^ 32) (hs : s < 2 ^ 16) (hp1 : p ≠ 0xFFFFFFFF)
    (hw : p ≠ 0 ∨ s ≠ 0 ∨ r = true)
    (hok : (map_insert m key p (some s) r).1 = 0) (s0 : Nat) (r0 : Bool) :
    map_find (map_insert m key p (some s) r).2 key s0 r0 =
        { ret := toInt32 p, seq_num := s, reuse_physical_sector := r } ∧
      toInt32 p ≠ -1 ∧ toU32 (toInt32 p) = p ∧
      ∀ k, k ≠ key → map_find (map_insert m key p (some s) r).2 k s0 r0 = map_find m k s0 r0 := by
  refine ⟨?_, ?_, toU32_toInt32 p hp, ?_⟩
  · rw [map_insert_some_eq m key p s r hk] at hok ⊢
    by_cases h31 : 2 ^ 31 ≤ key
    · rw [if_pos h31] at hok; simp at hok
    · rw [if_neg h31] at hok ⊢
      by_cases h0 : m key = some 0
      · rw [if_pos h0] at hok; simp at hok
      · rw [if_neg h0]
        have es : s % 2 ^ 16 = s := Nat.mod_eq_of_lt hs
        have ep : p % 2 ^ 32 = p := Nat.mod_eq_of_lt hp
        obtain ⟨w1, w2, w3, w4⟩ := word_fields_gen s p r hs hp
        rw [map_find_eq, idr_find_update, es, ep]
        have hne : ¬ ((if r then 2 ^ 48 else 0) + (2 ^ 32 * s + p) = 0) := by
          rw [w4]
          rintro ⟨a, b, c⟩
          rcases hw with h | h | h
          · exact h a
          · exact h b
          · rw [c] at h; exact absurd h (by simp)
        rw [if_neg hne, w1, w2]
        congr 1
        cases r
        · exact decide_eq_false (by rw [w3]; simp)
        · exact decide_eq_true (by rw [w3])
  · rw [Ne, toInt32_eq_neg_one p hp]
    exact hp1
  · intro k hne
    exact map_find_congr _ _ _ _ _ (map_insert_other m key p (some s) r hk hok k hne)

theorem map_insert_then_find_witness :
    (map_insert (sample_map 7 3 4) 7 5200 (some 9) true).1 = 0 ∧
    map_find (map_insert (sample_map 7 3 4) 7 5200 (some 9) true).2 7 0 false =
      { ret := 5200, seq_num := 9, reuse_physical_sector := true } :=
  ⟨by decide,
   (map_insert_then_find (sample_map 7 3 4) 7 5200 9 true (by norm_num) (by norm_num)
      (by norm_num) (by norm_num) (Or.inl (by norm_num)) (by decide) 0 false).1.trans
     (by decide)⟩


/-- C12 (as stated, refuted): on a map whose entry of key 7 has sequence number
65535, `map_insert(7, 3, NULL, true)` returns 0 and the entry it stores has sequence
number 0, not 65536; and on an empty map `map_insert(0x80000000, 3, NULL, true)`
returns `-EINVAL` and stores nothing. -/
theorem map_insert_sequence_wraps :
    (map_find (sample_map 7 3 65535) 7 0 false).seq_num = 65535 ∧
    (map_insert (sample_map 7 3 65535) 7 3 none true).1 = 0 ∧
    (map_find (map_insert (sample_map 7 3 65535) 7 3 none true).2 7 0 false).seq_num = 0 ∧
    (map_insert (fun _ => none) 0x80000000 3 none true).1 = -22 ∧
    (map_insert (fun _ => none) 0x80000000 3 none true).2 0x80000000 = none := by
  decide

/-- C12 (amended): for every map state and key, when `map_insert` called without a
sequence override returns 0, the sequence field of the word it has stored under the
key is (existing sequence + 1) modulo `2 ^ 16` when the key held a word before, the
existing sequence being the one `map_find` reads from that word, and 1 when it held
none; and unless the stored word is 0, `map_find(key)` reads that sequence back. -/
theorem map_insert_next_sequence (m : Idr) (key v : Nat) (r : Bool) (hk : key < 2 ^ 32)
    (hok : (map_insert m key v none r).1 = 0) :
    idr_find (map_insert m key v none r).2 key / 2 ^ 32 % 2 ^ 16 =
        (if idr_find m key ≠ 0 then ((map_find m key 0 false).seq_num + 1) % 2 ^ 16 else 1) ∧
      (idr_find (map_insert m key v none r).2 key ≠ 0 →
        ∀ s0 r0, (map_find (map_insert m key v none r).2 key s0 r0).seq_num =
          (if idr_find m key ≠ 0 then ((map_find m key 0 false).seq_num + 1) % 2 ^ 16
           else 1)) := by
  have hseq : (if idr_find m key ≠ 0 then ((map_find m key 0 false).seq_num + 1) % 2 ^ 16
      else 1) = ((if idr_find m key ≠ 0 then idr_find m key / 2 ^ 32 % 2 ^ 16 else 0) + 1)
        % 2 ^ 16 := by
    rw [map_find_eq]
    by_cases h0 : idr_find m key = 0
    · simp [h0]
    · simp [h0]
  have hfield : idr_find (map_insert m key v none r).2 key / 2 ^ 32 % 2 ^ 16 =
      ((if idr_find m key ≠ 0 then idr_find m key / 2 ^ 32 % 2 ^ 16 else 0) + 1) % 2 ^ 16 := by
    rw [map_insert_none_eq m key v r hk] at hok ⊢
    by_cases h31 : 2 ^ 31 ≤ key
    · rw [if_pos h31] at hok; simp at hok
    · rw [if_neg h31] at hok ⊢
      by_cases h0 : m key = some 0
      · rw [if_pos h0] at hok; simp at hok
      · rw [if_neg h0]
        rw [idr_find_update]
        exact (word_fields_gen _ _ r (Nat.mod_lt _ (by norm_num))
          (Nat.mod_lt _ (by norm_num))).2.1
  refine ⟨hfield.trans hseq.symm, ?_⟩
  intro hne s0 r0
  rw [map_find_eq, if_neg hne]
  exact hfield.trans hseq.symm

theorem map_insert_next_sequence_witness :
    (map_insert (sample_map 7 3 4) 7 60 none true).1 = 0 ∧
    idr_find (map_insert (sample_map 7 3 4) 7 60 none true).2 7 / 2 ^ 32 % 2 ^ 16 = 5 :=
  ⟨by decide,
   (map_insert_next_sequence (sample_map 7 3 4) 7 60 true (by norm_num) (by decide)).1.trans
     (by decide)⟩

/-! ## Hidden writes on a fresh device -/

theorem sectors_length (st : FreeState) : st.sectors.length = st.nodes.length := by
  unfold FreeState.sectors
  simp

theorem ascending_range' (a n : Nat) : Ascending (List.range' a n) := by
  unfold Ascending
  induction n generalizing a with
  | zero => simp
  | succ n ih =>
    rw [List.range'_succ, List.pairwise_cons]
    refine ⟨?_, ih (a + 1)⟩
    intro b hb
    rw [List.mem_range'_1] at hb
    omega

theorem hasRun_range' (a n : Nat) : HasRun (List.range' a n) a n := by
  intro i hi
  rw [List.mem_range'_1]
  omega

/-- Adding the sectors `a + c, ..., a + c + n - 1` in turn to a list that holds
`a, ..., a + c - 1`. -/
theorem addto_freelist_all_range (a : Nat) :
    ∀ (n c : Nat) (st : FreeState), st.WF → st.sectors = List.range' a c →
      st.total_freelist = c → c + n < 2 ^ 32 →
      ∃ st2, addto_freelist_all (List.range' (a + c) n) st = some st2 ∧ st2.WF ∧
        st2.sectors = List.range' a (c + n) ∧ st2.total_freelist = c + n := by
  intro n
  induction n with
  | zero =>
    intro c st hwf hs ht _
    exact ⟨st, rfl, hwf, hs, ht⟩
  | succ n ih =>
    intro c st hwf hs ht hlt
    have hasc : Ascending st.sectors := hs ▸ ascending_range' a c
    have hnew : a + c ∉ st.sectors := by
      rw [hs, List.mem_range'_1]; omega
    obtain ⟨st1, l1, l2, h1, h2, h3, h4, h5, h6, h7⟩ :=
      addto_freelist_new st (a + c) hwf hasc hnew
    have hl2 : l2 = [] := by
      cases l2 with
      | nil => rfl
      | cons x rest =>
        exfalso
        have hx : x ∈ st.sectors := by rw [h3]; simp
        rw [hs, List.mem_range'_1] at hx
        have := h6 x (by simp)
        omega
    subst hl2
    rw [List.append_nil] at h3
    have hs1 : st1.sectors = List.range' a (c + 1) := by
      rw [h4, ← h3, hs, List.range'_concat]
      simp
    have ht1 : st1.total_freelist = c + 1 := by
      rw [h7, ht]
      exact Nat.mod_eq_of_lt (by omega)
    obtain ⟨st2, g1, g2, g3, g4⟩ := ih (c + 1) st1 h2 hs1 ht1 (by omega)
    refine ⟨st2, ?_, g2, ?_, ?_⟩
    · rw [List.range'_succ]
      simp only [addto_freelist_all, h1, Option.some_bind]
      rw [← g1]
      congr 2
    · rw [g3]; congr 1; omega
    · rw [g4]; omega

/-- `getfrom_freelist` on a list that is one run of exactly `n` sectors. -/
theorem getfrom_freelist_whole (st : FreeState) (a n : Nat) (hn : 2 ≤ n)
    (res0 : freelist_results) (hwf : st.WF) (hs : st.sectors = List.range' a n)
    (ht : st.total_freelist = n) (hlt : a + n ≤ 2 ^ 32) (hn32 : n < 2 ^ 32) :
    ∃ out, getfrom_freelist (n : Int) res0 st = some out ∧ out.ret = 0 ∧
      out.results.start = a ∧ out.results.len = n ∧ out.st.WF ∧ out.st.sectors = [] ∧
      out.st.total_freelist = 0 := by
  have hlen : st.nodes.length = n := by
    rw [← sectors_length, hs, List.length_range']
  obtain ⟨out, h1, _, h3⟩ := getfrom_freelist_spec st n hn res0 hwf (hs ▸ ascending_range' a n)
    (by
      intro x hx
      rw [hs, List.mem_range'_1] at hx
      omega)
    (by rw [ht, hlen]) (by rw [ht]; exact hn32)
  have hrun : HasRun st.sectors a n := hs ▸ hasRun_range' a n
  obtain ⟨g1, g2, g3, g4, g5⟩ := h3 a hrun
  have hstart : out.results.start = a := by
    have h1 := g4 a hrun
    have h2 := hasRun_mem (by omega) g3
    rw [hs, List.mem_range'_1] at h2
    omega
  have hhead : st.sectors.head? = some out.results.start := by
    rw [hs, hstart]
    cases n with
    | zero => omega
    | succ n => rw [List.range'_succ]; rfl
  obtain ⟨k1, k2, k3⟩ := g5 hhead
  refine ⟨out, h1, g1, hstart, g2, k1, ?_, ?_⟩
  · rw [k2, hs]
    apply List.drop_of_length_le
    simp
  · rw [k3, ht]; omega


/-- The sectors the block marked `TEST` adds for logical sector `L`, when they are
32-bit numbers. -/
theorem test_sectors_eq (L : Nat) (hL : 52 * L + 51 < 2 ^ 32) :
    (List.range NUM_PUBLIC_SECTORS_PER_HIDDEN_SECTOR).map
        (fun k => ((0 + L) * NUM_PUBLIC_SECTORS_PER_HIDDEN_SECTOR + k) % 2 ^ 32) =
      List.range' (52 * L + 0) 52 := by
  rw [List.range'_eq_map_range]
  show (List.range 52).map (fun k => ((0 + L) * 52 + k) % 2 ^ 32) = _
  apply List.map_congr_left
  intro k hk
  rw [List.mem_range] at hk
  show ((0 + L) * 52 + k) % 2 ^ 32 = 52 * L + 0 + k
  rw [Nat.mod_eq_of_lt (by omega)]
  omega

/-- Carrier selection on an empty free list for a logical sector without a reuse
entry: the block marked `TEST` fills the list with `52 * L, ..., 52 * L + 51`, and
`getfrom_freelist` hands out exactly this run and leaves the list empty. -/
theorem kcryptd_io_read_carriers_fresh (m : Idr) (L : Nat) (fl : FreeState)
    (hL : 52 * L + 51 < 2 ^ 32) (hwf : fl.WF) (hs : fl.sectors = [])
    (ht : fl.total_freelist = 0)
    (hno : (map_find m (L % 2 ^ 32) 0 false).ret = -1 ∨
      (map_find m (L % 2 ^ 32) 0 false).reuse_physical_sector = false) :
    ∃ fl1 fl2,
      addto_freelist_all ((List.range NUM_PUBLIC_SECTORS_PER_HIDDEN_SECTOR).map
        (fun k => ((0 + L) * NUM_PUBLIC_SECTORS_PER_HIDDEN_SECTOR + k) % 2 ^ 32)) fl = some fl1 ∧
      fl1.WF ∧ fl1.sectors = List.range' (52 * L) 52 ∧
      kcryptd_io_read_carriers m L fl = some (0, 52 * L, fl2) ∧
      fl2.WF ∧ fl2.sectors = [] ∧ fl2.total_freelist = 0 := by
  obtain ⟨fl1, h1, h2, h3, h4⟩ := addto_freelist_all_range (52 * L) 52 0 fl hwf
    (by rw [hs]; rfl) ht (by norm_num)
  rw [← test_sectors_eq L hL] at h1
  simp only [Nat.zero_add] at h3 h4
  obtain ⟨out, g1, g2, g3, g4, g5, g6, g7⟩ := getfrom_freelist_whole fl1 (52 * L) 52
    (by norm_num) ⟨toU32 (map_find m (L % 2 ^ 32) 0 false).ret, 0⟩ h2 h3 h4 (by omega)
    (by norm_num)
  refine ⟨fl1, out.st, h1, h2, h3, ?_, g5, g6, g7⟩
  unfold kcryptd_io_read_carriers
  simp only [h1, hno, if_true]
  have g1b : getfrom_freelist (NUM_PUBLIC_SECTORS_PER_HIDDEN_SECTOR : Nat)
      ⟨toU32 (map_find m (L % 2 ^ 32) 0 false).ret, 0⟩ fl1 = some out := g1
  rw [g1b]
  simp only [g2, ne_eq, not_true_eq_false, if_false, g3]

/-- Carrier selection for a logical sector with a reuse entry: the carriers are
those of the entry, and the free list is left as the block marked `TEST` made it. -/
theorem kcryptd_io_read_carriers_reuse (m : Idr) (L : Nat) (fl : FreeState)
    (hL : 52 * L + 51 < 2 ^ 32) (hwf : fl.WF) (hs : fl.sectors = [])
    (ht : fl.total_freelist = 0)
    (h1 : (map_find m (L % 2 ^ 32) 0 false).ret ≠ -1)
    (h2 : (map_find m (L % 2 ^ 32) 0 false).reuse_physical_sector = true) :
    ∃ fl1, kcryptd_io_read_carriers m L fl =
        some (0, toU32 (map_find m (L % 2 ^ 32) 0 false).ret, fl1) ∧
      fl1.WF ∧ fl1.sectors = List.range' (52 * L) 52 := by
  obtain ⟨fl1, g1, g2, g3, _⟩ := addto_freelist_all_range (52 * L) 52 0 fl hwf
    (by rw [hs]; rfl) ht (by norm_num)
  rw [← test_sectors_eq L hL] at g1
  simp only [Nat.zero_add] at g3
  refine ⟨fl1, ?_, g2, g3⟩
  unfold kcryptd_io_read_carriers
  simp only [g1, h1, h2, false_or, Bool.true_eq_false, if_false]

theorem splice_returns (m : Idr) (L : Nat) (P clone : Buf) :
    ∃ w, kcryptd_crypt_write_convert_splice m 512 L P 512 clone = some w :=
  splice_loop_total m 512 P (512 + 1) _ (by simp) (by simp)

/-- The first hidden write to a logical sector `L` that has no map entry, on an
empty free list. -/
theorem hidden_write_first (m : Idr) (fl : FreeState) (L : Nat) (P clone : Buf)
    (hL : 52 * L + 51 < 2 ^ 32) (hwf : fl.WF) (hs : fl.sectors = [])
    (ht : fl.total_freelist = 0) (hm : m L = none) :
    ∃ w, hidden_write m fl L P clone = some w ∧ w.error = false ∧ w.start = 52 * L ∧
      w.map_ret = 0 ∧
      w.map_idr = (fun k => if k = L then some (2 ^ 48 + (2 ^ 32 * 1 + 52 * L)) else m k) ∧
      w.fl.WF ∧ w.fl.sectors = [] ∧ w.fl.total_freelist = 0 ∧
      (∃ s, kcryptd_crypt_write_convert_splice m 512 L P 512 clone = some s ∧
        w.slots = s.dbuffer) := by
  have hLm : L % 2 ^ 32 = L := Nat.mod_eq_of_lt (by omega)
  have hfind : map_find m (L % 2 ^ 32) 0 false =
      { ret := -1, seq_num := 0, reuse_physical_sector := false } := by
    rw [map_find_eq, hLm]
    simp [idr_find, hm]
  obtain ⟨s, hsp⟩ := splice_returns m L P clone
  obtain ⟨fl1, fl2, _, _, _, hc, c1, c2, c3⟩ := kcryptd_io_read_carriers_fresh m L fl hL hwf hs ht
    (Or.inl (by rw [hfind]))
  have hins := map_insert_none_eq m L (52 * L) true (by omega)
  rw [if_neg (by omega), if_neg (by rw [hm]; simp)] at hins
  have hidr : idr_find m L = 0 := by simp [idr_find, hm]
  simp only [hidr, ne_eq, not_true_eq_false, if_false, if_true] at hins
  have e1 : (0 + 1) % 2 ^ 16 = 1 := by norm_num
  have e2 : 52 * L % 2 ^ 32 = 52 * L := Nat.mod_eq_of_lt (by omega)
  rw [e1, e2] at hins
  have hrd : kcryptd_io_rdwr_map m L (52 * L) =
      (0, fun k => if k = L then some (2 ^ 48 + (2 ^ 32 * 1 + 52 * L)) else m k) := by
    unfold kcryptd_io_rdwr_map
    rw [hLm] at hfind
    simp only [hfind, true_or, if_true, hLm, hins]
  refine ⟨{ error := false, slots := s.dbuffer, start := 52 * L, map_ret := 0,
            map_idr := fun k => if k = L then some (2 ^ 48 + (2 ^ 32 * 1 + 52 * L)) else m k,
            fl := fl2 }, ?_, rfl, rfl, rfl, rfl, c1, c2, c3, s, hsp, rfl⟩
  unfold hidden_write
  rw [hsp]
  simp only [hc, hrd, ne_eq, not_true_eq_false, if_false]


/-- C13: for every logical sector `L` whose 52 carrier sectors `52 * L .. 52 * L + 51`
are 32-bit sector numbers (the spec's case is `L = 100`), the first hidden write on a
fresh device (empty map, empty free list) returns without an error; its carriers
start at the least sector that begins a run of 52 consecutive sectors in the free
list as it is when `getfrom_freelist` is called (the list `fl1` the block marked
`TEST` has built), and afterwards `map_find(L)` returns the first carrier, sequence
number 1 and the reuse bit set. -/
theorem first_hidden_write_carriers (L : Nat) (P clone : Buf) (hL : 52 * L + 51 < 2 ^ 32) :
    ∃ w fl1, hidden_write (fun _ => none) FreeState.init L P clone = some w ∧
      w.error = false ∧
      addto_freelist_all ((List.range NUM_PUBLIC_SECTORS_PER_HIDDEN_SECTOR).map
        (fun k => ((0 + L) * NUM_PUBLIC_SECTORS_PER_HIDDEN_SECTOR + k) % 2 ^ 32))
          FreeState.init = some fl1 ∧
      HasRun fl1.sectors w.start NUM_PUBLIC_SECTORS_PER_HIDDEN_SECTOR ∧
      (∀ s, HasRun fl1.sectors s NUM_PUBLIC_SECTORS_PER_HIDDEN_SECTOR → w.start ≤ s) ∧
      (∀ x ∈ w.fl.sectors, x < w.start ∨ w.start + NUM_PUBLIC_SECTORS_PER_HIDDEN_SECTOR ≤ x) ∧
      w.map_ret = 0 ∧
      map_find w.map_idr (L % 2 ^ 32) 0 false =
        { ret := toInt32 w.start, seq_num := 1, reuse_physical_sector := true } ∧
      toInt32 w.start ≠ -1 ∧ toU32 (toInt32 w.start) = w.start := by
  have hLm : L % 2 ^ 32 = L := Nat.mod_eq_of_lt (by omega)
  obtain ⟨w, h1, h2, h3, h4, h5, h6, h7, h8, _⟩ :=
    hidden_write_first (fun _ => none) FreeState.init L P clone hL (by decide) rfl rfl rfl
  obtain ⟨fl1, _, g1, _, g3, _⟩ :=
    kcryptd_io_read_carriers_fresh (fun _ => none) L FreeState.init hL (by decide) rfl rfl
      (Or.inl (by rw [map_find_eq]; simp [idr_find]))
  refine ⟨w, fl1, h1, h2, g1, ?_, ?_, ?_, h4, ?_, ?_, ?_⟩
  · rw [g3, h3]
    exact hasRun_range' _ _
  · intro s hs
    have := hasRun_mem (by decide) hs
    rw [g3, List.mem_range'_1] at this
    omega
  · intro x hx
    rw [h7] at hx
    simp at hx
  · rw [h5, hLm, map_find_eq, idr_find_update]
    obtain ⟨w1, w2, w3, w4⟩ := word_fields 1 (52 * L) (by norm_num) (by omega)
    rw [if_neg w1, w2, w3, w4, h3]
    simp
  · rw [h3, Ne, toInt32_eq_neg_one _ (by omega)]
    omega
  · rw [h3]
    exact toU32_toInt32 _ (by omega)

theorem first_hidden_write_carriers_witness :
    52 * 100 + 51 < 2 ^ 32 ∧
    ∃ w fl1, hidden_write (fun _ => none) FreeState.init 100 (fun _ => 0x42) (fun _ => 0) = some w ∧
      w.error = false ∧
      addto_freelist_all ((List.range NUM_PUBLIC_SECTORS_PER_HIDDEN_SECTOR).map
        (fun k => ((0 + 100) * NUM_PUBLIC_SECTORS_PER_HIDDEN_SECTOR + k) % 2 ^ 32))
          FreeState.init = some fl1 ∧
      HasRun fl1.sectors w.start NUM_PUBLIC_SECTORS_PER_HIDDEN_SECTOR ∧
      (∀ s, HasRun fl1.sectors s NUM_PUBLIC_SECTORS_PER_HIDDEN_SECTOR → w.start ≤ s) ∧
      (∀ x ∈ w.fl.sectors, x < w.start ∨ w.start + NUM_PUBLIC_SECTORS_PER_HIDDEN_SECTOR ≤ x) ∧
      w.map_ret = 0 ∧
      map_find w.map_idr (100 % 2 ^ 32) 0 false =
        { ret := toInt32 w.start, seq_num := 1, reuse_physical_sector := true } ∧
      toInt32 w.start ≠ -1 ∧ toU32 (toInt32 w.start) = w.start :=
  ⟨by norm_num, first_hidden_write_carriers 100 (fun _ => 0x42) (fun _ => 0) (by norm_num)⟩


/-- A hidden write to a logical sector whose entry has the reuse bit, on an empty
free list: the carriers are those of the entry and the map is left as it is. -/
theorem hidden_write_again (m : Idr) (fl : FreeState) (L : Nat) (P clone : Buf)
    (hL : 52 * L + 51 < 2 ^ 32) (hwf : fl.WF) (hs : fl.sectors = [])
    (ht : fl.total_freelist = 0)
    (h1 : (map_find m (L % 2 ^ 32) 0 false).ret ≠ -1)
    (h2 : (map_find m (L % 2 ^ 32) 0 false).reuse_physical_sector = true) :
    ∃ w, hidden_write m fl L P clone = some w ∧ w.error = false ∧
      w.start = toU32 (map_find m (L % 2 ^ 32) 0 false).ret ∧ w.map_ret = 0 ∧
      w.map_idr = m ∧ w.fl.WF ∧ w.fl.sectors = List.range' (52 * L) 52 := by
  obtain ⟨s, hsp⟩ := splice_returns m L P clone
  obtain ⟨fl1, hc, c1, c2⟩ := kcryptd_io_read_carriers_reuse m L fl hL hwf hs ht h1 h2
  have hrd : kcryptd_io_rdwr_map m L (toU32 (map_find m (L % 2 ^ 32) 0 false).ret) = (0, m) := by
    unfold kcryptd_io_rdwr_map
    simp only [h1, h2, false_or, Bool.true_eq_false, if_false]
  refine ⟨{ error := false, slots := s.dbuffer,
            start := toU32 (map_find m (L % 2 ^ 32) 0 false).ret, map_ret := 0,
            map_idr := m, fl := fl1 }, ?_, rfl, rfl, rfl, rfl, c1, c2⟩
  unfold hidden_write
  rw [hsp]
  simp only [hc, hrd, ne_eq, not_true_eq_false, if_false]

/-- C14 (as stated, refuted): on a fresh device two hidden writes to logical sector
100 both succeed and use the carriers starting at sector 5200, and after the second
write `map_find(100)` returns sequence number 1, not 2. -/
theorem second_hidden_write_keeps_sequence :
    ((hidden_write (fun _ => none) FreeState.init 100 (fun _ => 0xAA) (fun _ => 0)).bind
      (fun w1 => (hidden_write w1.map_idr w1.fl 100 (fun _ => 0x55) (fun _ => 0)).map
        (fun w2 => ((w1.error, w1.map_ret, w1.start), (w2.error, w2.map_ret, w2.start),
                    map_find w2.map_idr 100 0 false)))) =
      some ((false, 0, 5200), (false, 0, 5200), ⟨5200, 1, true⟩) := by
  decide

/-- C14 (amended): for every logical sector `L` whose carrier sectors
`52 * L .. 52 * L + 51` are 32-bit sector numbers, two consecutive hidden writes to `L`
on a fresh device both succeed and use the same 52 carrier sectors, the second
write finds the entry of `L` with the reuse bit and leaves the map as the first
write left it, and after the second write `map_find(L)` returns sequence number 1,
the number the head IV slot of either write carries. -/
theorem second_hidden_write_same_carriers (L : Nat) (P1 c1 P2 c2 : Buf)
    (hL : 52 * L + 51 < 2 ^ 32) :
    ∃ w1 w2, hidden_write (fun _ => none) FreeState.init L P1 c1 = some w1 ∧
      w1.error = false ∧ w1.map_ret = 0 ∧
      hidden_write w1.map_idr w1.fl L P2 c2 = some w2 ∧
      w2.error = false ∧ w2.map_ret = 0 ∧ w2.start = w1.start ∧
      (map_find w1.map_idr (L % 2 ^ 32) 0 false).reuse_physical_sector = true ∧
      w2.map_idr = w1.map_idr ∧
      map_find w2.map_idr (L % 2 ^ 32) 0 false =
        { ret := toInt32 w1.start, seq_num := 1, reuse_physical_sector := true } ∧
      le_load w1.slots (HIDDEN_BYTES_IN_FIRST_IV + SECTOR_NUM_LEN) SEQUENCE_NUMBER_LEN = 1 ∧
      le_load w2.slots (HIDDEN_BYTES_IN_FIRST_IV + SECTOR_NUM_LEN) SEQUENCE_NUMBER_LEN = 1 := by
  have hLm : L % 2 ^ 32 = L := Nat.mod_eq_of_lt (by omega)
  obtain ⟨w1, h1, h2, h3, h4, h5, h6, h7, h8, _⟩ :=
    hidden_write_first (fun _ => none) FreeState.init L P1 c1 hL (by decide) rfl rfl rfl
  have hfind : map_find w1.map_idr (L % 2 ^ 32) 0 false =
      { ret := toInt32 w1.start, seq_num := 1, reuse_physical_sector := true } := by
    rw [h5, hLm, map_find_eq, idr_find_update]
    obtain ⟨x1, x2, x3, x4⟩ := word_fields 1 (52 * L) (by norm_num) (by omega)
    rw [if_neg x1, x2, x3, x4, h3]
    simp
  have hne : toInt32 w1.start ≠ -1 := by
    rw [h3, Ne, toInt32_eq_neg_one _ (by omega)]
    omega
  obtain ⟨w2, g1, g2, g3, g4, g5, _, _⟩ :=
    hidden_write_again w1.map_idr w1.fl L P2 c2 hL h6 h7 h8 (by rw [hfind]; exact hne)
      (by rw [hfind])
  have hst : w2.start = w1.start := by
    rw [g3, hfind]
    show toU32 (toInt32 w1.start) = w1.start
    rw [h3]
    exact toU32_toInt32 _ (by omega)
  have hq1 := (hidden_write_cases _ _ L P1 c1 w1 h1 h2).1
  have hq2 := (hidden_write_cases _ _ L P2 c2 w2 g1 g2).1
  refine ⟨w1, w2, h1, h2, h4, g1, g2, g4, hst, by rw [hfind], g5, by rw [g5, hfind], ?_, ?_⟩
  · rw [hq1]
    unfold write_sequence_number
    rw [map_find_eq]
    simp [idr_find]
  · rw [hq2]
    unfold write_sequence_number
    rw [hfind]
    simp only [hne, if_false]
    rfl

theorem second_hidden_write_same_carriers_witness :
    52 * 100 + 51 < 2 ^ 32 ∧
    ∃ w1 w2, hidden_write (fun _ => none) FreeState.init 100 (fun _ => 0xAA) (fun _ => 0)
        = some w1 ∧
      w1.error = false ∧ w1.map_ret = 0 ∧
      hidden_write w1.map_idr w1.fl 100 (fun _ => 0x55) (fun _ => 0) = some w2 ∧
      w2.error = false ∧ w2.map_ret = 0 ∧ w2.start = w1.start ∧
      (map_find w1.map_idr (100 % 2 ^ 32) 0 false).reuse_physical_sector = true ∧
      w2.map_idr = w1.map_idr ∧
      map_find w2.map_idr (100 % 2 ^ 32) 0 false =
        { ret := toInt32 w1.start, seq_num := 1, reuse_physical_sector := true } ∧
      le_load w1.slots (HIDDEN_BYTES_IN_FIRST_IV + SECTOR_NUM_LEN) SEQUENCE_NUMBER_LEN = 1 ∧
      le_load w2.slots (HIDDEN_BYTES_IN_FIRST_IV + SECTOR_NUM_LEN) SEQUENCE_NUMBER_LEN = 1 :=
  ⟨by norm_num,
   second_hidden_write_same_carriers 100 (fun _ => 0xAA) (fun _ => 0) (fun _ => 0x55)
     (fun _ => 0) (by norm_num)⟩

/-! ## Hidden read -/

theorem splice_loop_out_pos_le (m : Idr) (ss : Nat) (P : Buf) :
    ∀ (fuel : Nat) (s w : SpliceState), splice_loop m ss P fuel s = some w →
      s.out_pos ≤ w.out_pos := by
  intro fuel
  induction fuel with
  | zero => intro s w h; simp [splice_loop] at h
  | succ fuel ih =>
    intro s w h
    simp only [splice_loop] at h
    split at h
    · cases h; exact Nat.le_refl _
    · have := ih _ _ h
      rw [splice_step_out_pos] at this
      omega

theorem gather_loop_in_pos_le (ss : Nat) (S : Buf) :
    ∀ (fuel : Nat) (g r : GatherState), gather_loop ss S fuel g = some r →
      g.in_pos ≤ r.in_pos := by
  intro fuel
  induction fuel with
  | zero => intro g r h; simp [gather_loop] at h
  | succ fuel ih =>
    intro g r h
    simp only [gather_loop] at h
    split at h
    · cases h; exact Nat.le_refl _
    · have := ih _ _ h
      rw [gather_step_in_pos] at this
      omega

/-- The gather loop reads the slot buffer only below the position where it ends. -/
theorem gather_loop_congr (ss : Nat) (S S2 : Buf) :
    ∀ (fuel : Nat) (g r : GatherState), gather_loop ss S fuel g = some r →
      (∀ i < r.in_pos, S2 i = S i) → gather_loop ss S2 fuel g = some r := by
  intro fuel
  induction fuel with
  | zero => intro g r h; simp [gather_loop] at h
  | succ fuel ih =>
    intro g r h hS
    simp only [gather_loop] at h ⊢
    split at h
    · next hz => rw [if_pos hz]; exact h
    · next hnz =>
      rw [if_neg hnz]
      have hmono := gather_loop_in_pos_le ss S fuel _ _ h
      rw [gather_step_in_pos] at hmono
      have hstep : gather_step ss S2 g = gather_step ss S g := by
        have hle := (copy_bytes_for_le ss g.is_first_iv g.bi_size g.total_copied).2
        have hd : memcpy g.dbuffer g.out_pos S2 g.in_pos
            (copy_bytes_for ss g.is_first_iv g.bi_size g.total_copied) =
            memcpy g.dbuffer g.out_pos S g.in_pos
            (copy_bytes_for ss g.is_first_iv g.bi_size g.total_copied) := by
          funext i
          unfold memcpy
          split
          · apply hS
            split at hle <;> omega
          · rfl
        rw [gather_step_eq, gather_step_eq, hd]
      rw [hstep]
      exact ih _ _ h hS


/-- With enough fuel the gather loop ends. -/
theorem gather_loop_total (ss : Nat) (S : Buf) :
    ∀ (fuel : Nat) (g : GatherState), g.bi_size < fuel → g.total_copied < ss →
      ∃ r, gather_loop ss S fuel g = some r := by
  intro fuel
  induction fuel with
  | zero => intro g h; omega
  | succ fuel ih =>
    intro g hf ht
    simp only [gather_loop]
    split
    · exact ⟨g, rfl⟩
    · next hne =>
      have hpos := copy_bytes_for_pos ss g.is_first_iv g.bi_size g.total_copied (by omega) ht
      have htot := copy_bytes_for_total ss g.is_first_iv g.bi_size g.total_copied ht
      apply ih
      · rw [gather_step_bi_size]; omega
      · rw [gather_step_total]; split <;> omega

/-- What a hidden write that returns hands on: the slots are those of the splice
loop run on the map the write started from. -/
theorem hidden_write_slots (m : Idr) (fl : FreeState) (L : Nat) (P clone : Buf)
    (w : HiddenWrite) (hw : hidden_write m fl L P clone = some w) :
    ∃ s, kcryptd_crypt_write_convert_splice m 512 L P 512 clone = some s ∧
      w.slots = s.dbuffer := by
  unfold hidden_write at hw
  cases hsp : kcryptd_crypt_write_convert_splice m 512 L P 512 clone with
  | none => rw [hsp] at hw; simp at hw
  | some sp =>
    rw [hsp] at hw
    simp only at hw
    cases hc : kcryptd_io_read_carriers m L fl with
    | none => rw [hc] at hw; simp at hw
    | some c =>
      obtain ⟨ret, start, fl1⟩ := c
      rw [hc] at hw
      simp only at hw
      split at hw
      · cases hw; exact ⟨sp, rfl, rfl⟩
      · cases hw; exact ⟨sp, rfl, rfl⟩

/-- The slots a hidden read takes from the disk right after a hidden write to the
same carriers are the slots that write built. -/
theorem hidden_write_disk_slots (disk : Nat → Buf) (w : HiddenWrite) (he : w.error = false)
    (i : Nat) (hi : i < NUM_PUBLIC_SECTORS_PER_HIDDEN_SECTOR * IV_SIZE) :
    hidden_write_disk disk w (w.start + i / IV_SIZE) (i % IV_SIZE) = w.slots i := by
  unfold hidden_write_disk
  have h16 : IV_SIZE = 16 := rfl
  have h52 : NUM_PUBLIC_SECTORS_PER_HIDDEN_SECTOR = 52 := rfl
  rw [h16, h52] at *
  have hi2 : i < 52 * 16 := hi
  have hd : i / 16 < 52 := by omega
  rw [if_pos ⟨he, by omega, by omega⟩]
  show w.slots (16 * (w.start + i / 16 - w.start) + i % 16 % 16) = w.slots i
  congr 1
  omega

set_option maxRecDepth 20000 in
/-- C16 (as stated, refuted): the map holds logical sector 100 with carriers from
sector 5200 and sequence number 3; a hidden write of logical sector 200 then takes
the same carriers from the free list, so that their head IV slot carries logical
sector 200 and sequence number 1. The hidden read of sector 100 completes without
an error and hands back the 512 bytes `0x42` written for sector 200. -/
theorem hidden_read_returns_stale_data :
    ((addto_freelist_all (List.range' 5200 52) FreeState.init).bind (fun fl =>
      (hidden_write (fun _ => none) fl 200 (fun _ => 0x42) (fun _ => 0)).bind (fun w =>
        (hidden_read (sample_map 100 5200 3) (hidden_write_disk (fun _ _ => 0) w) 100
            (fun _ => 0)).map (fun r =>
          ((w.error, w.start, le_load w.slots HIDDEN_BYTES_IN_FIRST_IV SECTOR_NUM_LEN,
            le_load w.slots (HIDDEN_BYTES_IN_FIRST_IV + SECTOR_NUM_LEN) SEQUENCE_NUMBER_LEN),
           map_find (sample_map 100 5200 3) 100 0 false,
           (r.error, r.start, (List.range 512).all (fun i => r.data i == 0x42))))))) =
      some ((false, 5200, 200, 1), ⟨5200, 3, false⟩, (false, 5200, true)) := by
  decide

/-- C16 (amended): a hidden read of a logical sector `L` validates nothing. For
every map and disk it completes without an error; and when the carriers it reads
are those a hidden write has just filled, for whatever logical sector `L2` and
under whatever map `m2` (so whatever logical sector and sequence number their head
IV slot carries), it returns the 512 bytes of that write. -/
theorem hidden_read_no_validation (m : Idr) (disk : Nat → Buf) (L : Nat) (base : Buf) :
    (∃ r, hidden_read m disk L base = some r ∧ r.error = false) ∧
    ∀ (m2 : Idr) (fl : FreeState) (L2 : Nat) (P clone : Buf) (w : HiddenWrite),
      hidden_write m2 fl L2 P clone = some w → w.error = false →
      kcryptd_io_read_mapped m L = w.start →
      ∃ r, hidden_read m (hidden_write_disk disk w) L base = some r ∧ r.error = false ∧
        ∀ i < 512, r.data i = P i := by
  constructor
  · obtain ⟨r, hr⟩ := gather_loop_total 512
      (fun i => disk (kcryptd_io_read_mapped m L + i / IV_SIZE) (i % IV_SIZE)) (512 + 1)
      { in_pos := 0, out_pos := 0, bi_size := 512, is_first_iv := true,
        total_copied := 0, dbuffer := base } (by simp) (by simp)
    refine ⟨{ error := false, start := kcryptd_io_read_mapped m L, data := r.dbuffer }, ?_, rfl⟩
    unfold hidden_read kcryptd_crypt_read_convert_gather
    simp only [hr]
  · intro m2 fl L2 P clone w hw he hst
    obtain ⟨s, hs, hsl⟩ := hidden_write_slots m2 fl L2 P clone w hw
    obtain ⟨s2, r, hs2, hr, hin, hP⟩ :=
      roundtrip_general m2 512 512 513 513 (L2 % 2 ^ 32) P clone base (by omega) (by omega)
        (by omega)
    have hs3 : s2 = s := Option.some.inj (hs2.symm.trans hs)
    rw [hs3] at hr hin
    have hout := splice_512_out_pos m2 (L2 % 2 ^ 32) P clone s hs
    have hcongr := gather_loop_congr 512 s.dbuffer
      (fun i => hidden_write_disk disk w (kcryptd_io_read_mapped m L + i / IV_SIZE)
        (i % IV_SIZE)) 513 _ r hr
      (by
        intro i hi
        rw [hin, hout] at hi
        show hidden_write_disk disk w (kcryptd_io_read_mapped m L + i / IV_SIZE)
          (i % IV_SIZE) = s.dbuffer i
        rw [hst, hidden_write_disk_slots disk w he i hi, hsl])
    refine ⟨{ error := false, start := kcryptd_io_read_mapped m L, data := r.dbuffer },
      ?_, rfl, hP⟩
    unfold hidden_read kcryptd_crypt_read_convert_gather
    simp only [hcongr]

set_option maxRecDepth 20000 in
theorem hidden_read_no_validation_witness :
    ∃ fl w, addto_freelist_all (List.range' 5200 52) FreeState.init = some fl ∧
      hidden_write (fun _ => none) fl 200 (fun _ => 0x42) (fun _ => 0) = some w ∧
      w.error = false ∧ kcryptd_io_read_mapped (sample_map 100 5200 3) 100 = w.start ∧
      ∃ r, hidden_read (sample_map 100 5200 3) (hidden_write_disk (fun _ _ => 0) w) 100
          (fun _ => 0) = some r ∧ r.error = false ∧ ∀ i < 512, r.data i = (fun _ => 0x42) i := by
  have hs : ((addto_freelist_all (List.range' 5200 52) FreeState.init).bind (fun fl =>
      (hidden_write (fun _ => none) fl 200 (fun _ => 0x42) (fun _ => 0)).map (fun w =>
        (w.error, w.start)))) = some (false, 5200) := by decide
  cases hfl : addto_freelist_all (List.range' 5200 52) FreeState.init with
  | none => rw [hfl] at hs; simp at hs
  | some fl =>
    rw [hfl] at hs
    simp only [Option.some_bind] at hs
    cases hw : hidden_write (fun _ => none) fl 200 (fun _ => 0x42) (fun _ => 0) with
    | none => rw [hw] at hs; simp at hs
    | some w =>
      rw [hw] at hs
      simp only [Option.map_some', Option.some.injEq, Prod.mk.injEq] at hs
      have hst : kcryptd_io_read_mapped (sample_map 100 5200 3) 100 = w.start := by
        rw [hs.2]; decide
      exact ⟨fl, w, rfl, hw, hs.1, hst,
        (hidden_read_no_validation (sample_map 100 5200 3) (fun _ _ => 0) 100 (fun _ => 0)).2
          (fun _ => none) fl 200 (fun _ => 0x42) (fun _ => 0) w hw hs.1 hst⟩

/-! ## Recovery scan after hidden writes -/

theorem le_load_le_bytes4 (d : Buf) (o x : Nat) (hx : x < 2 ^ 32)
    (h : ∀ j < 4, d (o + j) = le_bytes x j) : le_load d o 4 = x := by
  have h0 := h 0 (by omega)
  have h1 := h 1 (by omega)
  have h2 := h 2 (by omega)
  have h3 := h 3 (by omega)
  simp only [Nat.add_zero] at h0
  simp only [le_load, h0, h1, h2, h3, Nat.add_assoc, le_bytes]
  norm_num at hx ⊢
  omega

/-- The metadata bytes of a head IV slot. -/
theorem stamp_iv_head_meta (d : Buf) (o sn sq off : Nat) (hsn : sn < 2 ^ 32) :
    le_load (stamp_iv d o true sn sq off) (o + 6) 4 = sn ∧
    stamp_iv d o true sn sq off (o + 12) = off % 256 ∧
    stamp_iv d o true sn sq off (o + 13) = 0 ∧
    stamp_iv d o true sn sq off (o + 14) = 0 ∧
    stamp_iv d o true sn sq off (o + 15) = 0xAA := by
  refine ⟨?_, ?_, ?_, ?_, ?_⟩
  · apply le_load_le_bytes4 _ _ _ hsn
    intro j hj
    unfold stamp_iv
    simp only [hb_first, SECTOR_NUM_LEN, SEQUENCE_NUMBER_LEN, IV_OFFSET_LEN,
      RANDOM_BYTES_PER_TAG, if_true]
    rw [poke_other _ _ _ _ (by omega), memset_outside _ _ _ _ _ (by omega),
      poke_other _ _ _ _ (by omega), memcpy_outside _ _ _ _ _ _ (by omega),
      memcpy_inside _ _ _ _ _ _ hj]
    simp
  all_goals
    unfold stamp_iv
    simp [hb_first, SECTOR_NUM_LEN, SEQUENCE_NUMBER_LEN, IV_OFFSET_LEN,
      RANDOM_BYTES_PER_TAG, PD_MAGIC_DATA, poke, memset, memcpy]

/-- The metadata bytes of a tail IV slot. -/
theorem stamp_iv_tail_meta (d : Buf) (o sn sq off : Nat) :
    stamp_iv d o false sn sq off (o + 12) = off % 256 ∧
    stamp_iv d o false sn sq off (o + 13) = 0 ∧
    stamp_iv d o false sn sq off (o + 14) = 0 ∧
    stamp_iv d o false sn sq off (o + 15) = 0xAA := by
  refine ⟨?_, ?_, ?_, ?_⟩
  all_goals
    unfold stamp_iv
    simp [hb_rest, SECTOR_NUM_LEN, SEQUENCE_NUMBER_LEN, IV_OFFSET_LEN,
      RANDOM_BYTES_PER_TAG, PD_MAGIC_DATA, poke, memset, memcpy]


theorem copy_bytes_for_vals :
    copy_bytes_for 512 true 512 0 = 6 ∧ copy_bytes_for 512 false 506 6 = 10 ∧
    copy_bytes_for 512 false 496 16 = 10 := by decide

/-- The first three IV slots the splice loop builds for a 512-byte sector: a head
slot with the logical sector, the sequence number, `iv_offset` 0, a zero
`public_counter` and the magic byte, and two tail slots with `iv_offset` 1 and 2. -/
theorem splice_first_slots (m : Idr) (L : Nat) (P clone : Buf) (w : SpliceState)
    (hw : kcryptd_crypt_write_convert_splice m 512 L P 512 clone = some w) :
    le_load w.dbuffer 6 4 = L % 2 ^ 32 ∧
    w.dbuffer 12 = 0 ∧ w.dbuffer 15 = 0xAA ∧
    w.dbuffer 28 = 1 ∧ w.dbuffer 29 = 0 ∧ w.dbuffer 30 = 0 ∧ w.dbuffer 31 = 0xAA ∧
    w.dbuffer 44 = 2 ∧ w.dbuffer 45 = 0 ∧ w.dbuffer 47 = 0xAA := by
  obtain ⟨c1, c2, c3⟩ := copy_bytes_for_vals
  unfold kcryptd_crypt_write_convert_splice at hw
  -- three passes through the loop body
  have e1 : splice_step m 512 P
      { in_pos := 0, bi_size := 512, out_pos := 0, sector_num := L % 2 ^ 32,
        is_first_iv := true, iv_offset := 0, total_copied := 0, dbuffer := clone } =
      { in_pos := 6, bi_size := 506, out_pos := 16, sector_num := L % 2 ^ 32,
        is_first_iv := false, iv_offset := 1, total_copied := 6,
        dbuffer := stamp_iv (memcpy clone 0 P 0 6) 0 true (L % 2 ^ 32)
          (write_sequence_number m (L % 2 ^ 32)) 0 } := by
    rw [splice_step_eq]
    simp only [c1]
    rfl
  have e2 : ∀ d, splice_step m 512 P
      { in_pos := 6, bi_size := 506, out_pos := 16, sector_num := L % 2 ^ 32,
        is_first_iv := false, iv_offset := 1, total_copied := 6, dbuffer := d } =
      { in_pos := 16, bi_size := 496, out_pos := 32, sector_num := L % 2 ^ 32,
        is_first_iv := false, iv_offset := 2, total_copied := 16,
        dbuffer := stamp_iv (memcpy d 16 P 6 10) 16 false (L % 2 ^ 32)
          (write_sequence_number m (L % 2 ^ 32)) 1 } := by
    intro d
    rw [splice_step_eq]
    simp only [c2]
    rfl
  have e3 : ∀ d, splice_step m 512 P
      { in_pos := 16, bi_size := 496, out_pos := 32, sector_num := L % 2 ^ 32,
        is_first_iv := false, iv_offset := 2, total_copied := 16, dbuffer := d } =
      { in_pos := 26, bi_size := 486, out_pos := 48, sector_num := L % 2 ^ 32,
        is_first_iv := false, iv_offset := 3, total_copied := 26,
        dbuffer := stamp_iv (memcpy d 32 P 16 10) 32 false (L % 2 ^ 32)
          (write_sequence_number m (L % 2 ^ 32)) 2 } := by
    intro d
    rw [splice_step_eq]
    simp only [c3]
    rfl
  have hunroll : ∀ (f : Nat) (s : SpliceState), s.bi_size ≠ 0 →
      splice_loop m 512 P (f + 1) s = splice_loop m 512 P f (splice_step m 512 P s) := by
    intro f s hs
    rw [splice_loop]
    simp [hs]
  rw [hunroll 512 _ (by simp), e1, hunroll 511 _ (by simp), e2, hunroll 510 _ (by simp), e3] at hw
  have hf := splice_loop_frame m 512 P 510 _ w hw
  simp only at hf
  obtain ⟨a1, a2, _, _, a5⟩ := stamp_iv_head_meta (memcpy clone 0 P 0 6) 0 (L % 2 ^ 32)
    (write_sequence_number m (L % 2 ^ 32)) 0 (Nat.mod_lt _ (by norm_num))
  obtain ⟨b2, b3, b4, b5⟩ := stamp_iv_tail_meta
    (memcpy (stamp_iv (memcpy clone 0 P 0 6) 0 true (L % 2 ^ 32)
      (write_sequence_number m (L % 2 ^ 32)) 0) 16 P 6 10) 16 (L % 2 ^ 32)
    (write_sequence_number m (L % 2 ^ 32)) 1
  obtain ⟨d2, d3, _, d5⟩ := stamp_iv_tail_meta
    (memcpy (stamp_iv (memcpy (stamp_iv (memcpy clone 0 P 0 6) 0 true (L % 2 ^ 32)
      (write_sequence_number m (L % 2 ^ 32)) 0) 16 P 6 10) 16 false (L % 2 ^ 32)
      (write_sequence_number m (L % 2 ^ 32)) 1) 32 P 16 10) 32 (L % 2 ^ 32)
    (write_sequence_number m (L % 2 ^ 32)) 2
  -- bytes below 16 and below 32 are those of the first and second pass
  have low2 : ∀ i, i < 32 → w.dbuffer i =
      stamp_iv (memcpy (stamp_iv (memcpy clone 0 P 0 6) 0 true (L % 2 ^ 32)
        (write_sequence_number m (L % 2 ^ 32)) 0) 16 P 6 10) 16 false (L % 2 ^ 32)
        (write_sequence_number m (L % 2 ^ 32)) 1 i := by
    intro i hi
    rw [hf i (by omega), stamp_iv_low _ _ _ _ _ _ _ (by simp; omega),
      memcpy_outside _ _ _ _ _ _ (Or.inl hi)]
  have low1 : ∀ i, i < 16 → w.dbuffer i =
      stamp_iv (memcpy clone 0 P 0 6) 0 true (L % 2 ^ 32)
        (write_sequence_number m (L % 2 ^ 32)) 0 i := by
    intro i hi
    rw [low2 i (by omega), stamp_iv_low _ _ _ _ _ _ _ (by simp; omega),
      memcpy_outside _ _ _ _ _ _ (Or.inl hi)]
  refine ⟨?_, ?_, ?_, ?_, ?_, ?_, ?_, ?_, ?_, ?_⟩
  · rw [← a1]
    simp only [le_load]
    rw [low1 6 (by omega), low1 7 (by omega), low1 8 (by omega), low1 9 (by omega)]
  · rw [low1 12 (by omega)]; exact a2
  · rw [low1 15 (by omega)]; exact a5
  · rw [low2 28 (by omega)]; exact b2
  · rw [low2 29 (by omega)]; exact b3
  · rw [low2 30 (by omega)]; exact b4
  · rw [low2 31 (by omega)]; exact b5
  · rw [hf 44 (by omega)]; exact d2
  · rw [hf 45 (by omega)]; exact d3
  · rw [hf 47 (by omega)]; exact d5


/-- The scan accepts a chain whose first three slots are in order. -/
theorem map_common_probe_chain (disk : Nat → Buf) (j : Nat) (hj : 52 * j + 51 < 2 ^ 32)
    (hc : ChainAt disk j) :
    map_common_probe disk (52 * j) = (some ⟨j, 1, 52 * j⟩, 52) := by
  obtain ⟨h1, h2, h3, h4, h5, h6, h7, h8, h9, h10, h11⟩ := hc
  have e1 : (52 * j + 1) % 2 ^ 64 = 52 * j + 1 := Nat.mod_eq_of_lt (by omega)
  have e2 : 52 * j % 2 ^ 32 = 52 * j := Nat.mod_eq_of_lt (by omega)
  unfold map_common_probe sanity_fails
  simp only [PD_MAGIC_DATA_POS, IV_OFFSET_POS, RANDOM_BYTES_POS, IV_SIZE, PD_MAGIC_DATA_LEN,
    RANDOM_BYTES_PER_TAG, IV_OFFSET_LEN, PD_MAGIC_DATA, HIDDEN_BYTES_IN_FIRST_IV,
    SEQUENCE_NUMBER_LEN, SECTOR_NUM_LEN, NUM_PUBLIC_SECTORS_PER_HIDDEN_SECTOR, e1, e2]
  norm_num
  simp [h1, h2, h3, h4, h5, h6, h7, h8, h9, h10, h11]

/-- The scan passes over a slot without the magic byte. -/
theorem map_common_probe_blank (disk : Nat → Buf) (s : Nat) (hb : disk s 15 = 0) :
    map_common_probe disk s = (none, 52) := by
  unfold map_common_probe
  simp [PD_MAGIC_DATA_POS, IV_SIZE, PD_MAGIC_DATA_LEN, PD_MAGIC_DATA, hb,
    NUM_PUBLIC_SECTORS_PER_HIDDEN_SECTOR]


/-- The scan over a disk on which the chains of the logical sectors in `W` sit at
their carriers `52 * k ..` and every other slot at a multiple of 52 is blank: started
at sector `52 * j` on a map that records the chains below `j`, it ends with a map
that records exactly the chains of `W`, each without the reuse bit. -/
theorem map_common_loop_chains (disk : Nat → Buf) (W : List Nat) (max : Nat)
    (hmax : max < 2 ^ 32) (hW : ∀ k ∈ W, 52 * k + 51 < max ∧ ChainAt disk k)
    (hblank : ∀ j, j ∉ W → disk (52 * j) 15 = 0) :
    ∀ (fuel j : Nat) (m : Idr), max - 52 * j < fuel →
      (∀ k, m k = if k ∈ W ∧ k < j then some (2 ^ 32 * 1 + 52 * k) else none) →
      ∃ R, map_common_loop disk max fuel (52 * j) m = some R ∧
        ∀ k, R k = if k ∈ W then some (2 ^ 32 * 1 + 52 * k) else none := by
  intro fuel
  induction fuel with
  | zero => intro j m hf; omega
  | succ fuel ih =>
    intro j m hf hm
    simp only [map_common_loop]
    by_cases hcur : 52 * j < max
    · rw [if_pos hcur]
      have hnext : ∀ p : Option ScanHit × Nat, p.2 = 52 →
          (52 * j + p.2) % 2 ^ 64 = 52 * (j + 1) := by
        intro p hp
        rw [hp, Nat.mod_eq_of_lt (by omega)]
        omega
      by_cases hj : j ∈ W
      · have hp := map_common_probe_chain disk j (by have := (hW j hj).1; omega) (hW j hj).2
        rw [hp]
        simp only
        rw [hnext (some ⟨j, 1, 52 * j⟩, 52) rfl]
        apply ih (j + 1) _ (by omega)
        intro k
        have hmj : m j = none := by rw [hm j]; simp
        have hfind : map_find m j 0 false =
            { ret := -1, seq_num := 0, reuse_physical_sector := false } := by
          rw [map_find_eq]
          simp [idr_find, hmj]
        have hins := map_insert_some_eq m j (52 * j) 1 false (by have := (hW j hj).1; omega)
        rw [if_neg (by have := (hW j hj).1; omega), if_neg (by rw [hmj]; simp)] at hins
        have e2 : 52 * j % 2 ^ 32 = 52 * j :=
          Nat.mod_eq_of_lt (by have := (hW j hj).1; omega)
        unfold map_common_upsert
        simp only [hfind, ne_eq, not_true_eq_false, if_false, hins]
        by_cases hk : k = j
        · subst hk
          have hlt : 52 * k < 4294967296 := by have := (hW k hj).1; omega
          simp [hj, e2, hlt]
        · simp only [hk, if_false]
          rw [hm k]
          have : (k ∈ W ∧ k < j + 1) ↔ (k ∈ W ∧ k < j) := by
            constructor
            · rintro ⟨a, b⟩; exact ⟨a, by omega⟩
            · rintro ⟨a, b⟩; exact ⟨a, by omega⟩
          simp only [this]
      · have hp := map_common_probe_blank disk (52 * j) (hblank j hj)
        rw [hp]
        simp only
        rw [hnext (none, 52) rfl]
        apply ih (j + 1) _ (by omega)
        intro k
        rw [hm k]
        have : (k ∈ W ∧ k < j + 1) ↔ (k ∈ W ∧ k < j) := by
          constructor
          · rintro ⟨a, b⟩
            refine ⟨a, ?_⟩
            by_contra hlt
            have : k = j := by omega
            exact hj (this ▸ a)
          · rintro ⟨a, b⟩; exact ⟨a, by omega⟩
        simp only [this]
    · rw [if_neg hcur]
      refine ⟨m, rfl, ?_⟩
      intro k
      rw [hm k]
      by_cases hk : k ∈ W
      · have := (hW k hk).1
        simp only [hk, true_and, if_true]
        rw [if_pos (by omega)]
      · simp [hk]


theorem le_load_congr (b b2 : Buf) : ∀ (n off : Nat),
    (∀ i, off ≤ i → i < off + n → b i = b2 i) → le_load b off n = le_load b2 off n := by
  intro n
  induction n with
  | zero => intro off _; rfl
  | succ n ih =>
    intro off h
    simp only [le_load]
    rw [h off (Nat.le_refl _) (by omega), ih (off + 1) (fun i h1 h2 => h i (by omega) (by omega))]

theorem hidden_write_disk_at (disk : Nat → Buf) (w : HiddenWrite) (he : w.error = false)
    (t i : Nat) (ht : t < 52) (hi : i < 16) :
    hidden_write_disk disk w (w.start + t) i = w.slots (16 * t + i) := by
  unfold hidden_write_disk
  rw [if_pos ⟨he, by omega, by show w.start + t < w.start + 52; omega⟩]
  show w.slots (16 * (w.start + t - w.start) + i % 16) = _
  rw [Nat.add_sub_cancel_left, Nat.mod_eq_of_lt hi]

theorem hidden_write_disk_other (disk : Nat → Buf) (w : HiddenWrite) (s : Nat)
    (h : s < w.start ∨ w.start + 52 ≤ s) : hidden_write_disk disk w s = disk s := by
  unfold hidden_write_disk
  rw [if_neg]
  rintro ⟨_, h1, h2⟩
  have h3 : s < w.start + 52 := h2
  omega

/-- The disk after the first hidden write to `L` on an empty free list holds the
chain of `L` at the carriers `52 * L ..`, with sequence number 1. -/
theorem hidden_write_first_chain (m : Idr) (L : Nat) (P clone : Buf) (disk : Nat → Buf)
    (w : HiddenWrite) (s : SpliceState) (hL : 52 * L + 51 < 2 ^ 32) (hm : m L = none)
    (hs : kcryptd_crypt_write_convert_splice m 512 L P 512 clone = some s)
    (hsl : w.slots = s.dbuffer) (he : w.error = false) (hst : w.start = 52 * L) :
    ChainAt (hidden_write_disk disk w) L := by
  have hLm : L % 2 ^ 32 = L := Nat.mod_eq_of_lt (by omega)
  obtain ⟨a1, a2, a3, a4, a5, a6, a7, a8, a9, a10⟩ := splice_first_slots m L P clone s hs
  have hseq := splice_head_sequence m L P clone s hs
  have hone : write_sequence_number m (L % 2 ^ 32) = 1 := by
    unfold write_sequence_number
    rw [map_find_eq, hLm]
    simp [idr_find, hm]
  have d0 : ∀ i, i < 16 → hidden_write_disk disk w (52 * L) i = s.dbuffer i := by
    intro i hi
    have := hidden_write_disk_at disk w he 0 i (by omega) hi
    rw [hst, Nat.add_zero, Nat.mul_zero, Nat.zero_add] at this
    rw [this, hsl]
  have d1 : ∀ i, i < 16 → hidden_write_disk disk w (52 * L + 1) i = s.dbuffer (16 + i) := by
    intro i hi
    have := hidden_write_disk_at disk w he 1 i (by omega) hi
    rw [hst] at this
    rw [this, hsl]
  have d2 : ∀ i, i < 16 → hidden_write_disk disk w (52 * L + 2) i = s.dbuffer (32 + i) := by
    intro i hi
    have := hidden_write_disk_at disk w he 2 i (by omega) hi
    rw [hst] at this
    rw [this, hsl]
  refine ⟨?_, ?_, ?_, ?_, ?_, ?_, ?_, ?_, ?_, ?_, ?_⟩
  · rw [d0 15 (by omega)]; exact a3
  · rw [d0 12 (by omega)]; exact a2
  · rw [le_load_congr _ s.dbuffer 4 6 (fun i h1 h2 => d0 i (by omega)), a1, hLm]
  · rw [le_load_congr _ s.dbuffer 2 10 (fun i h1 h2 => d0 i (by omega))]
    exact hseq.trans hone
  · rw [d1 15 (by omega)]; exact a7
  · rw [d1 12 (by omega)]; exact a4
  · rw [d1 13 (by omega)]; exact a5
  · rw [d1 14 (by omega)]; exact a6
  · rw [d2 15 (by omega)]; exact a10
  · rw [d2 12 (by omega)]; exact a8
  · rw [d2 13 (by omega)]; exact a9

theorem chainAt_congr (disk disk2 : Nat → Buf) (j : Nat)
    (h : ∀ t, t < 3 → disk2 (52 * j + t) = disk (52 * j + t)) (hc : ChainAt disk j) :
    ChainAt disk2 j := by
  have h0 := h 0 (by omega)
  have h1 := h 1 (by omega)
  have h2 := h 2 (by omega)
  rw [Nat.add_zero] at h0
  unfold ChainAt at hc ⊢
  rw [h0, h1, h2]
  exact hc

/-- One hidden write to a logical sector `L` that is not among the sectors `W`
written so far, on an empty free list: it succeeds, the map gains the entry of `L`,
the disk gains the chain of `L` and keeps the chains of `W`, and the free list is
empty again. -/
theorem hidden_writes_step (clone : Buf) (L : Nat) (P : Buf) (W : List Nat) (M : Idr)
    (fl : FreeState) (disk : Nat → Buf) (hLW : L ∉ W) (hL : 52 * L + 51 < 2 ^ 32)
    (hM : ∀ k, M k = if k ∈ W then some (2 ^ 48 + (2 ^ 32 * 1 + 52 * k)) else none)
    (hwf : fl.WF) (hs : fl.sectors = []) (ht : fl.total_freelist = 0)
    (hc : ∀ k ∈ W, ChainAt disk k) (hb : ∀ j, j ∉ W → disk (52 * j) 15 = 0) :
    ∃ w, hidden_write M fl L P clone = some w ∧
      (∀ k, w.map_idr k = if k ∈ W ++ [L] then some (2 ^ 48 + (2 ^ 32 * 1 + 52 * k))
        else none) ∧
      w.fl.WF ∧ w.fl.sectors = [] ∧ w.fl.total_freelist = 0 ∧
      (∀ k ∈ W ++ [L], ChainAt (hidden_write_disk disk w) k) ∧
      (∀ j, j ∉ W ++ [L] → hidden_write_disk disk w (52 * j) 15 = 0) := by
  have hmL : M L = none := by rw [hM L, if_neg hLW]
  obtain ⟨w, h1, h2, h3, h4, h5, h6, h7, h8, sp, hsp, hsl⟩ :=
    hidden_write_first M fl L P clone hL hwf hs ht hmL
  have hchain := hidden_write_first_chain M L P clone disk w sp hL hmL hsp hsl h2 h3
  refine ⟨w, h1, ?_, h6, h7, h8, ?_, ?_⟩
  · intro k
    rw [h5]
    show (if k = L then some (2 ^ 48 + (2 ^ 32 * 1 + 52 * L)) else M k) = _
    by_cases hkL : k = L
    · rw [if_pos hkL, if_pos (by rw [hkL]; exact List.mem_append_right _ (List.mem_singleton_self _)),
        hkL]
    · rw [if_neg hkL, hM k]
      by_cases hkW : k ∈ W
      · rw [if_pos hkW, if_pos (List.mem_append_left _ hkW)]
      · rw [if_neg hkW, if_neg]
        intro hmem
        rcases List.mem_append.mp hmem with h | h
        · exact hkW h
        · exact hkL (List.mem_singleton.mp h)
  · intro k hk2
    rcases List.mem_append.mp hk2 with h | h
    · apply chainAt_congr disk _ k _ (hc k h)
      intro t ht
      apply hidden_write_disk_other
      rw [h3]
      have hne : k ≠ L := fun e => hLW (e ▸ h)
      omega
    · rw [List.mem_singleton.mp h]
      exact hchain
  · intro j hj
    have hjW : j ∉ W := fun h => hj (List.mem_append_left _ h)
    have hjL : j ≠ L := fun e => hj (by rw [e]; exact List.mem_append_right _ (List.mem_singleton_self _))
    rw [hidden_write_disk_other disk w (52 * j) (by rw [h3]; omega)]
    exact hb j hjW

theorem hidden_writes_cons (clone : Buf) (L : Nat) (P : Buf) (rest : List (Nat × Buf))
    (M : Idr) (fl : FreeState) (disk : Nat → Buf) :
    hidden_writes clone ((L, P) :: rest) M fl disk =
      (hidden_write M fl L P clone).bind
        (fun w => hidden_writes clone rest w.map_idr w.fl (hidden_write_disk disk w)) := by
  rw [hidden_writes]

/-- Hidden writes to pairwise new logical sectors, each on an empty free list: every
write succeeds and takes the carriers `52 * L ..`; afterwards the map holds each
written sector with its carriers, sequence number 1 and the reuse bit, and the disk
holds its chain. -/
theorem hidden_writes_distinct (clone : Buf) :
    ∀ (reqs : List (Nat × Buf)) (W : List Nat) (M : Idr) (fl : FreeState) (disk : Nat → Buf),
      (reqs.map Prod.fst).Nodup →
      (∀ L ∈ reqs.map Prod.fst, L ∉ W ∧ 52 * L + 51 < 2 ^ 32) →
      (∀ k, M k = if k ∈ W then some (2 ^ 48 + (2 ^ 32 * 1 + 52 * k)) else none) →
      fl.WF → fl.sectors = [] → fl.total_freelist = 0 →
      (∀ k ∈ W, ChainAt disk k) → (∀ j, j ∉ W → disk (52 * j) 15 = 0) →
      ∃ M2 fl2 disk2, hidden_writes clone reqs M fl disk = some (M2, fl2, disk2) ∧
        (∀ k, M2 k = if k ∈ W ++ reqs.map Prod.fst then
            some (2 ^ 48 + (2 ^ 32 * 1 + 52 * k)) else none) ∧
        (∀ k ∈ W ++ reqs.map Prod.fst, ChainAt disk2 k) ∧
        (∀ j, j ∉ W ++ reqs.map Prod.fst → disk2 (52 * j) 15 = 0) := by
  intro reqs
  induction reqs with
  | nil =>
    intro W M fl disk _ _ hM _ _ _ hc hb
    refine ⟨M, fl, disk, rfl, ?_, ?_, ?_⟩
    · intro k; rw [List.map_nil, List.append_nil]; exact hM k
    · intro k hk; rw [List.map_nil, List.append_nil] at hk; exact hc k hk
    · intro j hj; rw [List.map_nil, List.append_nil] at hj; exact hb j hj
  | cons rq rest ih =>
    obtain ⟨L, P⟩ := rq
    intro W M fl disk hnd hk hM hwf hs ht hc hb
    rw [List.map_cons, List.nodup_cons] at hnd
    have hLW := (hk L (List.mem_cons_self _ _)).1
    have hL := (hk L (List.mem_cons_self _ _)).2
    obtain ⟨w, h1, h2, h3, h4, h5, h6, h7⟩ :=
      hidden_writes_step clone L P W M fl disk hLW hL hM hwf hs ht hc hb
    have hassoc : W ++ [L] ++ rest.map Prod.fst = W ++ ((L, P) :: rest).map Prod.fst := by
      rw [List.append_assoc]; rfl
    obtain ⟨M2, fl2, disk2, g1, g2, g3, g4⟩ := ih (W ++ [L]) w.map_idr w.fl
      (hidden_write_disk disk w) hnd.2
      (by
        intro k hk2
        refine ⟨?_, (hk k (List.mem_cons_of_mem _ hk2)).2⟩
        intro hmem
        rcases List.mem_append.mp hmem with h | h
        · exact (hk k (List.mem_cons_of_mem _ hk2)).1 h
        · rw [List.mem_singleton.mp h] at hk2
          exact hnd.1 hk2)
      h2 h3 h4 h5 h6 h7
    rw [hassoc] at g2 g3 g4
    refine ⟨M2, fl2, disk2, ?_, g2, g3, g4⟩
    rw [hidden_writes_cons, h1, Option.some_bind]
    exact g1


set_option maxRecDepth 20000 in
/-- C15 (as stated, refuted): after one hidden write to logical sector 1 on a fresh
device the map holds key 1 with carriers from sector 52, sequence number 1 and the
reuse bit set; the recovery scan over the IV slots that write left on disk, run from
an empty map, gives key 1 the same sector and sequence number but no reuse bit. -/
theorem recovery_clears_reuse_flag :
    ((hidden_write (fun _ => none) FreeState.init 1 (fun _ => 0x42) (fun _ => 0)).bind (fun w =>
      (map_common (hidden_write_disk (fun _ _ => 0) w) (fun _ => none) 0 104).map (fun m2 =>
        ((w.error, w.map_ret), map_find w.map_idr 1 0 false, map_find m2 1 0 false)))) =
      some ((false, 0), ⟨52, 1, true⟩, ⟨52, 1, false⟩) := by
  decide

/-- C15 (amended): for hidden writes to pairwise distinct logical sectors on a fresh
device (empty map, empty free list, blank IV slots), all with their carriers
`52 * L .. 52 * L + 51` below `end`, every write succeeds, and the recovery scan run
from an empty map over the sectors `0 .. end` of the disk the writes left returns a
map in which every key has the same physical sector and the same sequence number as
in the map `M` the writes produced, and the reuse flag cleared; in `M` every written
sector has its first carrier, sequence number 1 and the reuse flag set. -/
theorem recovery_after_distinct_writes (clone : Buf) (reqs : List (Nat × Buf)) (end_ : Nat)
    (hnd : (reqs.map Prod.fst).Nodup) (hk : ∀ L ∈ reqs.map Prod.fst, 52 * L + 51 < end_)
    (hend : end_ < 2 ^ 32) :
    ∃ M fl disk R,
      hidden_writes clone reqs (fun _ => none) FreeState.init (fun _ _ => 0)
        = some (M, fl, disk) ∧
      map_common disk (fun _ => none) 0 end_ = some R ∧
      ∀ k, (map_find R k 0 false).ret = (map_find M k 0 false).ret ∧
        (map_find R k 0 false).seq_num = (map_find M k 0 false).seq_num ∧
        (map_find R k 0 false).reuse_physical_sector = false ∧
        (k ∈ reqs.map Prod.fst → map_find M k 0 false =
          { ret := toInt32 (52 * k), seq_num := 1, reuse_physical_sector := true } ∧
          toInt32 (52 * k) ≠ -1) ∧
        (k ∉ reqs.map Prod.fst → (map_find M k 0 false).ret = -1) := by
  obtain ⟨M, fl, disk, h1, h2, h3, h4⟩ := hidden_writes_distinct clone reqs []
    (fun _ => none) FreeState.init (fun _ _ => 0) hnd
    (fun L hL => ⟨List.not_mem_nil _, by have := hk L hL; omega⟩)
    (fun k => by rw [if_neg (List.not_mem_nil _)]) (by decide) rfl rfl
    (fun k hk2 => absurd hk2 (List.not_mem_nil _)) (fun j _ => rfl)
  rw [List.nil_append] at h2 h3 h4
  have hmod : end_ % 2 ^ 32 = end_ := Nat.mod_eq_of_lt hend
  obtain ⟨R, g1, g2⟩ := map_common_loop_chains disk (reqs.map Prod.fst) end_ hend
    (fun k hk2 => ⟨hk k hk2, h3 k hk2⟩) h4 (end_ + 1) 0 (fun _ => none) (by omega)
    (fun k => by rw [if_neg (by omega)])
  refine ⟨M, fl, disk, R, h1, ?_, ?_⟩
  · unfold map_common
    rw [hmod]
    exact g1
  · intro k
    by_cases hkm : k ∈ reqs.map Prod.fst
    · have hlt : 52 * k < 2 ^ 32 := by have := hk k hkm; omega
      have hM : idr_find M k = 2 ^ 48 + (2 ^ 32 * 1 + 52 * k) := by
        unfold idr_find; rw [h2 k, if_pos hkm]; rfl
      have hR : idr_find R k = 2 ^ 32 * 1 + 52 * k := by
        unfold idr_find; rw [g2 k, if_pos hkm]; rfl
      obtain ⟨x1, x2, x3, x4⟩ := word_fields 1 (52 * k) (by norm_num) hlt
      obtain ⟨y2, y3, y4, y1⟩ := word_fields_gen 1 (52 * k) false (by norm_num) hlt
      simp only [Bool.false_eq_true, if_false, Nat.zero_add] at y1 y2 y3 y4
      have y1b : 2 ^ 32 * 1 + 52 * k ≠ 0 := fun h => by
        have := (y1.mp h).2.1
        omega
      have y4b : ¬ ((2 ^ 32 * 1 + 52 * k) / 2 ^ 48 % 2 = 1) := fun h => by
        have := y4.mp h
        exact this
      have eM : map_find M k 0 false =
          { ret := toInt32 (52 * k), seq_num := 1, reuse_physical_sector := true } := by
        rw [map_find_eq, hM, if_neg x1, x2, x3, decide_eq_true x4]
      have eR : map_find R k 0 false =
          { ret := toInt32 (52 * k), seq_num := 1, reuse_physical_sector := false } := by
        rw [map_find_eq, hR, if_neg y1b, y2, y3, decide_eq_false y4b]
      rw [eM, eR]
      refine ⟨rfl, rfl, rfl, fun _ => ⟨rfl, ?_⟩, fun h => absurd hkm h⟩
      rw [Ne, toInt32_eq_neg_one _ hlt]
      omega
    · have hM : idr_find M k = 0 := by
        unfold idr_find; rw [h2 k, if_neg hkm]; rfl
      have hR : idr_find R k = 0 := by
        unfold idr_find; rw [g2 k, if_neg hkm]; rfl
      have eM : map_find M k 0 false =
          { ret := -1, seq_num := 0, reuse_physical_sector := false } := by
        rw [map_find_eq, hM, if_pos rfl]
      have eR : map_find R k 0 false =
          { ret := -1, seq_num := 0, reuse_physical_sector := false } := by
        rw [map_find_eq, hR, if_pos rfl]
      rw [eM, eR]
      exact ⟨rfl, rfl, rfl, fun h => absurd h hkm, fun _ => rfl⟩

theorem recovery_after_distinct_writes_witness :
    (([(1, fun _ => 0x42), (3, fun _ => 0x55)] : List (Nat × Buf)).map Prod.fst).Nodup ∧
    (∀ L ∈ ([(1, fun _ => 0x42), (3, fun _ => 0x55)] : List (Nat × Buf)).map Prod.fst,
      52 * L + 51 < 260) ∧
    ∃ M fl disk R,
      hidden_writes (fun _ => 0) [(1, fun _ => 0x42), (3, fun _ => 0x55)] (fun _ => none)
        FreeState.init (fun _ _ => 0) = some (M, fl, disk) ∧
      map_common disk (fun _ => none) 0 260 = some R ∧
      ∀ k, (map_find R k 0 false).ret = (map_find M k 0 false).ret ∧
        (map_find R k 0 false).seq_num = (map_find M k 0 false).seq_num ∧
        (map_find R k 0 false).reuse_physical_sector = false ∧
        (k ∈ ([(1, fun _ => 0x42), (3, fun _ => 0x55)] : List (Nat × Buf)).map Prod.fst →
          map_find M k 0 false =
            { ret := toInt32 (52 * k), seq_num := 1, reuse_physical_sector := true } ∧
          toInt32 (52 * k) ≠ -1) ∧
        (k ∉ ([(1, fun _ => 0x42), (3, fun _ => 0x55)] : List (Nat × Buf)).map Prod.fst →
          (map_find M k 0 false).ret = -1) :=
  ⟨by decide, by decide,
   recovery_after_distinct_writes (fun _ => 0) [(1, fun _ => 0x42), (3, fun _ => 0x55)] 260
     (by decide) (by decide) (by norm_num)⟩

/-! ## B+ tree -/

/-- C17 (as found in the code): with `order` 16, a free list that has a run for every
node written and zeroed `kmalloc` memory, `find_value(17)` returns the inserted value
170 after the inserts of the keys 1, ..., 23 with values `10 * k`. After the insert of
key 24, which splits a leaf for the second time, the root has three children and the
`pointers_expanded` flag of the third is not set; `find_value(17)` then reads that
leaf back from the disk and returns 5312, the low 32 bits of the address of the
record of key 17 (block 19, at `0x1000 + 64 * 19`), and it returns the same 5312 when
the values inserted are `10 * k + 1`. -/
theorem find_value_after_second_split :
    ((insert_all (sample_pairs 23 0) none (BptState.sample 12)).bind
      (fun r => (find_value r.1 17 r.2).map (fun a => a.1))) = some 170 ∧
    ((insert_all (sample_pairs 24 0) none (BptState.sample 12)).bind
      (fun r => r.1.map (fun root =>
        ((r.2.nodes root).num_keys, (List.range 3).map (r.2.nodes root).pointers_expanded))))
      = some (2, [true, true, false]) ∧
    ((insert_all (sample_pairs 24 0) none (BptState.sample 12)).bind
      (fun r => (find_value r.1 17 r.2).map (fun a => a.1))) = some 5312 ∧
    ((insert_all (sample_pairs 24 1) none (BptState.sample 12)).bind
      (fun r => (find_value r.1 17 r.2).map (fun a => a.1))) = some 5312 := by
  decide!

/-- C18 (as found in the code): on the tree built by the inserts of the keys
1, ..., 24, where key 17 is in the third leaf (block 27, 8 keys), `insert(17, 999)`
allocates two blocks, a node into which `find_leaf` reads the leaf from the disk and
a new record, makes the root point to the new node instead of block 27, and inserts
key 17 a second time: the leaf that holds key 17 afterwards has 9 keys, `17, 17, 18,
..., 24`. On the tree built by the keys 1, ..., 16, whose leaves are both in memory,
`insert(5, 999)` allocates nothing and `find_value` then returns 999 for key 5 and
still 60 for key 6. -/
theorem insert_existing_key_after_second_split :
    ((insert_all (sample_pairs 24 0) none (BptState.sample 13)).bind (fun r =>
      (insert r.1 17 999 r.2).bind (fun r2 =>
        (find_leaf r2.1 17 r2.2).bind (fun l =>
          r.1.bind (fun root => l.1.map (fun leaf =>
            ((r.2.brk, (r.2.nodes root).pointers 2, (r.2.nodes 27).num_keys),
             ((r2.2.brk, (r2.2.nodes root).pointers 2, leaf),
              ((l.2.nodes leaf).num_keys, (List.range 9).map (l.2.nodes leaf).keys))))))))) =
      some ((28, some 27, 8), ((30, some 28, 28), (9, [17, 17, 18, 19, 20, 21, 22, 23, 24]))) ∧
    ((insert_all (sample_pairs 16 0) none (BptState.sample 13)).bind (fun r =>
      (insert r.1 5 999 r.2).bind (fun r2 =>
        (find_value r2.1 5 r2.2).bind (fun a =>
          (find_value r2.1 6 a.2).map (fun b => (r.2.brk, r2.2.brk, a.1, b.1)))))) =
      some (19, 19, 999, 60) := by
  decide!

/-- C19 (as found in the code): on the tree built by the inserts of the keys
10, 20, ..., 160 (two leaves, `10 .. 80` and `90 .. 160`), `find_range(85, 200)`
returns 0 and no key, although the keys 90, ..., 160 are in the tree
(`find_value(90)` returns its value 9) and in the range; `find_range(80, 200)`
returns the nine keys 80, ..., 160. -/
theorem find_range_empty_from_gap :
    ((insert_all sample_tens none (BptState.sample 3)).bind (fun r =>
      (find_range r.1 85 200 r.2).map (fun a => (a.1, a.2.1.map Prod.fst)))) = some (0, []) ∧
    ((insert_all sample_tens none (BptState.sample 3)).bind (fun r =>
      (find_value r.1 90 r.2).map (fun a => a.1))) = some 9 ∧
    ((insert_all sample_tens none (BptState.sample 3)).bind (fun r =>
      (find_range r.1 80 200 r.2).map (fun a => (a.1, a.2.1.map Prod.fst)))) =
      some (9, [80, 90, 100, 110, 120, 130, 140, 150, 160]) := by
  decide!

/-- C20 (as found in the code): after `insert(1, 10)` and `insert(2, 20)`,
`find_value(2)` returns 20; after `delete(1)`, `find_value(1)` returns -1 (as an
`unsigned`) and `find_value(2)` returns 10, the value of the deleted key. -/
theorem delete_keeps_pointers_disk :
    ((insert_all [(1, 10), (2, 20)] none (BptState.sample 0)).bind (fun r =>
      (find_value r.1 2 r.2).map (fun a => a.1))) = some 20 ∧
    ((insert_all [(1, 10), (2, 20)] none (BptState.sample 0)).bind (fun r =>
      (delete r.1 1 r.2).bind (fun d =>
        (find_value d.1 1 d.2).bind (fun a =>
          (find_value d.1 2 a.2).map (fun b => (a.1, b.1)))))) = some (2 ^ 32 - 1, 10) := by
  decide!

/-! ## Recovery scan after a rewrite -/

set_option maxRecDepth 20000 in
/-- Supporting C15: where a logical sector is written twice, the recovery scan does
not give back the map. After hidden writes to the logical sectors 1, 1 and 2 on a
fresh device, the block marked `TEST` has put the carriers of sector 1 back into the
free list, the write to sector 2 has taken them, and the map holds both keys with
carriers from sector 52; the scan finds the chain of sector 2 there and leaves key 1
without an entry. -/
theorem recovery_after_rewrite_loses_key :
    ((hidden_writes (fun _ => 0) [(1, fun _ => 0x41), (1, fun _ => 0x42), (2, fun _ => 0x43)]
        (fun _ => none) FreeState.init (fun _ _ => 0)).bind (fun r =>
      (map_common r.2.2 (fun _ => none) 0 208).map (fun m2 =>
        ((map_find r.1 1 0 false, map_find r.1 2 0 false),
         (map_find m2 1 0 false, map_find m2 2 0 false))))) =
      some ((⟨52, 1, true⟩, ⟨52, 1, true⟩), (⟨-1, 0, false⟩, ⟨52, 1, false⟩)) := by
  decide

/-! ## Disk image of a node (`initialize_disknode_from_node`, `initialize_node_from_disknode`) -/

/-- C21 (as found in the code): a tree that holds the single key 1 with value 5200
has a root leaf with `pointers_disk[0] = 5200`; written to the disk and read back,
`is_leaf`, `num_keys`, the key and `parent_disk` are the same, but `pointers_disk[0]`
is `0x1000`, the low four bytes of the machine address of the record, because the
image is filled from `pointers`. The same happens to a node written as a non-root
node. Each of the eight IV slots of the image has `0xBB` at byte 15. -/
theorem disknode_roundtrip_pointers_disk :
    ((insert none 1 5200 (BptState.sample 1)).bind (fun r =>
        r.1.bind (fun root => (disknode_roundtrip root true r.2).map (fun p =>
          (node_view 1 p.1, node_view 1 p.2)))))
      = some (⟨true, 1, [1], [5200, 0], 0⟩, ⟨true, 1, [1], [0x1000, 0], 0⟩) ∧
    ((insert none 1 5200 (BptState.sample 1)).bind (fun r =>
        r.1.bind (fun root => (disknode_roundtrip root false r.2).map (fun p =>
          (node_view 1 p.1, node_view 1 p.2)))))
      = some (⟨true, 1, [1], [5200, 0], 0⟩, ⟨true, 1, [1], [0x1000, 0], 0⟩) ∧
    ((insert none 1 5200 (BptState.sample 1)).bind (fun r =>
        r.1.map (fun root => (List.range 8).map (fun t =>
          (disknode_bytes r.2 (r.2.nodes root) true (16 * t + 15),
           disknode_bytes r.2 (r.2.nodes root) false (16 * t + 15))))))
      = some (List.replicate 8 (0xBB, 0xBB)) := by
  decide!

/-! ## The 52 IV slots of one hidden sector -/

/-- The bytes 12 .. 15 of the IV slot `stamp_iv` has stamped, head or tail. -/
theorem stamp_iv_meta (d : Buf) (o : Nat) (b : Bool) (sn sq off : Nat) :
    stamp_iv d o b sn sq off (o + 12) = off % 256 ∧
    stamp_iv d o b sn sq off (o + 13) = 0 ∧
    stamp_iv d o b sn sq off (o + 14) = 0 ∧
    stamp_iv d o b sn sq off (o + 15) = 0xAA := by
  cases b
  · exact stamp_iv_tail_meta d o sn sq off
  · refine ⟨?_, ?_, ?_, ?_⟩
    all_goals
      unfold stamp_iv
      simp [hb_first, SECTOR_NUM_LEN, SEQUENCE_NUMBER_LEN, IV_OFFSET_LEN,
        RANDOM_BYTES_PER_TAG, PD_MAGIC_DATA, poke, memset, memcpy]

/-- Two runs of the splice loop that start from the same positions and counters
write the same bytes 12 .. 15 into every IV slot, whatever the data, the map, the
logical sector and the buffer are. -/
theorem splice_loop_meta (m m0 : Idr) (ss : Nat) (P P0 : Buf) :
    ∀ (fuel : Nat) (s s0 w w0 : SpliceState),
      s.in_pos = s0.in_pos → s.bi_size = s0.bi_size → s.out_pos = s0.out_pos →
      s.is_first_iv = s0.is_first_iv →
      s.iv_offset = s0.iv_offset → s.total_copied = s0.total_copied →
      splice_loop m ss P fuel s = some w → splice_loop m0 ss P0 fuel s0 = some w0 →
      ∀ i, s.out_pos ≤ i → i < w.out_pos → 12 ≤ (i - s.out_pos) % 16 →
        w.dbuffer i = w0.dbuffer i := by
  intro fuel
  induction fuel with
  | zero => intro s s0 w w0 _ _ _ _ _ _ h; simp [splice_loop] at h
  | succ fuel ih =>
    intro s s0 w w0 e1 e2 e3 e5 e6 e7 h h0 i hlo hhi hmod
    simp only [splice_loop] at h h0
    split at h
    · cases h; omega
    · next hnz =>
      rw [if_neg (by omega)] at h0
      by_cases hi : i < s.out_pos + 16
      · have f1 := splice_loop_frame m ss P fuel _ w h i
          (by rw [splice_step_out_pos]; exact hi)
        have f2 := splice_loop_frame m0 ss P0 fuel _ w0 h0 i
          (by rw [splice_step_out_pos, ← e3]; exact hi)
        rw [f1, f2, splice_step_dbuffer, splice_step_dbuffer, ← e3, ← e5, ← e6]
        obtain ⟨k, hk⟩ : ∃ k, i = s.out_pos + k := ⟨i - s.out_pos, by omega⟩
        have hk12 : 12 ≤ k ∧ k < 16 := by
          subst hk
          rw [Nat.add_sub_cancel_left] at hmod
          omega
        have hcases : k = 12 ∨ k = 13 ∨ k = 14 ∨ k = 15 := by omega
        subst hk
        rcases hcases with rfl | rfl | rfl | rfl
        · rw [(stamp_iv_meta _ _ _ _ _ _).1, (stamp_iv_meta _ _ _ _ _ _).1]
        · rw [(stamp_iv_meta _ _ _ _ _ _).2.1, (stamp_iv_meta _ _ _ _ _ _).2.1]
        · rw [(stamp_iv_meta _ _ _ _ _ _).2.2.1, (stamp_iv_meta _ _ _ _ _ _).2.2.1]
        · rw [(stamp_iv_meta _ _ _ _ _ _).2.2.2, (stamp_iv_meta _ _ _ _ _ _).2.2.2]
      · apply ih _ _ w w0 _ _ _ _ _ _ h h0 i
        · rw [splice_step_out_pos]; omega
        · exact hhi
        · rw [splice_step_out_pos]
          show 12 ≤ (i - (s.out_pos + 16)) % 16
          omega
        · rw [splice_step_in_pos, splice_step_in_pos, e1, e2, e5, e7]
        · rw [splice_step_bi_size, splice_step_bi_size, e2, e5, e7]
        · rw [splice_step_out_pos, splice_step_out_pos, e3]
        · rw [splice_step_first, splice_step_first, e2, e5, e7]
        · rw [splice_step_iv_offset, splice_step_iv_offset, e2, e5, e6, e7]
        · rw [splice_step_total, splice_step_total, e2, e5, e7]

set_option maxRecDepth 100000 in
/-- The bytes 12 .. 15 of the 52 IV slots the splice loop builds for one sector of
zero bytes. -/
theorem splice_512_meta_sample :
    (splice_loop (fun _ => none) 512 (fun _ => 0) 513
        { in_pos := 0, bi_size := 512, out_pos := 0, sector_num := 0,
          is_first_iv := true, iv_offset := 0, total_copied := 0,
          dbuffer := fun _ => 0 }).map (fun w => (List.range 52).map (fun k =>
            ((w.dbuffer (16 * k + 12), w.dbuffer (16 * k + 13)),
             (w.dbuffer (16 * k + 14), w.dbuffer (16 * k + 15)))))
      = some ((List.range 52).map (fun k => ((k, 0), (0, 0xAA)))) := by
  decide!

/-- The bytes 12 .. 15 of each of the 52 IV slots the splice loop builds for a
512-byte sector: `iv_offset` is the number of the slot, the `public_counter` is
zero and the magic byte is `0xAA`. -/
theorem splice_512_meta (m : Idr) (L : Nat) (P clone : Buf) (w : SpliceState)
    (hw : kcryptd_crypt_write_convert_splice m 512 L P 512 clone = some w) (k : Nat)
    (hk : k < 52) :
    w.dbuffer (16 * k + 12) = k ∧ w.dbuffer (16 * k + 13) = 0 ∧
    w.dbuffer (16 * k + 14) = 0 ∧ w.dbuffer (16 * k + 15) = 0xAA := by
  unfold kcryptd_crypt_write_convert_splice at hw
  have hout := splice_512_out_pos m (L % 2 ^ 32) P clone w hw
  have hs := splice_512_meta_sample
  cases h0 : splice_loop (fun _ => none) 512 (fun _ => 0) 513
      { in_pos := 0, bi_size := 512, out_pos := 0, sector_num := 0,
        is_first_iv := true, iv_offset := 0, total_copied := 0,
        dbuffer := fun _ => 0 } with
  | none => rw [h0] at hs; simp at hs
  | some w0 =>
    rw [h0] at hs
    simp only [Option.map_some', Option.some.injEq] at hs
    have hk2 := congrArg (fun l => l.get? k) hs
    simp only [List.get?_eq_getElem?, List.getElem?_map, List.getElem?_range hk,
      Option.map_some', Option.some.injEq, Prod.mk.injEq] at hk2
    obtain ⟨⟨a1, a2⟩, a3, a4⟩ := hk2
    have hm := splice_loop_meta m (fun _ => none) 512 P (fun _ => 0) 513
      { in_pos := 0, bi_size := 512, out_pos := 0, sector_num := L % 2 ^ 32,
        is_first_iv := true, iv_offset := 0, total_copied := 0, dbuffer := clone }
      { in_pos := 0, bi_size := 512, out_pos := 0, sector_num := 0,
        is_first_iv := true, iv_offset := 0, total_copied := 0,
        dbuffer := fun _ => 0 } w w0 rfl rfl rfl rfl rfl rfl hw h0
    simp only [Nat.sub_zero] at hm
    rw [hm _ (Nat.zero_le _) (by omega) (by omega), hm _ (Nat.zero_le _) (by omega) (by omega),
      hm _ (Nat.zero_le _) (by omega) (by omega), hm _ (Nat.zero_le _) (by omega) (by omega)]
    exact ⟨a1, a2, a3, a4⟩

/-- The splice loop returns only with `bi_size` 0. -/
theorem splice_loop_bi_size (m : Idr) (ss : Nat) (P : Buf) :
    ∀ (fuel : Nat) (s w : SpliceState), splice_loop m ss P fuel s = some w → w.bi_size = 0 := by
  intro fuel
  induction fuel with
  | zero => intro s w h; simp [splice_loop] at h
  | succ fuel ih =>
    intro s w h
    simp only [splice_loop] at h
    split at h
    · next hz => cases h; exact hz
    · exact ih _ _ h

/-- C26: for every logical sector `L`, every map (which fixes the sequence number),
every 512 bytes of data and every content of the fresh pages, the splice loop of
`kcryptd_crypt_write_convert` returns, has filled exactly 52 IV slots of 16 bytes
(`out_pos` is `52 * 16`), and slot `k` carries `iv_offset` `k` at byte 12 and the
magic byte `0xAA` at byte 15. -/
theorem splice_fills_52_slots (m : Idr) (L : Nat) (P clone : Buf) :
    ∃ w, kcryptd_crypt_write_convert_splice m 512 L P 512 clone = some w ∧
      w.bi_size = 0 ∧
      w.out_pos = NUM_PUBLIC_SECTORS_PER_HIDDEN_SECTOR * IV_SIZE ∧
      ∀ k, k < NUM_PUBLIC_SECTORS_PER_HIDDEN_SECTOR →
        w.dbuffer (IV_SIZE * k + IV_OFFSET_POS) = k ∧
        w.dbuffer (IV_SIZE * k + PD_MAGIC_DATA_POS) = PD_MAGIC_DATA := by
  obtain ⟨w, hw⟩ := splice_returns m L P clone
  refine ⟨w, hw, ?_, ?_, ?_⟩
  · exact splice_loop_bi_size m 512 P _ _ w hw
  · exact splice_512_out_pos m (L % 2 ^ 32) P clone w hw
  · intro k hk
    obtain ⟨a, _, _, d⟩ := splice_512_meta m L P clone w hw k hk
    exact ⟨a, d⟩

/-! ## The `public_counter` after a hidden write -/

set_option maxRecDepth 100000 in
/-- C22 (as stated, refuted): after a first hidden write to logical sector 100 the
carriers are the sectors from 5200 on and the map entry has the reuse bit. A public
write of sector 5201 then finds the slot a live carrier and increments its
`public_counter` from 0 to 1. The second hidden write to sector 100 reuses the run
at 5200, and afterwards the `public_counter` of sector 5201 is 0, not 1. -/
theorem hidden_rewrite_clears_public_counter :
    ((hidden_write (fun _ => none) FreeState.init 100 (fun _ => 0xAA) (fun _ => 0)).bind
      (fun w1 =>
        (pass_step w1.map_idr (hidden_write_disk (fun _ _ => 0) w1) (fun _ => 0)
            (sample_pass (hidden_write_disk (fun _ _ => 0) w1 5201) 5201
              DirtyState.init)).bind
          (fun p =>
            (hidden_write w1.map_idr w1.fl 100 (fun _ => 0x55) (fun _ => 0)).map
              (fun w2 =>
                ((map_find w1.map_idr 100 0 false, w2.error, w2.start),
                 (le_load (hidden_write_disk (fun _ _ => 0) w1 5201) RANDOM_BYTES_POS
                    RANDOM_BYTES_PER_TAG,
                  le_load p.buffer RANDOM_BYTES_POS RANDOM_BYTES_PER_TAG),
                 le_load (hidden_write_disk
                     (fun s => if s = 5201 then p.buffer
                               else hidden_write_disk (fun _ _ => 0) w1 s) w2 5201)
                   RANDOM_BYTES_POS RANDOM_BYTES_PER_TAG))))) =
      some ((⟨5200, 1, true⟩, false, 5200), (0, 1), 0) := by
  decide!

/-- C22 (amended): for every hidden write that completes without an error, on the
run recorded in the map or on a run taken from the free list, and whatever the
carriers held before, the 16-bit `public_counter` at bytes 13..14 of each of the 52
IV slots is 0 after the write. -/
theorem hidden_write_public_counter_zero (m : Idr) (fl : FreeState) (L : Nat)
    (P clone : Buf) (disk : Nat → Buf) (w : HiddenWrite)
    (hw : hidden_write m fl L P clone = some w) (he : w.error = false) (j : Nat)
    (hj : j < NUM_PUBLIC_SECTORS_PER_HIDDEN_SECTOR) :
    le_load (hidden_write_disk disk w (w.start + j)) RANDOM_BYTES_POS RANDOM_BYTES_PER_TAG
      = 0 := by
  obtain ⟨s, hs, hsl⟩ := hidden_write_slots m fl L P clone w hw
  obtain ⟨_, a13, a14, _⟩ := splice_512_meta m L P clone s hs j hj
  show le_load (hidden_write_disk disk w (w.start + j)) 13 2 = 0
  rw [le_load_two, hidden_write_disk_at disk w he j 13 hj (by omega),
    hidden_write_disk_at disk w he j 14 hj (by omega), hsl, a13, a14]

theorem hidden_write_public_counter_zero_witness :
    ∃ w, hidden_write (fun _ => none) FreeState.init 100 (fun _ => 0x42) (fun _ => 0) = some w ∧
      w.error = false ∧
      le_load (hidden_write_disk (fun _ _ => 0xFF) w (w.start + 51)) RANDOM_BYTES_POS
        RANDOM_BYTES_PER_TAG = 0 := by
  obtain ⟨w, h1, h2, _⟩ :=
    hidden_write_first (fun _ => none) FreeState.init 100 (fun _ => 0x42) (fun _ => 0)
      (by norm_num) (by decide) rfl rfl rfl
  exact ⟨w, h1, h2,
    hidden_write_public_counter_zero _ _ _ _ _ (fun _ _ => 0xFF) w h1 h2 51 (by decide)⟩

/-! ## Public-write pass: slots that are not live carriers -/

theorem dirty_nodes_of_seg (st : DirtyState) (L : List Nat)
    (h : Seg st.mem st.head_dirtylist L none) (hb : ∀ a ∈ L, a < st.brk) :
    st.nodes = L :=
  walk_of_seg st.mem L st.head_dirtylist st.brk h
    (length_le_of_nodup_lt L st.brk (seg_nodup _ _ _ h) hb)

theorem findin_dirty_list_loop_spec (mem : Nat → freelist) (x : Nat) :
    ∀ (xs : List Nat) (p : Option Nat) (fuel : Nat), Seg mem p xs none → xs.length < fuel →
      findin_dirty_list_loop mem x fuel p =
        some (decide (x ∈ xs.map (fun a => (mem a).sector))) := by
  intro xs
  induction xs with
  | nil =>
    intro p fuel h hf
    have hp : p = none := h
    subst hp
    cases fuel with
    | zero => simp at hf
    | succ fuel => simp [findin_dirty_list_loop]
  | cons a t ih =>
    intro p fuel h hf
    obtain ⟨hp, ht⟩ := (seg_cons _ _ _ _ _).mp h
    subst hp
    cases fuel with
    | zero => simp at hf
    | succ fuel =>
      simp only [findin_dirty_list_loop]
      by_cases hx : (mem a).sector = x
      · simp [hx]
      · rw [if_neg hx, ih _ fuel ht (by simpa using hf)]
        have hx2 : ¬ x = (mem a).sector := fun e => hx e.symm
        simp [hx2]

/-- On a well-formed dirty list `findin_dirty_list` returns, and tells whether the
sector is in the list. -/
theorem findin_dirty_list_spec (st : DirtyState) (hwf : st.WF) (x : Nat) :
    findin_dirty_list x st = some (decide (x ∈ st.sectors)) := by
  obtain ⟨h1, h2, _, _⟩ := hwf
  have hlen := length_le_of_nodup_lt st.nodes st.brk (seg_nodup _ _ _ h1) h2
  exact findin_dirty_list_loop_spec st.mem x st.nodes st.head_dirtylist (st.brk + 1) h1
    (by omega)

theorem removefrom_dirty_list_loop_spec (st : DirtyState) (x : Nat)
    (hseg : Seg st.mem st.head_dirtylist st.nodes none) :
    ∀ (suf pre : List Nat) (p prev : Option Nat) (fuel : Nat),
      st.nodes = pre ++ suf → Seg st.mem p suf none → suf.length < fuel →
      prev = (match pre.getLast? with
              | some l => some l
              | none => st.head_dirtylist) →
      (x ∉ suf.map (fun a => (st.mem a).sector) ∧
        removefrom_dirty_list_loop x fuel st p prev = some st) ∨
      (∃ c s1 s2, suf = s1 ++ c :: s2 ∧ (st.mem c).sector = x ∧
        (∀ a ∈ s1, (st.mem a).sector ≠ x) ∧
        removefrom_dirty_list_loop x fuel st p prev =
          some { st with
            head_dirtylist :=
              if some c = st.head_dirtylist then (st.mem c).next else st.head_dirtylist,
            mem := setNext st.mem (((pre ++ s1).getLast?).getD c) (st.mem c).next,
            freed := kfree st.freed c }) := by
  intro suf
  induction suf with
  | nil =>
    intro pre p prev fuel _ hs hf _
    have hp : p = none := hs
    subst hp
    left
    refine ⟨by simp, ?_⟩
    cases fuel with
    | zero => simp at hf
    | succ fuel => rfl
  | cons a t ih =>
    intro pre p prev fuel hn hs hf hprev
    obtain ⟨hp, ht⟩ := (seg_cons _ _ _ _ _).mp hs
    subst hp
    cases fuel with
    | zero => simp at hf
    | succ fuel =>
      by_cases hx : (st.mem a).sector = x
      · right
        refine ⟨a, [], t, rfl, hx, by simp, ?_⟩
        simp only [removefrom_dirty_list_loop, hx, if_true, List.append_nil]
        cases hl : pre.getLast? with
        | some l =>
          rw [hl] at hprev
          subst hprev
          rfl
        | none =>
          rw [hl] at hprev
          have hpre : pre = [] := List.getLast?_eq_none_iff.mp hl
          subst hpre
          rw [List.nil_append] at hn
          rw [hn] at hseg
          have hh : st.head_dirtylist = some a := ((seg_cons _ _ _ _ _).mp hseg).1
          subst hprev
          simp only [hh, Option.getD_none]
      · have hstep : removefrom_dirty_list_loop x (fuel + 1) st (some a) prev =
            removefrom_dirty_list_loop x fuel st (st.mem a).next (some a) := by
          simp only [removefrom_dirty_list_loop, hx, if_false]
        rw [hstep]
        rcases ih (pre ++ [a]) (st.mem a).next (some a) fuel (by simp [hn]) ht
            (by simpa using hf) (by simp) with h | h
        · left
          refine ⟨?_, h.2⟩
          simp only [List.map_cons, List.mem_cons, not_or]
          exact ⟨fun e => hx e.symm, h.1⟩
        · right
          obtain ⟨c, s1, s2, e1, e2, e3, e4⟩ := h
          refine ⟨c, a :: s1, s2, by simp [e1], e2, ?_, ?_⟩
          · intro b hb
            rcases List.mem_cons.mp hb with rfl | hb
            · exact hx
            · exact e3 b hb
          · rw [e4]
            simp only [List.append_assoc, List.singleton_append]

theorem dirty_wf_of_seg (st : DirtyState) (L : List Nat)
    (h : Seg st.mem st.head_dirtylist L none) (hb : ∀ a ∈ L, a < st.brk)
    (hnd : (L.map (fun a => (st.mem a).sector)).Nodup)
    (ht : L ≠ [] → ∃ t, st.tail_dirtylist = some t ∧ (L.getLast? = some t ∨ t ∉ L)) :
    st.WF ∧ st.nodes = L := by
  have hn := dirty_nodes_of_seg st L h hb
  refine ⟨?_, hn⟩
  unfold DirtyState.WF DirtyState.sectors
  rw [hn]
  exact ⟨h, hb, hnd, ht⟩

/-- On a well-formed dirty list `removefrom_dirty_list` returns; afterwards the list
is well formed, the sector is not in it, and it holds no sector it did not hold
before. -/
theorem removefrom_dirty_list_spec (st : DirtyState) (hwf : st.WF) (x : Nat) :
    ∃ st2, removefrom_dirty_list x st = some st2 ∧ st2.WF ∧ x ∉ st2.sectors ∧
      ∀ y ∈ st2.sectors, y ∈ st.sectors := by
  obtain ⟨h1, h2, h3, h4⟩ := hwf
  have hlen := length_le_of_nodup_lt st.nodes st.brk (seg_nodup _ _ _ h1) h2
  have hnd := seg_nodup _ _ _ h1
  rcases removefrom_dirty_list_loop_spec st x h1 st.nodes [] st.head_dirtylist
      st.head_dirtylist (st.brk + 1) rfl h1 (by omega) rfl with h | h
  · exact ⟨st, h.2, ⟨h1, h2, h3, h4⟩, h.1, fun y hy => hy⟩
  · obtain ⟨c, s1, s2, e1, e2, e3, e4⟩ := h
    rw [List.nil_append] at e4
    refine ⟨_, e4, ?_⟩
    rw [e1] at hnd h2
    unfold DirtyState.sectors at h3
    rw [e1] at h3
    have hc1 : c ∉ s1 := by
      intro hc
      have := (List.nodup_append.mp hnd).2.2 hc (List.mem_cons_self _ _)
      exact this
    have hc2 : c ∉ s2 := by
      have := (List.nodup_append.mp hnd).2.1
      exact (List.nodup_cons.mp this).1
    have hsec : ∀ (r : Nat) (q : Option Nat) (l : List Nat),
        l.map (fun a => (setNext st.mem r q a).sector) = l.map (fun a => (st.mem a).sector) := by
      intro r q l
      apply List.map_congr_left
      intro a _
      exact setNext_sector _ _ _ _
    have hseg0 := h1
    rw [e1, seg_append] at hseg0
    obtain ⟨q, g1, g2⟩ := hseg0
    obtain ⟨g3, g4⟩ := (seg_cons _ _ _ _ _).mp g2
    -- the new list is `s1 ++ s2`
    have key : Seg (setNext st.mem ((s1.getLast?).getD c) (st.mem c).next)
        (if some c = st.head_dirtylist then (st.mem c).next else st.head_dirtylist)
        (s1 ++ s2) none := by
      rcases List.eq_nil_or_concat s1 with hs1 | ⟨s0, l, hs1⟩
      · subst hs1
        have hq : st.head_dirtylist = q := g1
        rw [hq, g3]
        simp only [if_true, List.getLast?_nil, Option.getD_none, List.nil_append]
        exact (seg_setNext_of_not_mem _ _ _ _ _ _ hc2).mpr g4
      · subst hs1
        have hl : l ∉ s0 := by
          have := (List.nodup_append.mp hnd).1
          rw [List.concat_eq_append] at this
          have h5 := (List.nodup_append.mp this).2.2
          intro hl
          exact h5 hl (List.mem_singleton_self _) 
        have hl2 : l ∉ s2 := by
          intro hl
          have := (List.nodup_append.mp hnd).2.2 (by simp) (List.mem_cons_of_mem _ hl)
          exact this
        have hne : some c ≠ st.head_dirtylist := by
          intro e
          rw [List.concat_eq_append] at g1 hc1
          cases s0 with
          | nil =>
            have := ((seg_cons _ _ _ _ _).mp g1).1
            rw [this] at e
            have e2 : c = l := by simpa using e
            exact hc1 (by simp [e2])
          | cons f r =>
            have := ((seg_cons _ _ _ _ _).mp g1).1
            rw [this] at e
            have e2 : c = f := by simpa using e
            exact hc1 (by simp [e2])
        rw [if_neg hne, List.concat_eq_append, List.getLast?_append_of_ne_nil _ (by simp)]
        simp only [List.getLast?_singleton, Option.getD_some]
        rw [List.concat_eq_append] at g1
        rw [seg_append]
        refine ⟨(st.mem c).next, seg_setNext_last _ _ _ _ _ _ hl g1, ?_⟩
        exact (seg_setNext_of_not_mem _ _ _ _ _ _ hl2).mpr g4
    have hb : ∀ a ∈ s1 ++ s2, a < st.brk := by
      intro a ha
      apply h2
      rcases List.mem_append.mp ha with h | h
      · exact List.mem_append_left _ h
      · exact List.mem_append_right _ (List.mem_cons_of_mem _ h)
    have hsub : (s1 ++ s2).Sublist (s1 ++ c :: s2) :=
      List.Sublist.append_left (List.sublist_cons_self _ _) _
    obtain ⟨w1, w2⟩ := dirty_wf_of_seg
      { st with
        head_dirtylist :=
          if some c = st.head_dirtylist then (st.mem c).next else st.head_dirtylist,
        mem := setNext st.mem ((s1.getLast?).getD c) (st.mem c).next,
        freed := kfree st.freed c } (s1 ++ s2) key hb
      (by
        show ((s1 ++ s2).map (fun a => (setNext st.mem _ _ a).sector)).Nodup
        rw [hsec]
        exact h3.sublist (hsub.map _))
      (by
        intro hne
        obtain ⟨t, t1, t2⟩ := h4 (by rw [e1]; simp)
        refine ⟨t, t1, ?_⟩
        rcases t2 with t2 | t2
        · rw [e1] at t2
          rcases List.eq_nil_or_concat s2 with hs2 | ⟨s3, l, hs2⟩
          · subst hs2
            right
            rw [List.getLast?_append_of_ne_nil _ (by simp)] at t2
            simp only [List.getLast?_singleton, Option.some.injEq] at t2
            subst t2
            simpa using hc1
          · left
            subst hs2
            rw [List.concat_eq_append] at t2 ⊢
            rw [← List.append_assoc, List.getLast?_append_of_ne_nil _ (by simp)]
            rw [show s1 ++ c :: (s3 ++ [l]) = (s1 ++ c :: s3) ++ [l] by simp,
              List.getLast?_append_of_ne_nil _ (by simp)] at t2
            exact t2
        · right
          intro ht
          apply t2
          rw [e1]
          exact hsub.subset ht)
    refine ⟨w1, ?_, ?_⟩
    · unfold DirtyState.sectors
      rw [w2]
      show x ∉ (s1 ++ s2).map (fun a => (setNext st.mem _ _ a).sector)
      rw [hsec, List.map_append, List.mem_append, not_or]
      constructor
      · intro hx
        obtain ⟨a, ha, hax⟩ := List.mem_map.mp hx
        exact e3 a ha hax
      · intro hx
        rw [List.map_append, List.map_cons, e2] at h3
        have := (List.nodup_append.mp h3).2.1
        exact (List.nodup_cons.mp this).1 hx
    · intro y hy
      unfold DirtyState.sectors at hy ⊢
      rw [w2] at hy
      change y ∈ (s1 ++ s2).map (fun a => (setNext st.mem _ _ a).sector) at hy
      rw [hsec] at hy
      rw [e1]
      exact (hsub.map _).subset hy

/-- On a well-formed dirty list `addto_dirty_list` returns; afterwards the list is
well formed and holds no sector other than the new one that it did not hold
before. -/
theorem addto_dirty_list_spec (st : DirtyState) (hwf : st.WF) (x : Nat) :
    ∃ st2, addto_dirty_list x st = some st2 ∧ st2.WF ∧
      ∀ y ∈ st2.sectors, y ≠ x → y ∈ st.sectors := by
  have hfind := findin_dirty_list_spec st hwf x
  obtain ⟨h1, h2, h3, h4⟩ := hwf
  have hnd := seg_nodup _ _ _ h1
  unfold addto_dirty_list
  rw [hfind]
  by_cases hx : x ∈ st.sectors
  · simp only [hx, decide_True]
    exact ⟨st, rfl, ⟨h1, h2, h3, h4⟩, fun y hy _ => hy⟩
  · simp only [hx, decide_False]
    have hbrk : st.brk ∉ st.nodes := fun h => Nat.lt_irrefl _ (h2 _ h)
    have hsec : ∀ (t : Nat) (q : Option Nat) (l : List Nat), st.brk ∉ l →
        l.map (fun a => (setNext (setCell st.mem st.brk ⟨x, none⟩) t q a).sector) =
          l.map (fun a => (st.mem a).sector) := by
      intro t q l hl
      apply List.map_congr_left
      intro a ha
      rw [setNext_sector, setCell_other]
      intro e
      exact hl (e ▸ ha)
    cases hh : st.head_dirtylist with
    | none =>
      simp only
      have hn : st.nodes = [] := by
        unfold DirtyState.nodes
        rw [hh, walk_none]
      obtain ⟨w1, w2⟩ := dirty_wf_of_seg
        { st with mem := setCell st.mem st.brk ⟨x, none⟩, freed := kmalloc st.freed st.brk,
                  brk := st.brk + 1, head_dirtylist := some st.brk,
                  tail_dirtylist := some st.brk } [st.brk]
        ((seg_cons _ _ _ _ _).mpr ⟨rfl, by
          show Seg _ (setCell st.mem st.brk ⟨x, none⟩ st.brk).next [] none
          rw [setCell_same]
          exact (seg_nil _ _ _).mpr rfl⟩)
        (by intro a ha; simp at ha; subst ha; exact Nat.lt_succ_self _)
        (by simp)
        (by intro _; exact ⟨st.brk, rfl, Or.inl rfl⟩)
      refine ⟨_, rfl, w1, ?_⟩
      intro y hy hne
      unfold DirtyState.sectors at hy
      rw [w2] at hy
      simp only [List.map_cons, List.map_nil, List.mem_singleton] at hy
      rw [show (setCell st.mem st.brk ⟨x, none⟩ st.brk).sector = x by rw [setCell_same]] at hy
      exact absurd hy hne
    | some h =>
      simp only
      have hne : st.nodes ≠ [] := by
        intro e
        rw [e, hh] at h1
        exact absurd ((seg_nil _ _ _).mp h1) (by simp)
      obtain ⟨t, t1, t2⟩ := h4 hne
      rw [t1]
      simp only
      refine ⟨_, rfl, ?_⟩
      rcases t2 with t2 | t2
      · -- the new cell goes behind the last cell
        obtain ⟨ini, hini⟩ : ∃ ini, st.nodes = ini ++ [t] := by
          rcases List.eq_nil_or_concat st.nodes with e | ⟨ini, l, e⟩
          · exact absurd e hne
          · rw [e, List.concat_eq_append, List.getLast?_append_of_ne_nil _ (by simp)] at t2
            simp only [List.getLast?_singleton, Option.some.injEq] at t2
            subst t2
            exact ⟨ini, by rw [e, List.concat_eq_append]⟩
        have htb : t ≠ st.brk := by
          intro e
          apply hbrk
          rw [hini, ← e]
          simp
        have hti : t ∉ ini := by
          rw [hini] at hnd
          have := (List.nodup_append.mp hnd).2.2
          intro ht
          exact this ht (List.mem_singleton_self _)
        have hs1 : Seg (setCell st.mem st.brk ⟨x, none⟩) st.head_dirtylist (ini ++ [t]) none := by
          rw [seg_setCell_of_not_mem _ _ _ _ _ _ (by rw [← hini]; exact hbrk), ← hini]
          exact h1
        have hs2 := seg_setNext_last _ t (some st.brk) ini _ _ hti hs1
        have hs3 : Seg (setNext (setCell st.mem st.brk ⟨x, none⟩) t (some st.brk))
            st.head_dirtylist (st.nodes ++ [st.brk]) none := by
          rw [hini, seg_append]
          refine ⟨some st.brk, hs2, (seg_cons _ _ _ _ _).mpr ⟨rfl, ?_⟩⟩
          rw [setNext_other _ _ _ _ (Ne.symm htb), setCell_same]
          exact (seg_nil _ _ _).mpr rfl
        have hmap : (st.nodes ++ [st.brk]).map
            (fun a => (setNext (setCell st.mem st.brk ⟨x, none⟩) t (some st.brk) a).sector) =
            st.sectors ++ [x] := by
          rw [List.map_append, hsec _ _ _ hbrk]
          simp only [List.map_cons, List.map_nil, setNext_sector, setCell_same]
          rfl
        obtain ⟨w1, w2⟩ := dirty_wf_of_seg
          { st with mem := setNext (setCell st.mem st.brk ⟨x, none⟩) t (some st.brk),
                    freed := kmalloc st.freed st.brk, head_dirtylist := some h,
                    brk := st.brk + 1, tail_dirtylist := some st.brk }
          (st.nodes ++ [st.brk]) (by rw [hh] at hs3; exact hs3)
          (by
            intro a ha
            rcases List.mem_append.mp ha with h | h
            · exact Nat.lt_succ_of_lt (h2 a h)
            · simp at h; subst h; exact Nat.lt_succ_self _)
          (by
            show ((st.nodes ++ [st.brk]).map _).Nodup
            rw [hmap]
            exact List.nodup_append.mpr ⟨h3, by simp, by
              intro a ha hb
              simp at hb
              subst hb
              exact hx ha⟩)
          (by
            intro _
            exact ⟨st.brk, rfl, Or.inl (by
              rw [List.getLast?_append_of_ne_nil _ (by simp)]
              rfl)⟩)
        refine ⟨w1, ?_⟩
        intro y hy hne2
        unfold DirtyState.sectors at hy
        rw [w2] at hy
        change y ∈ (st.nodes ++ [st.brk]).map _ at hy
        rw [hmap] at hy
        rcases List.mem_append.mp hy with h | h
        · exact h
        · simp at h
          exact absurd h hne2
      · -- `tail_dirtylist` is out of the list: the new cell cannot be reached
        have hs1 : Seg (setNext (setCell st.mem st.brk ⟨x, none⟩) t (some st.brk))
            st.head_dirtylist st.nodes none := by
          rw [seg_setNext_of_not_mem _ _ _ _ _ _ t2, seg_setCell_of_not_mem _ _ _ _ _ _ hbrk]
          exact h1
        obtain ⟨w1, w2⟩ := dirty_wf_of_seg
          { st with mem := setNext (setCell st.mem st.brk ⟨x, none⟩) t (some st.brk),
                    freed := kmalloc st.freed st.brk, head_dirtylist := some h,
                    brk := st.brk + 1, tail_dirtylist := some st.brk }
          st.nodes (by rw [hh] at hs1; exact hs1)
          (fun a ha => Nat.lt_succ_of_lt (h2 a ha))
          (by
            show (st.nodes.map _).Nodup
            rw [hsec _ _ _ hbrk]
            exact h3)
          (by
            intro _
            exact ⟨st.brk, rfl, Or.inr hbrk⟩)
        refine ⟨w1, ?_⟩
        intro y hy _
        unfold DirtyState.sectors at hy
        rw [w2] at hy
        change y ∈ st.nodes.map _ at hy
        rw [hsec _ _ _ hbrk] at hy
        exact hy

theorem dirty_init_wf : DirtyState.init.WF := by
  unfold DirtyState.WF
  refine ⟨rfl, ?_, List.nodup_nil, fun h => absurd rfl h⟩
  intro a ha
  cases ha

/-- One pass through the body of the loop of the public-write pass on well-formed
lists: it returns, the lists stay well formed, the free list loses nothing, the
dirty list gains at most the sector of the slot, and a slot that is not a live
carrier has its sector in the free list and out of the dirty list. -/
theorem pass_step_spec (m : Idr) (disk : Nat → Buf) (rnd : Buf) (s : PassState)
    (hfl : s.fl.WF) (hasc : Ascending s.fl.sectors) (hd : s.dirty.WF) :
    ∃ s2, pass_step m disk rnd s = some s2 ∧ s2.fl.WF ∧ Ascending s2.fl.sectors ∧
      s2.dirty.WF ∧ s2.sector = (s.sector + 1) % 2 ^ 32 ∧ s2.pos = s.pos + IV_SIZE ∧
      s2.bi_size = s.bi_size - IV_SIZE ∧
      (∀ x ∈ s.fl.sectors, x ∈ s2.fl.sectors) ∧
      (∀ y ∈ s2.dirty.sectors, y ≠ s.sector → y ∈ s.dirty.sectors) ∧
      ((classify_slot m disk s).found = false →
        s.sector ∈ s2.fl.sectors ∧ s.sector ∉ s2.dirty.sectors) := by
  unfold pass_step
  cases hfound : (classify_slot m disk s).found with
  | true =>
    simp only [hfound, if_true]
    rw [findin_dirty_list_spec s.dirty hd s.sector]
    by_cases hin : s.sector ∈ s.dirty.sectors
    · simp only [hin, decide_True]
      exact ⟨_, rfl, hfl, hasc, hd, rfl, rfl, rfl, fun x hx => hx, fun y hy _ => hy,
        fun h => absurd h (by simp)⟩
    · simp only [hin, decide_False]
      obtain ⟨d2, a1, a2, a3⟩ := addto_dirty_list_spec s.dirty hd s.sector
      rw [a1]
      exact ⟨_, rfl, hfl, hasc, a2, rfl, rfl, rfl, fun x hx => hx, a3,
        fun h => absurd h (by simp)⟩
  | false =>
    simp only [hfound, Bool.false_eq_true, if_false]
    obtain ⟨d2, r1, r2, r3, r4⟩ := removefrom_dirty_list_spec s.dirty hd s.sector
    obtain ⟨f2, b1, b2, b3, b4⟩ := addto_freelist_ascending s.fl s.sector hfl hasc
    rw [r1]
    simp only
    rw [b1]
    exact ⟨_, rfl, b2, b3, r2, rfl, rfl, rfl, fun x hx => (b4 x).mpr (Or.inr hx),
      fun y hy _ => r4 y hy, fun _ => ⟨(b4 _).mpr (Or.inl rfl), r3⟩⟩

/-- The public-write pass over `n` slots on well-formed lists, for sectors that are
32-bit numbers: the pass returns, and what the pass has done for the slot it meets
in its `k`-th round is still so when the loop is left. -/
theorem pass_loop_spec (m : Idr) (disk : Nat → Buf) (rnd : Nat → Buf) :
    ∀ (n : Nat) (s : PassState), s.fl.WF → Ascending s.fl.sectors → s.dirty.WF →
      s.bi_size = IV_SIZE * n → s.sector + n < 2 ^ 32 →
      ∃ e, pass_loop m disk rnd (n + 1) s = some e ∧ e.dirty.WF ∧
        (∀ x ∈ s.fl.sectors, x ∈ e.fl.sectors) ∧
        (∀ y ∈ e.dirty.sectors, y < s.sector → y ∈ s.dirty.sectors) ∧
        ∀ k, k < n → ∃ sk, pass_iter m disk rnd k s = some sk ∧ sk.bi_size ≠ 0 ∧
          sk.sector = s.sector + k ∧ sk.pos = s.pos + IV_SIZE * k ∧
          ((classify_slot m disk sk).found = false →
            sk.sector ∈ e.fl.sectors ∧ findin_dirty_list sk.sector e.dirty = some false) := by
  intro n
  induction n with
  | zero =>
    intro s _ _ hd hb _
    refine ⟨s, ?_, hd, fun x hx => hx, fun y hy _ => hy, fun k hk => absurd hk (by omega)⟩
    simp only [pass_loop]
    rw [if_pos (by simpa using hb)]
  | succ n ih =>
    intro s hfl hasc hd hb hs
    have h16 : IV_SIZE = 16 := rfl
    rw [h16] at hb
    have hnz : s.bi_size ≠ 0 := by omega
    obtain ⟨s2, p1, p2, p3, p4, p5, p6, p7, p8, p9, p10⟩ :=
      pass_step_spec m disk (rnd s.pos) s hfl hasc hd
    have hsec : s2.sector = s.sector + 1 := by
      rw [p5]
      exact Nat.mod_eq_of_lt (by omega)
    obtain ⟨e, q1, q2, q3, q4, q5⟩ := ih s2 p2 p3 p4
      (by rw [p7, hb, h16]; omega) (by rw [hsec]; omega)
    refine ⟨e, ?_, q2, fun x hx => q3 x (p8 x hx), ?_, ?_⟩
    · rw [pass_loop, if_neg hnz, p1]
      exact q1
    · intro y hy hlt
      exact p9 y (q4 y hy (by rw [hsec]; omega)) (by omega)
    · intro k hk
      cases k with
      | zero =>
        refine ⟨s, rfl, hnz, rfl, rfl, ?_⟩
        intro hf
        obtain ⟨r1, r2⟩ := p10 hf
        refine ⟨q3 _ r1, ?_⟩
        rw [findin_dirty_list_spec e.dirty q2]
        have : s.sector ∉ e.dirty.sectors := by
          intro hin
          exact r2 (q4 _ hin (by rw [hsec]; omega))
        simp [this]
      | succ j =>
        obtain ⟨sk, t1, t2, t3, t4, t5⟩ := q5 j (by omega)
        refine ⟨sk, ?_, t2, by rw [t3, hsec]; omega, by rw [t4, p6, h16]; omega, t5⟩
        rw [pass_iter, if_neg hnz, p1]
        exact t1

/-- C23: for every public-write pass over `n` IV slots that starts with a
well-formed ascending free list and a well-formed dirty list and stays within the
32-bit sector numbers, the pass returns, and every slot it classifies as not a live
carrier (`found` is false for the slot met in round `k`, at sector `sector + k`) has
its sector in the free list and not in the dirty list after the pass. -/
theorem pass_frees_stale_slots (m : Idr) (disk : Nat → Buf) (rnd : Nat → Buf) (n : Nat)
    (s : PassState) (hfl : s.fl.WF) (hasc : Ascending s.fl.sectors) (hd : s.dirty.WF)
    (hb : s.bi_size = IV_SIZE * n) (hs : s.sector + n < 2 ^ 32) :
    ∃ e, pass_loop m disk rnd (n + 1) s = some e ∧
      ∀ k, k < n → ∃ sk, pass_iter m disk rnd k s = some sk ∧
        sk.sector = s.sector + k ∧ sk.pos = s.pos + IV_SIZE * k ∧
        ((classify_slot m disk sk).found = false →
          sk.sector ∈ e.fl.sectors ∧ findin_dirty_list sk.sector e.dirty = some false) := by
  obtain ⟨e, q1, _, _, _, q5⟩ := pass_loop_spec m disk rnd n s hfl hasc hd hb hs
  refine ⟨e, q1, fun k hk => ?_⟩
  obtain ⟨sk, t1, _, t3, t4, t5⟩ := q5 k hk
  exact ⟨sk, t1, t3, t4, t5⟩

theorem pass_frees_stale_slots_witness :
    ∃ e, pass_loop (sample_map 7 3 1) (fun _ _ => 0) (fun _ _ => 0x5A) (2 + 1)
        { buffer := fun _ => 0, pos := 0, bi_size := 32, sector := 7,
          global_iv := fun _ => 0, global_sector := 2 ^ 64 - 1, dirty := DirtyState.init,
          fl := FreeState.init } = some e ∧
      ∀ k, k < 2 → ∃ sk, pass_iter (sample_map 7 3 1) (fun _ _ => 0) (fun _ _ => 0x5A) k
          { buffer := fun _ => 0, pos := 0, bi_size := 32, sector := 7,
            global_iv := fun _ => 0, global_sector := 2 ^ 64 - 1, dirty := DirtyState.init,
            fl := FreeState.init } = some sk ∧
        sk.sector = 7 + k ∧ sk.pos = 0 + IV_SIZE * k ∧
        ((classify_slot (sample_map 7 3 1) (fun _ _ => 0) sk).found = false →
          sk.sector ∈ e.fl.sectors ∧ findin_dirty_list sk.sector e.dirty = some false) :=
  pass_frees_stale_slots (sample_map 7 3 1) (fun _ _ => 0) (fun _ _ => 0x5A) 2
    { buffer := fun _ => 0, pos := 0, bi_size := 32, sector := 7,
      global_iv := fun _ => 0, global_sector := 2 ^ 64 - 1, dirty := DirtyState.init,
      fl := FreeState.init } (by decide) (by decide) dirty_init_wf rfl (by norm_num)

/-! ## A head sector below zero -/

/-- A slot with the magic byte and an `iv_offset` of 52 or more: the public-write
pass takes it for no live carrier and the recovery scan accepts no chain for it,
whatever the IVs of the other sectors are. -/
theorem large_iv_offset_rejected (m : Idr) (disk : Nat → Buf) (s : PassState) (c : Nat)
    (h1 : s.buffer (s.pos + PD_MAGIC_DATA_POS) % 256 = PD_MAGIC_DATA)
    (h2 : NUM_PUBLIC_SECTORS_PER_HIDDEN_SECTOR ≤ s.buffer (s.pos + IV_OFFSET_POS) % 256)
    (g1 : disk c PD_MAGIC_DATA_POS % 256 = PD_MAGIC_DATA)
    (g2 : NUM_PUBLIC_SECTORS_PER_HIDDEN_SECTOR ≤ disk c IV_OFFSET_POS % 256) :
    (classify_slot m disk s).found = false ∧
      map_common_probe disk c = (none, NUM_PUBLIC_SECTORS_PER_HIDDEN_SECTOR) := by
  have h52 : NUM_PUBLIC_SECTORS_PER_HIDDEN_SECTOR = 52 := rfl
  rw [h52] at h2 g2
  constructor
  · unfold classify_slot
    rw [if_pos h1]
    simp only
    rw [if_neg (by omega), if_pos (Or.inl (by rw [h52]; exact h2))]
  · unfold map_common_probe
    simp only
    rw [if_pos g1, if_neg (by omega), if_pos (Or.inl (by rw [h52]; exact g2))]

set_option maxRecDepth 20000 in
/-- C24 (as found in the code): the slot of sector 1 carries the magic byte and
`iv_offset` 3, so that `1 - 3` is negative. The test `sector - iv_offset < 0` is made
on an `unsigned` and never holds: the public-write pass goes on to the IV of sector
`2 ^ 32 - 2` and, when that is the head IV of a chain the map holds, classifies the
slot as a live carrier (on a blank disk it does not); the recovery scan goes on to
the IVs of sectors `2 ^ 64 - 2` and `2 ^ 64 - 1` and, when they pass its test,
inserts their chain. A slot with `iv_offset` 52 is turned down by both whatever the
other sectors hold. -/
theorem negative_head_sector_not_rejected :
    ((classify_slot (sample_map 7 (2 ^ 32 - 2) 1) (sample_disk_chain_at (2 ^ 32 - 2))
        (sample_pass (sample_tail_slot 3) 1 DirtyState.init)).found = true ∧
     (classify_slot (sample_map 7 (2 ^ 32 - 2) 1) (fun _ _ => 0)
        (sample_pass (sample_tail_slot 3) 1 DirtyState.init)).found = false) ∧
    (map_common_probe
        (fun s => if s = 1 then sample_tail_slot 3 else sample_disk_chain_at (2 ^ 64 - 2) s) 1
        = (some ⟨7, 1, 2 ^ 32 - 2⟩, 49) ∧
      (map_common
        (fun s => if s = 1 then sample_tail_slot 3 else sample_disk_chain_at (2 ^ 64 - 2) s)
        (fun _ => none) 1 2).map (fun m => map_find m 7 0 false) = some ⟨-2, 1, false⟩ ∧
      (map_common (fun s => if s = 1 then sample_tail_slot 3 else fun _ => 0)
        (fun _ => none) 1 2).map (fun m => map_find m 7 0 false) = some ⟨-1, 0, false⟩) ∧
    ((classify_slot (sample_map 7 (2 ^ 32 - 2) 1) (sample_disk_chain_at (2 ^ 32 - 2))
        (sample_pass (sample_tail_slot 52) 1 DirtyState.init)).found = false ∧
     map_common_probe
        (fun s => if s = 1 then sample_tail_slot 52 else sample_disk_chain_at (2 ^ 64 - 2) s) 1
        = (none, 52)) := by
  decide

/-! ## The sanity test of the recovery scan -/

/-- C25 (as stated, refuted): the head slot at sector 0 holds `public_counter` 1
(one public write has gone over it), the slots of sectors 1 and 2 hold 0. The three
counters are not equal, yet the scan accepts the chain and inserts logical sector 7
with physical sector 0 and sequence number 1: the counter of the head slot is not
looked at. -/
theorem map_common_ignores_head_counter :
    le_load (sample_disk_counters 1 0 0 0) RANDOM_BYTES_POS RANDOM_BYTES_PER_TAG = 1 ∧
    le_load (sample_disk_counters 1 0 0 1) RANDOM_BYTES_POS RANDOM_BYTES_PER_TAG = 0 ∧
    map_common_probe (sample_disk_counters 1 0 0) 0 = (some ⟨7, 1, 0⟩, 52) ∧
    (map_common (sample_disk_counters 1 0 0) (fun _ => none) 0 52).map
      (fun m => map_find m 7 0 false) = some ⟨0, 1, false⟩ := by
  decide

/-- The comparison `iv1[RANDOM_BYTES_POS + 1] != iv2[RANDOM_BYTES_POS]` at work: a
chain whose three slots all hold `public_counter` 1 is turned down, one whose slots at
sectors 1 and 2 hold `0x0101` and `0x0201` is accepted. -/
theorem map_common_counter_bytes :
    map_common_probe (sample_disk_counters 1 1 1) 0 = (none, 52) ∧
    map_common_probe (sample_disk_counters 0 0x0101 0x0201) 0 = (some ⟨7, 1, 0⟩, 52) := by
  decide

/-- C25 (amended): for every sector `h` the scan visits whose slot carries the magic
byte and `iv_offset` 0, the chain headed at `h` is accepted only if the slots at
`h + 1` and `h + 2` carry the magic byte, `iv_offset` 1 and 2, and the same byte 13
(the low byte of the `public_counter`); and it is accepted, with the logical sector
and the sequence number of the head slot, whenever the slots at `h + 1` and `h + 2`
carry the magic byte, `iv_offset` 1 and 2 and a `public_counter` of 0. The counter
of the head slot plays no part. -/
theorem map_common_accepts_head (disk : Nat → Buf) (h : Nat) (hh : h < 2 ^ 32)
    (hmagic : disk h PD_MAGIC_DATA_POS % 256 = PD_MAGIC_DATA)
    (hoff : disk h IV_OFFSET_POS % 256 = 0) :
    ((map_common_probe disk h).1 ≠ none →
      disk (h + 1) PD_MAGIC_DATA_POS % 256 = PD_MAGIC_DATA ∧
      disk (h + 2) PD_MAGIC_DATA_POS % 256 = PD_MAGIC_DATA ∧
      disk (h + 1) IV_OFFSET_POS % 256 = 1 ∧ disk (h + 2) IV_OFFSET_POS % 256 = 2 ∧
      disk (h + 1) RANDOM_BYTES_POS % 256 = disk (h + 2) RANDOM_BYTES_POS % 256) ∧
    (disk (h + 1) PD_MAGIC_DATA_POS % 256 = PD_MAGIC_DATA →
      disk (h + 2) PD_MAGIC_DATA_POS % 256 = PD_MAGIC_DATA →
      disk (h + 1) IV_OFFSET_POS % 256 = 1 → disk (h + 2) IV_OFFSET_POS % 256 = 2 →
      le_load (disk (h + 1)) RANDOM_BYTES_POS RANDOM_BYTES_PER_TAG = 0 →
      le_load (disk (h + 2)) RANDOM_BYTES_POS RANDOM_BYTES_PER_TAG = 0 →
      map_common_probe disk h =
        (some { sector_num := le_load (disk h) HIDDEN_BYTES_IN_FIRST_IV SECTOR_NUM_LEN,
                sequence_num := le_load (disk h) (HIDDEN_BYTES_IN_FIRST_IV + SECTOR_NUM_LEN)
                  SEQUENCE_NUMBER_LEN,
                map_pub_sector := h },
         NUM_PUBLIC_SECTORS_PER_HIDDEN_SECTOR)) := by
  have e1 : (h + 1) % 2 ^ 64 = h + 1 := Nat.mod_eq_of_lt (by omega)
  have e2 : h % 2 ^ 32 = h := Nat.mod_eq_of_lt hh
  have hp : map_common_probe disk h =
      if sanity_fails (disk (h + 1)) (disk (h + 2)) 1 2 then
        (none, NUM_PUBLIC_SECTORS_PER_HIDDEN_SECTOR)
      else
        (some { sector_num := le_load (disk h) HIDDEN_BYTES_IN_FIRST_IV SECTOR_NUM_LEN,
                sequence_num := le_load (disk h) (HIDDEN_BYTES_IN_FIRST_IV + SECTOR_NUM_LEN)
                  SEQUENCE_NUMBER_LEN,
                map_pub_sector := h },
         NUM_PUBLIC_SECTORS_PER_HIDDEN_SECTOR) := by
    unfold map_common_probe
    simp only [hmagic, hoff, if_true, e1, e2]
  rw [hp]
  constructor
  · intro hne
    by_cases hs : sanity_fails (disk (h + 1)) (disk (h + 2)) 1 2 = true
    · rw [if_pos hs] at hne
      exact absurd rfl hne
    · unfold sanity_fails at hs
      simp only [decide_eq_true_eq, not_or, not_not] at hs
      exact ⟨hs.1, hs.2.1, hs.2.2.1, hs.2.2.2.1, hs.2.2.2.2.1⟩
  · intro a1 a2 a3 a4 a5 a6
    have h13 : RANDOM_BYTES_POS = 13 := rfl
    have h2 : RANDOM_BYTES_PER_TAG = 2 := rfl
    rw [h13, h2, le_load_two] at a5 a6
    have hs : sanity_fails (disk (h + 1)) (disk (h + 2)) 1 2 = false := by
      unfold sanity_fails
      simp only [decide_eq_false_iff_not, not_or, not_not, h13]
      refine ⟨a1, a2, a3, a4, by omega, by omega⟩
    rw [hs]
    rfl

theorem map_common_accepts_head_witness :
    ((0 : Nat) < 2 ^ 32 ∧
      sample_disk_counters 5 0 0 0 PD_MAGIC_DATA_POS % 256 = PD_MAGIC_DATA ∧
      sample_disk_counters 5 0 0 0 IV_OFFSET_POS % 256 = 0) ∧
    le_load (sample_disk_counters 5 0 0 0) RANDOM_BYTES_POS RANDOM_BYTES_PER_TAG = 5 ∧
    map_common_probe (sample_disk_counters 5 0 0) 0 =
      (some { sector_num :=
                le_load (sample_disk_counters 5 0 0 0) HIDDEN_BYTES_IN_FIRST_IV SECTOR_NUM_LEN,
              sequence_num :=
                le_load (sample_disk_counters 5 0 0 0)
                  (HIDDEN_BYTES_IN_FIRST_IV + SECTOR_NUM_LEN) SEQUENCE_NUMBER_LEN,
              map_pub_sector := 0 },
       NUM_PUBLIC_SECTORS_PER_HIDDEN_SECTOR) :=
  ⟨⟨by norm_num, by decide, by decide⟩, by decide,
   (map_common_accepts_head (sample_disk_counters 5 0 0) 0 (by norm_num) (by decide)
      (by decide)).2 (by decide) (by decide) (by decide) (by decide) (by decide) (by decide)⟩

/-! ## Dirty list after a removal -/

/-- C30 (as found in the code): after `addto_dirty_list(1)`, `addto_dirty_list(2)`,
`removefrom_dirty_list(2)` the list holds sector 1 and `tail_dirtylist` still points to
the freed cell of sector 2 (address 1); `addto_dirty_list(3)` links its new cell
(address 2) behind that cell, out of reach of `head_dirtylist`, and
`findin_dirty_list(3)` right after it returns false. Sector 1 is still found. -/
theorem findin_after_addto_false :
    ((((addto_dirty_list 1 DirtyState.init).bind (addto_dirty_list 2)).bind
        (removefrom_dirty_list 2)).map
      (fun d => (d.head_dirtylist, d.tail_dirtylist, d.freed 1))) =
        some (some 0, some 1, true) ∧
    (((((addto_dirty_list 1 DirtyState.init).bind (addto_dirty_list 2)).bind
        (removefrom_dirty_list 2)).bind (addto_dirty_list 3)).map
      (fun d => ((d.head_dirtylist, (d.mem 0).next), (d.tail_dirtylist, (d.mem 1).next)))) =
        some ((some 0, none), (some 2, some 2)) ∧
    (((((addto_dirty_list 1 DirtyState.init).bind (addto_dirty_list 2)).bind
        (removefrom_dirty_list 2)).bind (addto_dirty_list 3)).bind
      (findin_dirty_list 3)) = some false ∧
    (((((addto_dirty_list 1 DirtyState.init).bind (addto_dirty_list 2)).bind
        (removefrom_dirty_list 2)).bind (addto_dirty_list 3)).bind
      (findin_dirty_list 1)) = some true := by
  decide

/-! ## Carrier runs of distinct keys -/

set_option maxRecDepth 100000 in
/-- C29 (as found in the code): on a fresh device (empty map, empty free list) the
hidden writes to the logical sectors 1, 1 and 2 all succeed. The block marked `TEST`
in `kcryptd_io_read` puts the carriers 52..103 of sector 1 back into the free list
before the second write, which reuses them without taking them from the list; the
write to sector 2 then takes the run at 52 from the list. Afterwards the map holds the
distinct keys 1 and 2, both with the carrier run 52..103. -/
theorem distinct_keys_share_carriers :
    ((hidden_write (fun _ => none) FreeState.init 1 (fun _ => 0x41) (fun _ => 0)).bind
      (fun w1 => (hidden_write w1.map_idr w1.fl 1 (fun _ => 0x42) (fun _ => 0)).bind
        (fun w2 => (hidden_write w2.map_idr w2.fl 2 (fun _ => 0x43) (fun _ => 0)).map
          (fun w3 => (((w1.error, w1.map_ret, w1.start), (w2.error, w2.map_ret, w2.start)),
                      ((w3.error, w3.map_ret, w3.start),
                       (map_find w3.map_idr 1 0 false, map_find w3.map_idr 2 0 false))))))) =
      some (((false, 0, 52), (false, 0, 52)), ((false, 0, 52), (⟨52, 1, true⟩, ⟨52, 1, true⟩))) := by
  decide!

/-! ## A tree of order 3 -/

/-- C27 (as stated, refuted): with `order` 3 the keys 10, 20, 30, 5, 15 inserted into
an empty tree give a root that is an inner node with the keys 10 and 20 and three
children, all leaves; the chain through the last pointers from the leftmost leaf has
three leaves, not two. -/
theorem order3_five_keys_three_leaves :
    ((insert_all [(10, 100), (20, 200), (30, 300), (5, 50), (15, 150)] none
        (BptState.sample_order 3 8)).bind (fun r => r.1.map (fun root =>
      ((r.2.nodes root).is_leaf, node_keys (r.2.nodes root),
       (leaf_chain r.2 10 ((r.2.nodes root).pointers 0)).length)))) =
      some (false, [10, 20], 3) := by
  decide!

/-- C27 (amended): with `order` 3 the keys 10, 20, 30, 5, 15 inserted into an empty
tree give a root that is an inner node with the keys 10 and 20 whose three children
are leaves holding 5, then 10 and 15, then 20 and 30; the last pointer of each leaf
points to the next one and that of the third is `NULL`. -/
theorem order3_five_keys_shape :
    ((insert_all [(10, 100), (20, 200), (30, 300), (5, 50), (15, 150)] none
        (BptState.sample_order 3 8)).bind (fun r => r.1.map (fun root =>
      ((r.2.nodes root).is_leaf, node_keys (r.2.nodes root))))) = some (false, [10, 20]) ∧
    ((insert_all [(10, 100), (20, 200), (30, 300), (5, 50), (15, 150)] none
        (BptState.sample_order 3 8)).bind (fun r => r.1.map (fun root =>
      (List.range 3).map (r.2.nodes root).pointers))) = some [some 1, some 8, some 4] ∧
    ((insert_all [(10, 100), (20, 200), (30, 300), (5, 50), (15, 150)] none
        (BptState.sample_order 3 8)).bind (fun r => r.1.map (fun root =>
      leaf_chain r.2 10 ((r.2.nodes root).pointers 0)))) =
        some [(1, [5]), (8, [10, 15]), (4, [20, 30])] ∧
    ((insert_all [(10, 100), (20, 200), (30, 300), (5, 50), (15, 150)] none
        (BptState.sample_order 3 8)).map (fun r =>
      [1, 8, 4].map (fun a => (r.2.nodes a).is_leaf))) = some [true, true, true] := by
  decide!

/-! ## Key counts after inserts -/

set_option maxRecDepth 100000 in
/-- C28 (as found in the code): order 5, the keys 100, 99, ..., 84 inserted into an
empty tree. The seventeenth insert splits the root: the new inner node (keys 95 and
98) gets its third child without an entry in `pointers_disk`, which keeps what
`kmalloc` left there, and with `pointers_expanded` unset. The insert of key 1000 then
reads that child from the sector the stale entry names, here sector 5201, the slot of
a hidden sector (`iv_offset` 1 in the byte read as `is_leaf`, 0 in the byte read as
`num_keys`): the tree gets a leaf that is not the root and holds the single key 1000,
fewer than `cut(order - 1)` = 2. -/
theorem insert_leaves_underfull_leaf :
    ((insert_all (sample_descending 100 17) none (BptState.sample_stale 5 40 5201)).bind
      (fun r => r.1.map (fun root =>
        ((r.2.nodes root).is_leaf, node_keys (r.2.nodes root),
          ((r.2.nodes root).pointers 1).map (fun n => node_keys (r.2.nodes n)))))) =
      some (false, [92], some [95, 98]) ∧
    ((insert_all (sample_descending 100 17 ++ [(1000, 1)]) none
        (BptState.sample_stale 5 40 5201)).bind
      (fun r => r.1.bind (fun root => ((r.2.nodes root).pointers 1).bind (fun n =>
        ((r.2.nodes n).pointers 2).map (fun g =>
          ((decide (g ≠ root), (r.2.nodes g).is_leaf), node_keys (r.2.nodes g),
            cut (r.2.order - 1))))))) =
      some ((true, true), [1000], 2) := by
  decide!

set_option maxRecDepth 100000 in
/-- The first leaf split for every order from 3 to 20: the keys `1, ..., m` inserted
into an empty tree of order `m` give a root with one key and two leaves, the left one
with the first `cut(m - 1)` keys and the right one with the remaining
`m - cut(m - 1)` keys. -/
theorem first_leaf_split_counts :
    ∀ m ∈ List.range' 3 18,
      ((insert_all (sample_pairs m 0) none (BptState.sample_order m 4)).bind
        (fun r => r.1.bind (fun root =>
          ((r.2.nodes root).pointers 0).bind (fun l =>
            ((r.2.nodes root).pointers 1).map (fun n =>
              (((r.2.nodes root).is_leaf, (r.2.nodes root).num_keys),
               node_keys (r.2.nodes l), node_keys (r.2.nodes n))))))) =
        some ((false, 1), (List.range' 1 (cut (m - 1))).map (fun k => (k : Int)),
          (List.range' (cut (m - 1) + 1) (m - cut (m - 1))).map (fun k => (k : Int))) := by
  decide!

end PdLinux
